import Mathlib

/-!
# re2c: tag-variable allocation and AST helpers

A shallow embedding of

* `cfg_t::variable_allocation` (`src/dfa/cfg/varalloc.cc`),
* `fixlen` (`src/re/ast_to_re.cc`),
* `ast_alt` / `ast_cat` (`src/ast/ast.cc`),

and theorems about them.

Conventions of the embedding.

* `tagver_t` values that index the arrays are natural numbers. `END` is
  `std::numeric_limits<tagver_t>::max()` for the 32-bit `tagver_t`; the
  theorems assume `nver ≤ END`, which holds for every `nver` of that type.
  The index `x * nver + y` into the table of `nver * nver` cells is computed
  exactly, as it is in the source whenever `nver * nver` fits `tagver_t`.
* The C arrays `next`, `repr`, `ver2new` and `interf` are lists. Every read
  and every write is bounds-checked: an access outside the array makes the
  whole computation `none`.
* The `for (z = r; z != END; z = next[z])` walks take a fuel argument; running
  out of fuel is `none` as well. The theorems show that a fuel above the
  number of versions is always enough.
* `ver2new` is owned by the caller and is not read by the function; its cells
  are `Option Nat`, `none` meaning "not written by the function".
* `TAGVER_ZERO` is declared in a header and is taken as a parameter `tagver_zero`.
-/

namespace re2c

/-! ## The allocator: data -/

/-- The list terminator `END = std::numeric_limits<tagver_t>::max()`. -/
def END : Nat := 2147483647

/-- A copy command `lhs = rhs` (the fields of `tcmd_t` that the allocator reads;
the `next` pointer of the command list is the list structure). -/
structure tcmd_t where
  lhs : Nat
  rhs : Nat
deriving DecidableEq, Repr

/-- A basic block: its list of commands (`b->cmd`, followed through `p->next`). -/
structure cfg_bb_t where
  cmd : List tcmd_t
deriving DecidableEq, Repr

/-- The fields of `cfg_t` that the allocator reads: `cfg.dfa.maxtagver` and the
blocks `cfg.bblocks[0 .. cfg.nbbfall)`. -/
structure cfg_t where
  maxtagver : Nat
  bblocks : List cfg_bb_t
deriving DecidableEq, Repr

/-- The value of `nver = cfg.dfa.maxtagver + 1`. -/
def cfg_t.nver (cfg : cfg_t) : Nat := cfg.maxtagver + 1

/-- The two working arrays: `next` (list of class members) and `repr` (maps a
version to its class representative). -/
structure Lists where
  next : List Nat
  repr : List Nat
deriving DecidableEq, Repr

/-- A bounds-checked array write `a[i] = v`. -/
def store {α : Type} (a : List α) (i : Nat) (v : α) : Option (List α) :=
  if i < a.length then some (a.set i v) else none

/-- A counted `for` loop over the index list `is`, threading the state; the
body may fail. -/
def forLoop {ι σ : Type} (body : ι → σ → Option σ) : List ι → σ → Option σ
  | [], s => some s
  | i :: is, s =>
    match body i s with
    | none => none
    | some s' => forLoop body is s'

/-! ## The allocator: the loops of `variable_allocation` -/

/-- The member walk
`for (z = z0; z != END; z = next[z]) { if (interf[idx z]) break; }`;
the result is the value of `z` after the loop. -/
def scan (interf : List Bool) (next : List Nat) (idx : Nat → Nat) : Nat → Nat → Option Nat
  | 0, _ => none
  | fuel + 1, z =>
    if z = END then some END
    else
      match interf[idx z]? with
      | none => none
      | some true => some z
      | some false =>
        match next[z]? with
        | none => none
        | some z' => scan interf next idx fuel z'

/-- The three assignments `repr[m] = r; next[m] = next[r]; next[r] = m;` that
put version `m` right behind the representative `r`. -/
def link (s : Lists) (r m : Nat) : Option Lists :=
  match store s.repr m r with
  | none => none
  | some repr1 =>
    match s.next[r]? with
    | none => none
    | some nr =>
      match store s.next m nr with
      | none => none
      | some next1 =>
        match store next1 r m with
        | none => none
        | some next2 => some ⟨next2, repr1⟩

/-- The body of the copy-coalescing loop for one command `p` (lines 36-65). -/
def coalesce (tagver_zero N : Nat) (interf : List Bool) (fuel : Nat) (p : tcmd_t) (s : Lists) :
    Option Lists :=
  let x := p.lhs
  let y := p.rhs
  if y = tagver_zero ∨ y = x then some s
  else
    match s.repr[x]? with
    | none => none
    | some rx =>
      match s.repr[y]? with
      | none => none
      | some ry =>
        if rx ≠ END then
          if ry ≠ END then some s
          else
            match scan interf s.next (fun z => z * N + y) fuel rx with
            | none => none
            | some z => if z = END then link s rx y else some s
        else if ry ≠ END then
          match scan interf s.next (fun z => z * N + x) fuel ry with
          | none => none
          | some z => if z = END then link s ry x else some s
        else
          match interf[x * N + y]? with
          | none => none
          | some true => some s
          | some false =>
            -- repr[x] = repr[y] = x; next[x] = y;
            match store s.repr y x with
            | none => none
            | some repr1 =>
              match store repr1 x x with
              | none => none
              | some repr2 =>
                match store s.next x y with
                | none => none
                | some next1 => some ⟨next1, repr2⟩

/-- Copy coalescing (lines 32-67): all commands of all blocks, in order. -/
def copy_coalescing (tagver_zero N : Nat) (interf : List Bool) (fuel : Nat)
    (bblocks : List cfg_bb_t) (s : Lists) : Option Lists :=
  forLoop (fun b s => forLoop (coalesce tagver_zero N interf fuel) b.cmd s) bblocks s

/-- The double member walk of class merging (lines 76-81); the result is the
value of `x` after the outer loop. -/
def scan2 (N : Nat) (interf : List Bool) (next : List Nat) (ry : Nat) (fuel : Nat) :
    Nat → Nat → Option Nat
  | 0, _ => none
  | ofuel + 1, x =>
    if x = END then some END
    else
      match scan interf next (fun y => x * N + y) fuel ry with
      | none => none
      | some y =>
        if y ≠ END then some x
        else
          match next[x]? with
          | none => none
          | some x' => scan2 N interf next ry fuel ofuel x'

/-- The relabelling loop of class merging (lines 84-91):
`for (y = ry;; y = next[y]) { repr[y] = rx; if (next[y] == END) { next[y] = next[rx]; next[rx] = ry; break; } }`. -/
def relabel (rx ry : Nat) : Nat → Nat → Lists → Option Lists
  | 0, _, _ => none
  | fuel + 1, y, s =>
    match store s.repr y rx with
    | none => none
    | some repr1 =>
      match s.next[y]? with
      | none => none
      | some ny =>
        if ny = END then
          match s.next[rx]? with
          | none => none
          | some nrx =>
            match store s.next y nrx with
            | none => none
            | some next1 =>
              match store next1 rx ry with
              | none => none
              | some next2 => some ⟨next2, repr1⟩
        else relabel rx ry fuel ny ⟨s.next, repr1⟩

/-- The body of the inner loop of class merging for one `ry` (lines 74-92). -/
def merge_pair (N : Nat) (interf : List Bool) (fuel : Nat) (rx ry : Nat) (s : Lists) :
    Option Lists :=
  match s.repr[ry]? with
  | none => none
  | some r =>
    if ry ≠ r then some s
    else
      match scan2 N interf s.next ry fuel fuel rx with
      | none => none
      | some x => if x = END then relabel rx ry fuel ry s else some s

/-- The body of the outer loop of class merging for one `rx` (lines 71-93). -/
def merge_row (N : Nat) (interf : List Bool) (fuel : Nat) (rx : Nat) (s : Lists) :
    Option Lists :=
  match s.repr[rx]? with
  | none => none
  | some r =>
    if rx ≠ r then some s
    else forLoop (merge_pair N interf fuel rx) (List.range' (rx + 1) (N - (rx + 1))) s

/-- Class merging (lines 69-94). -/
def class_merging (N : Nat) (interf : List Bool) (fuel : Nat) (s : Lists) : Option Lists :=
  forLoop (merge_row N interf fuel) (List.range N) s

/-- The loop `for (rx = 0; rx < nver; ++rx)` of residual placement with its
`break`, followed by `if (rx == nver) repr[x] = x;` (lines 101-121). The list
holds the values of `rx` still to be tried. -/
def try_classes (N : Nat) (interf : List Bool) (fuel : Nat) (x : Nat) :
    List Nat → Lists → Option Lists
  | [], s =>
    match store s.repr x x with
    | none => none
    | some repr1 => some ⟨s.next, repr1⟩
  | rx :: rest, s =>
    match s.repr[rx]? with
    | none => none
    | some r =>
      if rx ≠ r then try_classes N interf fuel x rest s
      else
        match scan interf s.next (fun y => x * N + y) fuel rx with
        | none => none
        | some y => if y = END then link s rx x else try_classes N interf fuel x rest s

/-- The body of the residual-placement loop for one `x` (lines 98-121). -/
def place (N : Nat) (interf : List Bool) (fuel : Nat) (x : Nat) (s : Lists) : Option Lists :=
  match s.repr[x]? with
  | none => none
  | some r => if r ≠ END then some s else try_classes N interf fuel x (List.range N) s

/-- Residual placement (lines 96-122). -/
def residual_placement (N : Nat) (interf : List Bool) (fuel : Nat) (s : Lists) : Option Lists :=
  forLoop (place N interf fuel) (List.range N) s

/-- The walk `for (x = rx; x != END; x = next[x]) ver2new[x] = maxver;`. -/
def assign (next : List Nat) (maxver : Nat) : Nat → Nat → List (Option Nat) →
    Option (List (Option Nat))
  | 0, _, _ => none
  | fuel + 1, x, v =>
    if x = END then some v
    else
      match store v x (some maxver) with
      | none => none
      | some v1 =>
        match next[x]? with
        | none => none
        | some x' => assign next maxver fuel x' v1

/-- The body of the numbering loop for one `rx` (lines 126-131); the state is
`(maxver, ver2new)`. -/
def number_class (s : Lists) (fuel : Nat) (rx : Nat) (acc : Nat × List (Option Nat)) :
    Option (Nat × List (Option Nat)) :=
  match s.repr[rx]? with
  | none => none
  | some r =>
    if r ≠ rx then some acc
    else
      match assign s.next (acc.1 + 1) fuel rx acc.2 with
      | none => none
      | some v1 => some (acc.1 + 1, v1)

/-- The numbering loop (lines 124-132). -/
def numbering (N : Nat) (fuel : Nat) (s : Lists) (v : List (Option Nat)) :
    Option (Nat × List (Option Nat)) :=
  forLoop (number_class s fuel) (List.range N) (0, v)

/-- The arrays after `std::fill(next, next + nver, END)` and the same for `repr`. -/
def init (N : Nat) : Lists := ⟨List.replicate N END, List.replicate N END⟩

/-- The state of the working arrays after the three phases. -/
def partition (tagver_zero : Nat) (cfg : cfg_t) (interf : List Bool) (fuel : Nat) : Option Lists :=
  match copy_coalescing tagver_zero cfg.nver interf fuel cfg.bblocks (init cfg.nver) with
  | none => none
  | some s1 =>
    match class_merging cfg.nver interf fuel s1 with
    | none => none
    | some s2 => residual_placement cfg.nver interf fuel s2

/-- The function `cfg_t::variable_allocation`: the result is the returned
`maxver` and the contents of `ver2new`. -/
def variable_allocation (tagver_zero : Nat) (cfg : cfg_t) (interf : List Bool) (fuel : Nat) :
    Option (Nat × List (Option Nat)) :=
  match partition tagver_zero cfg interf fuel with
  | none => none
  | some s3 => numbering cfg.nver fuel s3 (List.replicate cfg.nver none)

/-! ## Predicates used in the statements -/

/-- The walk through `next` from `z` visits exactly the members `l`, in this
order, and then reaches `END`. -/
def Chain (next : List Nat) : Nat → List Nat → Prop
  | z, [] => z = END
  | z, m :: l => z = m ∧ m ≠ END ∧ ∃ z', next[m]? = some z' ∧ Chain next z' l


/-- The representation invariant of the working arrays: `repr` maps every
version to `END` (no class yet) or to a representative that represents itself,
and the `next` list of a representative holds exactly its class, each member
once, and ends at `END`. -/
structure ClassInv (N : Nat) (s : Lists) : Prop where
  le_end : N ≤ END
  next_len : s.next.length = N
  repr_len : s.repr.length = N
  repr_idem : ∀ x r : Nat, s.repr[x]? = some r → r ≠ END → s.repr[r]? = some r
  free_next : ∀ x : Nat, s.repr[x]? = some END → s.next[x]? = some END
  chain : ∀ r : Nat, s.repr[r]? = some r →
    ∃ l, Chain s.next r l ∧ l.Nodup ∧ ∀ x : Nat, x ∈ l ↔ s.repr[x]? = some r

/-- One change of the class structure, seen on `repr` alone, together with the
interference test that allowed it:
`join`: a version without class enters an existing class;
`fresh`: two versions without class form a new class;
`merge`: the class of `ry` is moved into the class of `rx`;
`single`: a version without class becomes a class of its own. -/
inductive Step (N : Nat) (interf : List Bool) (repr : List Nat) : List Nat → Prop
  | join (m r : Nat) (hm : repr[m]? = some END) (hr : repr[r]? = some r)
      (hno : (∀ a : Nat, repr[a]? = some r → interf[a * N + m]? = some false) ∨
             (∀ a : Nat, repr[a]? = some r → interf[m * N + a]? = some false)) :
      Step N interf repr (repr.set m r)
  | fresh (x y : Nat) (hne : x ≠ y) (hx : repr[x]? = some END) (hy : repr[y]? = some END)
      (hno : interf[x * N + y]? = some false) :
      Step N interf repr ((repr.set y x).set x x)
  | merge (rx ry : Nat) (hne : rx ≠ ry) (hrx : repr[rx]? = some rx) (hry : repr[ry]? = some ry)
      (hno : ∀ a b : Nat, repr[a]? = some rx → repr[b]? = some ry →
        interf[a * N + b]? = some false) :
      Step N interf repr (repr.map (fun r => if r = ry then rx else r))
  | single (x : Nat) (hx : repr[x]? = some END)
      (hall : ∀ r : Nat, repr[r]? = some r →
        ∃ y : Nat, repr[y]? = some r ∧ interf[x * N + y]? = some true) :
      Step N interf repr (repr.set x x)

/-- Zero or more changes of the class structure. -/
def Steps (N : Nat) (interf : List Bool) : List Nat → List Nat → Prop :=
  Relation.ReflTransGen (Step N interf)

/-- Some class has two members: a version whose representative is another version. -/
def Shared (repr : List Nat) : Prop :=
  ∃ a r : Nat, repr[a]? = some r ∧ r ≠ END ∧ r ≠ a

/-- The part of the invariant that speaks about `repr` alone. -/
def ReprOk (N : Nat) (repr : List Nat) : Prop :=
  N ≤ END ∧ repr.length = N ∧
    ∀ x r : Nat, repr[x]? = some r → r ≠ END → repr[r]? = some r

/-- The interference table is symmetric. -/
def SymmetricTable (N : Nat) (interf : List Bool) : Prop :=
  ∀ x < N, ∀ y < N, interf[x * N + y]? = interf[y * N + x]?

instance (N : Nat) (interf : List Bool) : Decidable (SymmetricTable N interf) := by
  unfold SymmetricTable
  infer_instance

/-- Every pair of distinct versions interferes. -/
def FullyInterfering (N : Nat) (interf : List Bool) : Prop :=
  ∀ x < N, ∀ y < N, x ≠ y → interf[x * N + y]? = some true

instance (N : Nat) (interf : List Bool) : Decidable (FullyInterfering N interf) := by
  unfold FullyInterfering
  infer_instance

/-- All commands of all blocks have both versions in `0..N-1`. -/
def CmdsInRange (N : Nat) (bblocks : List cfg_bb_t) : Prop :=
  ∀ b ∈ bblocks, ∀ p ∈ b.cmd, p.lhs < N ∧ p.rhs < N

instance (N : Nat) (bblocks : List cfg_bb_t) : Decidable (CmdsInRange N bblocks) := by
  unfold CmdsInRange
  infer_instance

/-- No two distinct versions of one class interfere. -/
def NoInterf (N : Nat) (interf : List Bool) (repr : List Nat) : Prop :=
  ∀ a b r : Nat, a ≠ b → repr[a]? = some r → repr[b]? = some r → r ≠ END →
    interf[a * N + b]? = some false

/-- The outcome of a loop body or of a phase: the invariant holds again, the
class structure changed by steps, and it is unchanged unless some class now has
two members. -/
def Grown (N : Nat) (interf : List Bool) (s s' : Lists) : Prop :=
  ClassInv N s' ∧ Steps N interf s.repr s'.repr ∧ (s'.repr = s.repr ∨ Shared s'.repr)

/-- Version `r` is a class representative. -/
def isRep (repr : List Nat) (r : Nat) : Bool := decide (repr[r]? = some r)

/-- The number of class representatives among the versions `0..q`. -/
def rank (repr : List Nat) (q : Nat) : Nat := (List.range (q + 1)).countP (isRep repr)

/-- The number of class representatives among the versions `0..N-1`. -/
def classCount (N : Nat) (repr : List Nat) : Nat := (List.range N).countP (isRep repr)

/-! ## Concrete inputs -/

/-- Scenario D of the specification: three versions and the single copy command `2 = 0`. -/
def scenarioD_cfg : cfg_t := ⟨2, [⟨[⟨2, 0⟩]⟩]⟩

/-- Scenario D: the interference relation holds the pair `(0,1)` only. -/
def scenarioD_interf : List Bool :=
  [false, true, false,
   true, false, false,
   false, false, false]

/-- Two versions that interfere with each other, and the copy command `1 = 0`. -/
def pair_cfg : cfg_t := ⟨1, [⟨[⟨1, 0⟩]⟩]⟩

/-- The interference table of two versions that interfere with each other. -/
def pair_interf : List Bool :=
  [false, true,
   true, false]

/-- The outcome of residual placement for version `x`, seen on `repr`: `x`
entered the class of `r`; or `x` had a class already and nothing changed; or
`x` became a class of its own because it interferes with a member of every
class. -/
def Placed (N : Nat) (interf : List Bool) (x : Nat) (repr repr' : List Nat) : Prop :=
  (∃ r : Nat, r ≠ END ∧ r ≠ x ∧ repr[x]? = some END ∧ repr[r]? = some r ∧
      repr' = repr.set x r) ∨
  (repr' = repr ∧ ∃ q : Nat, repr[x]? = some q ∧ q ≠ END) ∨
  (repr[x]? = some END ∧ repr' = repr.set x x ∧
      ∀ r : Nat, repr[r]? = some r →
        ∃ y : Nat, repr[y]? = some r ∧ interf[x * N + y]? = some true)

/-- No two distinct versions interfere. -/
def InterferenceFree (N : Nat) (interf : List Bool) : Prop :=
  ∀ x < N, ∀ y < N, x ≠ y → interf[x * N + y]? = some false

instance (N : Nat) (interf : List Bool) : Decidable (InterferenceFree N interf) := by
  unfold InterferenceFree
  infer_instance

/-- All commands of all blocks, in scan order. -/
def allCmds (bblocks : List cfg_bb_t) : List tcmd_t :=
  bblocks.flatMap (fun b => b.cmd)

/-- Versions `a` and `b` are the two sides of a copy command whose sides do not
interfere. -/
def CopyEdge (N : Nat) (interf : List Bool) (cmds : List tcmd_t) (a b : Nat) : Prop :=
  ∃ p ∈ cmds, ((p.lhs = a ∧ p.rhs = b) ∨ (p.lhs = b ∧ p.rhs = a)) ∧
    interf[p.lhs * N + p.rhs]? = some false

/-- Every version is connected to the version `root` by a chain of copy
commands each of which has non-interfering sides. -/
def ChainedTo (N : Nat) (interf : List Bool) (cmds : List tcmd_t) (root : Nat) : Prop :=
  ∀ x, x < N → Relation.ReflTransGen (CopyEdge N interf cmds) root x

/-- Three versions in the chain `1 = 0`, `2 = 1`. -/
def chain_cfg : cfg_t := ⟨2, [⟨[⟨1, 0⟩, ⟨2, 1⟩]⟩]⟩

/-- The two ends of the chain, `0` and `2`, interfere; the neighbours do not. -/
def chain_interf : List Bool :=
  [false, false, true,
   false, false, false,
   true, false, false]

/-- All reads of the interference table give `false`. -/
def free_interf (N : Nat) : List Bool := List.replicate (N * N) false

/-- A table in which only the entry for the ordered pair `(0,2)` is set: it is
not symmetric. -/
def asym_interf : List Bool :=
  [false, false, true,
   false, false, false,
   false, false, false]

/-! ## The AST -/

/-- One character of a string literal: the code point and its source column. -/
structure ASTChar where
  chr : Nat
  column : Nat
deriving DecidableEq, Repr

/-- One range of a character class. -/
structure ASTRange where
  lower : Nat
  upper : Nat
  column : Nat
deriving DecidableEq, Repr

/-- The AST node: the `type` tag with the payload of that kind, and the source
position `line`, `column` stored in every node. -/
inductive AST where
  | NIL (line column : Nat)
  | STR (line column : Nat) (chars : List ASTChar) (icase : Bool)
  | CLS (line column : Nat) (ranges : List ASTRange) (negated : Bool)
  | DOT (line column : Nat)
  | DEFAULT (line column : Nat)
  | ALT (line column : Nat) (ast1 ast2 : AST)
  | CAT (line column : Nat) (ast1 ast2 : AST)
  | DIFF (line column : Nat) (ast1 ast2 : AST)
  | TAG (line column : Nat) (name : Option String) (history : Bool)
  | CAP (line column : Nat) (ast : AST)
  | REF (line column : Nat) (ast : AST) (name : String)
  | ITER (line column : Nat) (ast : AST) (min max : Nat)
deriving DecidableEq, Repr

/-- The field `line` of a node. -/
def AST.line : AST → Nat
  | NIL l _ | STR l _ _ _ | CLS l _ _ _ | DOT l _ | DEFAULT l _ | ALT l _ _ _ | CAT l _ _ _
  | DIFF l _ _ _ | TAG l _ _ _ | CAP l _ _ | REF l _ _ _ | ITER l _ _ _ _ => l

/-- The field `column` of a node. -/
def AST.column : AST → Nat
  | NIL _ c | STR _ c _ _ | CLS _ c _ _ | DOT _ c | DEFAULT _ c | ALT _ c _ _ | CAT _ c _ _
  | DIFF _ c _ _ | TAG _ c _ _ | CAP _ c _ | REF _ c _ _ | ITER _ c _ _ _ => c

/-- Arithmetic on `size_t` is modulo `2^64`. -/
def SIZE_MOD : Nat := 18446744073709551616

/-- Arithmetic on `uint32_t` is modulo `2^32`. -/
def UINT32_MOD : Nat := 4294967296

/-- The function `fixlen` of `ast_to_re.cc`. The constant `Tag::VARDIST` is
declared in a header and is the parameter `VARDIST`. -/
def fixlen (VARDIST : Nat) : AST → Nat
  | .NIL _ _ => 0
  | .TAG _ _ _ _ => 0
  | .CLS _ _ _ _ => 1
  | .DOT _ _ => 1
  | .DEFAULT _ _ => 1
  | .DIFF _ _ _ _ => 1
  | .STR _ _ chars _ => chars.length % SIZE_MOD
  | .ALT _ _ ast1 ast2 =>
    let l1 := fixlen VARDIST ast1
    let l2 := fixlen VARDIST ast2
    if l1 = l2 then l1 else VARDIST
  | .CAT _ _ ast1 ast2 =>
    let l1 := fixlen VARDIST ast1
    let l2 := fixlen VARDIST ast2
    if l1 = VARDIST ∨ l2 = VARDIST then VARDIST else (l1 + l2) % SIZE_MOD
  | .REF _ _ ast _ => fixlen VARDIST ast
  | .ITER _ _ ast min max =>
    let l := fixlen VARDIST ast
    let m := min
    let n := max
    if l = VARDIST ∨ m ≠ n then VARDIST
    else (l * ((n + UINT32_MOD - m) % UINT32_MOD)) % SIZE_MOD
  | .CAP _ _ ast => fixlen VARDIST ast

/-- The function `ast_alt`. A pointer argument is `Option AST`, `none` being the
null pointer; `flist` is the registry `AST::flist`, to which the constructor
`AST::AST` adds every node it builds. The result is the registry after the call
and the returned pointer. -/
def ast_alt (flist : List AST) (a1 a2 : Option AST) : List AST × Option AST :=
  match a1 with
  | none => (flist, a2)
  | some x1 =>
    match a2 with
    | none => (flist, a1)
    | some x2 =>
      let ast := AST.ALT x1.line x1.column x1 x2
      (ast :: flist, some ast)

/-- The function `ast_cat`, modelled like `ast_alt`. -/
def ast_cat (flist : List AST) (a1 a2 : Option AST) : List AST × Option AST :=
  match a1 with
  | none => (flist, a2)
  | some x1 =>
    match a2 with
    | none => (flist, a1)
    | some x2 =>
      let ast := AST.CAT x1.line x1.column x1 x2
      (ast :: flist, some ast)

/-! ## Lowering of the AST: data

The lowering code of `ast_to_re.cc` uses types, constants and functions that
are declared in headers and defined in other translation units: the `RE`
node and its constructors, `Tag`, `Range`, the encoding object `Enc`, the case
functions. They are modelled below, each under a comment that says so; the
functions of other translation units are fields of `Prims`.

`size_t ncap` counts capture groups; `2 * ncap + 1` stays below the size of the
tag vector, so this arithmetic is done in `Nat`. -/

/-- Modelled from the spec: a `Range` is a set of code-point intervals; a
`Range *` may be null, which stands for the empty set. -/
abbrev Range := List (Nat × Nat)

/-- A pointer `Range *`, `none` being the null pointer. -/
abbrev RangePtr := Option Range

/-- Modelled from the spec: the RE-IR node, "a variant over `Nil`,
`Symbol(range-set)`, `Alt`, `Cat`, `Iter(min,max)`, `Tag(index, negative?)`". -/
inductive RE where
  | NIL
  | SYM (sym : RangePtr)
  | ALT (re1 re2 : RE)
  | CAT (re1 re2 : RE)
  | ITER (re : RE) (min max : Nat)
  | TAG (idx : Nat) (neg : Bool)
deriving DecidableEq, Repr

/-- Modelled from the spec: the capture field of a tag. The source keeps it in
one `size_t` field `ncap` with two sentinel values: `Tag::RIGHTMOST` for a tag
that is no capture and `Tag::FICTIVE` for a fictive tag; other values are the
capture slot. -/
inductive TagSlot where
  | RIGHTMOST
  | FICTIVE
  | CAPTURE (slot : Nat)
deriving DecidableEq, Repr

/-- Modelled from the spec: a tag "holds an optional name, a `history` flag,
and for POSIX-mode tags a numeric capture slot". -/
structure Tag where
  name : Option String
  ncap : TagSlot
  history : Bool
deriving DecidableEq, Repr

/-- Modelled from the spec: the constructor `Tag(const std::string *name, bool history)`
of a simple tag. -/
def Tag.named (name : Option String) (history : Bool) : Tag := ⟨name, .RIGHTMOST, history⟩

/-- Modelled from the spec: the constructor `Tag(size_t ncap, bool history)` of
an unnamed capture or fictive tag. -/
def Tag.ofSlot (ncap : TagSlot) (history : Bool) : Tag := ⟨none, ncap, history⟩

/-- Modelled from the spec: the test `fictive(tag)`. -/
def fictive (t : Tag) : Bool := t.ncap = TagSlot.FICTIVE

/-- Modelled from the spec: the test `capture(tag)`: the tag has a capture slot
(fictive tags included, as in the source, where it is `ncap != Tag::RIGHTMOST`). -/
def capture (t : Tag) : Bool := t.ncap ≠ TagSlot.RIGHTMOST

/-- The kinds of encoding told apart by `re_schar` and `re_class`. -/
inductive Enc.type_t where
  | ASCII | EBCDIC | UCS2 | UTF16 | UTF32 | UTF8
deriving DecidableEq, Repr

/-- Modelled from the spec: the encoding object `opts->encoding`. `encode`
gives the encoded code point or fails; `encodeRange` gives null on failure. -/
structure Enc where
  type : Enc.type_t
  encode : Nat → Option Nat
  encodeRange : Nat → Nat → RangePtr
  fullRange : RangePtr
  nCodeUnits : Nat

/-- The three policies for an empty character class. -/
inductive empty_class_policy_t where
  | EMPTY_CLASS_MATCH_EMPTY
  | EMPTY_CLASS_MATCH_NONE
  | EMPTY_CLASS_ERROR
deriving DecidableEq, Repr

/-- The fields of `opt_t` that the lowering reads. -/
structure opt_t where
  bCaseInsensitive : Bool
  bCaseInverted : Bool
  posix_captures : Bool
  tags : Bool
  empty_class_policy : empty_class_policy_t
  encoding : Enc

/-- Functions and constants of other translation units that the lowering
calls: the `Range` operations, the multi-unit encoders, the case functions of
`case.h`, the test `trailing` and the constant `Tag::VARDIST`. -/
structure Prims where
  VARDIST : Nat
  range_sym : Nat → RangePtr
  range_ran : Nat → Nat → RangePtr
  range_add : RangePtr → RangePtr → RangePtr
  range_sub : RangePtr → RangePtr → RangePtr
  UTF16Symbol : Nat → RE
  UTF8Symbol : Nat → RE
  UTF16Range : RangePtr → RE
  UTF8Range : RangePtr → RE
  is_alpha : Nat → Bool
  to_lower_unsafe : Nat → Nat
  to_upper_unsafe : Nat → Nat
  trailing : Tag → Bool

/-- The fatal diagnostics of `fatal_lc` and `fatal_l`, one constructor for each
message; `undefined` stands for a null dereference or an access outside an
array. -/
inductive Fatal where
  | bad_code_point_range (line column lower upper : Nat)
  | bad_code_point (line column c : Nat)
  | diff_char_sets (line column : Nat)
  | tags_need_option (line column : Nat)
  | simple_tags_with_posix (line column : Nat)
  | implicit_grouping (line : Nat) (name : String)
  | empty_character_class (line column : Nat)
  | tag_used_multiple_times (fline : Nat) (name : String)
  | undefined
deriving DecidableEq, Repr

/-- What the lowering changes: the tag table `spec.tags`, the counter `ncap`
passed by reference, and the warnings given to `spec.warn` (the lines of
`warn.empty_class`). -/
structure LowerState where
  tags : List Tag
  ncap : Nat
  warn : List Nat
deriving DecidableEq, Repr

/-- The kinds of AST node, `AST::type_t`. -/
inductive AST.type_t where
  | NIL | STR | CLS | DOT | DEFAULT | ALT | CAT | DIFF | TAG | CAP | REF | ITER
deriving DecidableEq, Repr

/-- The field `type` of a node. -/
def AST.type : AST → AST.type_t
  | .NIL _ _ => .NIL
  | .STR _ _ _ _ => .STR
  | .CLS _ _ _ _ => .CLS
  | .DOT _ _ => .DOT
  | .DEFAULT _ _ => .DEFAULT
  | .ALT _ _ _ _ => .ALT
  | .CAT _ _ _ _ => .CAT
  | .DIFF _ _ _ _ => .DIFF
  | .TAG _ _ _ _ => .TAG
  | .CAP _ _ _ => .CAP
  | .REF _ _ _ _ => .REF
  | .ITER _ _ _ _ _ => .ITER

/-- The function `ast_need_wrap` of `ast.cc`. -/
def ast_need_wrap (ast : AST) : Bool :=
  match ast.type with
  | .ITER | .NIL | .STR | .CLS | .DOT | .DEFAULT | .TAG | .CAP => false
  | .ALT | .CAT | .DIFF | .REF => true

/-- The function `has_tags` of `ast_to_re.cc`. -/
def has_tags : AST → Bool
  | .NIL _ _ => false
  | .STR _ _ _ _ => false
  | .CLS _ _ _ _ => false
  | .DOT _ _ => false
  | .DEFAULT _ _ => false
  | .DIFF _ _ _ _ => false
  | .TAG _ _ _ _ => true
  | .CAP _ _ _ => true
  | .ALT _ _ ast1 ast2 => has_tags ast1 || has_tags ast2
  | .CAT _ _ ast1 ast2 => has_tags ast1 || has_tags ast2
  | .REF _ _ ast _ => has_tags ast
  | .ITER _ _ ast _ _ => has_tags ast

/-! ## Lowering of the AST: the constructors of `RE` -/

/-- Modelled from the spec: `re_nil`. -/
def re_nil : Option RE := some RE.NIL

/-- Modelled from the spec: `re_sym`. -/
def re_sym (r : RangePtr) : Option RE := some (RE.SYM r)

/-- Modelled from the spec: `re_tag`, the tag marker with index `idx`. -/
def re_tag (idx : Nat) (neg : Bool) : Option RE := some (RE.TAG idx neg)

/-- Modelled from the spec: `re_cat`; a null operand is the identity, as the
calls `re_cat(alc, t1, re_cat(alc, x, t2))` with null `t1`, `t2` require. -/
def re_cat (x y : Option RE) : Option RE :=
  match x, y with
  | none, _ => y
  | some _, none => x
  | some a, some b => some (RE.CAT a b)

/-- Modelled from the spec: `re_alt`; a null operand is the identity. -/
def re_alt (x y : Option RE) : Option RE :=
  match x, y with
  | none, _ => y
  | some _, none => x
  | some a, some b => some (RE.ALT a b)

/-- Modelled from the spec: `re_iter`, the bounded repetition of `x`. A null
operand does not occur (lowering returns a node) and is `undefined`. -/
def re_iter (x : Option RE) (n m : Nat) : Except Fatal (Option RE) :=
  match x with
  | none => .error .undefined
  | some a => .ok (some (RE.ITER a n m))

/-! ## Lowering of the AST: the functions of `ast_to_re.cc` -/

/-- The function `re_schar`. -/
def re_schar (P : Prims) (opts : opt_t) (line column c : Nat) : Except Fatal (Option RE) :=
  match opts.encoding.encode c with
  | none => .error (.bad_code_point line column c)
  | some c1 =>
    match opts.encoding.type with
    | .UTF16 => .ok (some (P.UTF16Symbol c1))
    | .UTF8 => .ok (some (P.UTF8Symbol c1))
    | .ASCII | .EBCDIC | .UTF32 | .UCS2 => .ok (re_sym (P.range_sym c1))

/-- The function `re_ichar`; of the two arguments of `re_alt` the lower-case one is
evaluated first. -/
def re_ichar (P : Prims) (opts : opt_t) (line column c : Nat) : Except Fatal (Option RE) :=
  if P.is_alpha c then
    match re_schar P opts line column (P.to_lower_unsafe c) with
    | .error e => .error e
    | .ok lo =>
      match re_schar P opts line column (P.to_upper_unsafe c) with
      | .error e => .error e
      | .ok up => .ok (re_alt lo up)
  else re_schar P opts line column c

/-- The encoding switch at the end of `re_class`. -/
def re_class_enc (P : Prims) (opts : opt_t) (r : RangePtr) : Option RE :=
  match opts.encoding.type with
  | .UTF16 => some (P.UTF16Range r)
  | .UTF8 => some (P.UTF8Range r)
  | .ASCII | .EBCDIC | .UTF32 | .UCS2 => re_sym r

/-- The function `re_class`; `warn.empty_class(line)` appends the line to the warnings. -/
def re_class (P : Prims) (opts : opt_t) (line column : Nat) (r : RangePtr) (s : LowerState) :
    Except Fatal (Option RE × LowerState) :=
  match r with
  | some _ => .ok (re_class_enc P opts r, s)
  | none =>
    match opts.empty_class_policy with
    | .EMPTY_CLASS_MATCH_EMPTY => .ok (re_nil, { s with warn := s.warn ++ [line] })
    | .EMPTY_CLASS_MATCH_NONE => .ok (re_class_enc P opts r, { s with warn := s.warn ++ [line] })
    | .EMPTY_CLASS_ERROR => .error (.empty_character_class line column)

/-- The loop over the characters of a `STR` node (lines 105-109); `x` is the
concatenation built so far. -/
def str_loop (P : Prims) (opts : opt_t) (line : Nat) (icase : Bool) :
    List ASTChar → Option RE → Except Fatal (Option RE)
  | [], x => .ok x
  | i :: rest, x =>
    match (if icase then re_ichar P opts line i.column i.chr
           else re_schar P opts line i.column i.chr) with
    | .error e => .error e
    | .ok y => str_loop P opts line icase rest (re_cat x y)

/-- The loop over the ranges of a `CLS` node (lines 117-122). -/
def cls_loop (P : Prims) (opts : opt_t) (line : Nat) :
    List ASTRange → RangePtr → Except Fatal RangePtr
  | [], r => .ok r
  | i :: rest, r =>
    match opts.encoding.encodeRange i.lower i.upper with
    | none => .error (.bad_code_point_range line i.column i.lower i.upper)
    | some s => cls_loop P opts line rest (P.range_add r (some s))

/-- The pair of fictive tags of note [POSIX subexpression hierarchy] (lines
144-147 and 168-171), appended when `cond` holds: the two tag markers and the
state after the two `push_back`. -/
def fictive_pair (cond : Bool) (s : LowerState) : Option RE × Option RE × LowerState :=
  if cond then
    let t1 := re_tag s.tags.length false
    let tags1 := s.tags ++ [Tag.ofSlot .FICTIVE false]
    let t2 := re_tag tags1.length false
    let tags2 := tags1 ++ [Tag.ofSlot .FICTIVE false]
    (t1, t2, { s with tags := tags2 })
  else (none, none, s)

/-- The pair of capture tags (lines 198-204 and 228-234): tags with the slots
`2 * ncap` and `2 * ncap + 1`, then `++ncap`. -/
def capture_pair (history : Bool) (s : LowerState) : Option RE × Option RE × LowerState :=
  let t1 := re_tag s.tags.length false
  let tags1 := s.tags ++ [Tag.ofSlot (.CAPTURE (2 * s.ncap)) history]
  let t2 := re_tag tags1.length false
  let tags2 := tags1 ++ [Tag.ofSlot (.CAPTURE (2 * s.ncap + 1)) false]
  (t1, t2, { s with tags := tags2, ncap := s.ncap + 1 })

/-- The end of the `ITER` case (lines 237-252); `lower` is the call
`ast_to_re(spec, x, ncap)` for the body. -/
def iter_rest (t1 t2 : Option RE) (n n1 m : Nat)
    (lower : LowerState → Except Fatal (Option RE × LowerState)) (s : LowerState) :
    Except Fatal (Option RE × LowerState) :=
  let r : Except Fatal (Option RE × LowerState) :=
    if m = 0 then .ok (re_cat t1 t2, s)
    else if m = 1 then
      match lower s with
      | .error e => .error e
      | .ok (y, s1) => .ok (re_cat t1 (re_cat y t2), s1)
    else
      match lower s with
      | .error e => .error e
      | .ok (y, s1) =>
        match re_iter (re_cat t1 y) n1 m with
        | .error e => .error e
        | .ok z => .ok (re_cat z t2, s1)
  match r with
  | .error e => .error e
  | .ok (y, s1) => .ok (if n = 0 then re_alt y re_nil else y, s1)

/-- The function `ast_to_re`: the result is the returned `RE *` and the state
after the call, or the fatal diagnostic. -/
def ast_to_re (P : Prims) (opts : opt_t) : AST → LowerState →
    Except Fatal (Option RE × LowerState)
  | .NIL _ _, s => .ok (re_nil, s)
  | .STR line _ chars icase, s =>
    let ic := opts.bCaseInsensitive || (icase != opts.bCaseInverted)
    match str_loop P opts line ic chars none with
    | .error e => .error e
    | .ok x => .ok ((match x with | some _ => x | none => re_nil), s)
  | .CLS line column ranges negated, s =>
    match cls_loop P opts line ranges none with
    | .error e => .error e
    | .ok r =>
      let r1 := if negated then P.range_sub opts.encoding.fullRange r else r
      re_class P opts line column r1 s
  | .DOT line column, s =>
    match opts.encoding.encode 10 with
    | none => .error (.bad_code_point line column 10)
    | some c =>
      re_class P opts line column (P.range_sub opts.encoding.fullRange (P.range_sym c)) s
  | .DEFAULT _ _, s => .ok (re_sym (P.range_ran 0 opts.encoding.nCodeUnits), s)
  | .ALT line column ast1 ast2, s =>
    match fictive_pair (opts.posix_captures && has_tags (.ALT line column ast1 ast2)
        && (ast1.type != .CAP)) s with
    | (t1, t2, s0) =>
      match ast_to_re P opts ast1 s0 with
      | .error e => .error e
      | .ok (x, s1) =>
        match ast_to_re P opts ast2 s1 with
        | .error e => .error e
        | .ok (y, s2) => .ok (re_alt (re_cat t1 (re_cat x t2)) y, s2)
  | .DIFF line column ast1 ast2, s =>
    match ast_to_re P opts ast1 s with
    | .error e => .error e
    | .ok (x, s1) =>
      match ast_to_re P opts ast2 s1 with
      | .error e => .error e
      | .ok (y, s2) =>
        match x, y with
        | none, _ => .error .undefined
        | some (.SYM _), none => .error .undefined
        | some (.SYM xs), some (.SYM ys) => re_class P opts line column (P.range_sub xs ys) s2
        | _, _ => .error (.diff_char_sets line column)
  | .CAT line column ast1 ast2, s =>
    match fictive_pair (opts.posix_captures && has_tags (.CAT line column ast1 ast2)
        && (ast1.type != .CAP) && (fixlen P.VARDIST ast1 == P.VARDIST)) s with
    | (t1, t2, s0) =>
      match ast_to_re P opts ast1 s0 with
      | .error e => .error e
      | .ok (x, s1) =>
        match ast_to_re P opts ast2 s1 with
        | .error e => .error e
        | .ok (y, s2) => .ok (re_cat (re_cat t1 (re_cat x t2)) y, s2)
  | .TAG line column name history, s =>
    if name.isSome && !opts.tags then .error (.tags_need_option line column)
    else if opts.posix_captures then .error (.simple_tags_with_posix line column)
    else .ok (re_tag s.tags.length false, { s with tags := s.tags ++ [Tag.named name history] })
  | .CAP _ _ ast, s =>
    if !opts.posix_captures then ast_to_re P opts ast s
    else
      let direct := fun u => ast_to_re P opts ast u
      match capture_pair false s with
      | (t1, t2, s0) =>
        match (match ast with
               | .REF _ _ x _ => ast_to_re P opts x s0
               | _ => direct s0) with
        | .error e => .error e
        | .ok (y, s1) => .ok (re_cat t1 (re_cat y t2), s1)
  | .REF line _ ast name, s =>
    if !opts.posix_captures then ast_to_re P opts ast s
    else .error (.implicit_grouping line name)
  | .ITER _ _ ast min max, s =>
    let n := min
    let n1 := Nat.max n 1
    let m := Nat.max n max
    let direct := fun u => ast_to_re P opts ast u
    if opts.posix_captures then
      match ast with
      | .CAP _ _ (.REF _ _ x _) =>
        match capture_pair (decide (m > 1)) s with
        | (t1, t2, s0) => iter_rest t1 t2 n n1 m (fun u => ast_to_re P opts x u) s0
      | .CAP _ _ x =>
        match capture_pair (decide (m > 1)) s with
        | (t1, t2, s0) => iter_rest t1 t2 n n1 m (fun u => ast_to_re P opts x u) s0
      | _ => iter_rest none none n n1 m direct s
    else iter_rest none none n n1 m direct s

/-- The node lowered as the body of a capture in POSIX mode (lines 195-196 and
225-226): `x = ast->cap; if (x->type == AST::REF) x = x->ref.ast;` applied to
the operand `x` of the capture. -/
def unref : AST → AST
  | .REF _ _ x _ => x
  | x => x

/-- The action code of a rule: the field `fline` used in diagnostics. -/
structure Code where
  fline : Nat
deriving DecidableEq, Repr

/-- The fields of `Rule` set by `init_rule`. -/
structure Rule where
  code : Code
  ltag : Nat
  htag : Nat
  ttag : Nat
  ncap : Nat
deriving DecidableEq, Repr

/-- The loop of `assert_tags_used_once` over the tag indices `ts`; `names` is the
`std::set` of the names seen so far. -/
def tags_used_once_loop (fline : Nat) (tags : List Tag) :
    List Nat → List String → Except Fatal Unit
  | [], _ => .ok ()
  | t :: rest, names =>
    match tags[t]? with
    | none => .error .undefined
    | some tag =>
      match tag.name with
      | none => tags_used_once_loop fline tags rest names
      | some name =>
        if name ∈ names then .error (.tag_used_multiple_times fline name)
        else tags_used_once_loop fline tags rest (name :: names)

/-- The function `assert_tags_used_once`. -/
def assert_tags_used_once (rule : Rule) (tags : List Tag) : Except Fatal Unit :=
  tags_used_once_loop rule.code.fline tags (List.range' rule.ltag (rule.htag - rule.ltag)) []

/-- The loop of `init_rule` that finds `ttag` (line 337) among the indices `ts`. -/
def find_ttag (P : Prims) (tags : List Tag) (htag : Nat) : List Nat → Except Fatal Nat
  | [] => .ok htag
  | t :: rest =>
    match tags[t]? with
    | none => .error .undefined
    | some tag => if P.trailing tag then .ok t else find_ttag P tags htag rest

/-- The function `init_rule`. -/
def init_rule (P : Prims) (code : Code) (tags : List Tag) (ltag ncap : Nat) :
    Except Fatal Rule :=
  let htag := tags.length
  match find_ttag P tags htag (List.range' ltag (htag - ltag)) with
  | .error e => .error e
  | .ok ttag =>
    let rule : Rule := ⟨code, ltag, htag, ttag, ncap⟩
    match assert_tags_used_once rule tags with
    | .error e => .error e
    | .ok _ => .ok rule

/-- One rule of the input: the AST and the action code. -/
structure ASTRule where
  ast : AST
  code : Code
deriving DecidableEq, Repr

/-- The fields of `RESpec` filled by its constructor. -/
structure RESpec where
  res : List (Option RE)
  tags : List Tag
  rules : List Rule
  warn : List Nat
deriving DecidableEq, Repr

/-- The loop of the constructor `RESpec::RESpec` over the rules. -/
def RESpec.build (P : Prims) (opts : opt_t) : List ASTRule → RESpec → Except Fatal RESpec
  | [], sp => .ok sp
  | r :: rest, sp =>
    let ltag := sp.tags.length
    match ast_to_re P opts r.ast ⟨sp.tags, 0, sp.warn⟩ with
    | .error e => .error e
    | .ok (re, s) =>
      match init_rule P r.code s.tags ltag s.ncap with
      | .error e => .error e
      | .ok rule => RESpec.build P opts rest ⟨sp.res ++ [re], s.tags, sp.rules ++ [rule], s.warn⟩

/-- The constructor `RESpec::RESpec`. -/
def RESpec.create (P : Prims) (opts : opt_t) (ast : List ASTRule) : Except Fatal RESpec :=
  RESpec.build P opts ast ⟨[], [], [], []⟩

/-! ## Sample values of the external functions, for the examples -/

/-- A sample encoding object: one code unit per code point below 256. -/
def sample_enc : Enc :=
  { type := .ASCII
    encode := fun c => if c < 256 then some c else none
    encodeRange := fun l u => if l ≤ u ∧ u < 256 then some [(l, u + 1)] else none
    fullRange := some [(0, 256)]
    nCodeUnits := 256 }

/-- Sample values of the external functions; the `Range` operations keep lists
of half-open intervals. -/
def sample_prims : Prims :=
  { VARDIST := 18446744073709551615
    range_sym := fun c => some [(c, c + 1)]
    range_ran := fun l u => some [(l, u)]
    range_add := fun a b =>
      match a, b with
      | none, _ => b
      | some x, none => some x
      | some x, some y => some (x ++ y)
    range_sub := fun a _ => a
    UTF16Symbol := fun c => RE.SYM (some [(c, c + 1)])
    UTF8Symbol := fun c => RE.SYM (some [(c, c + 1)])
    UTF16Range := fun r => RE.SYM r
    UTF8Range := fun r => RE.SYM r
    is_alpha := fun c => (97 ≤ c && c ≤ 122) || (65 ≤ c && c ≤ 90)
    to_lower_unsafe := fun c => c ||| 32
    to_upper_unsafe := fun c => c &&& 4294967263
    trailing := fun _ => false }

/-- Sample options: case-sensitive, simple tags allowed, no POSIX captures. -/
def plain_opts : opt_t :=
  { bCaseInsensitive := false
    bCaseInverted := false
    posix_captures := false
    tags := true
    empty_class_policy := .EMPTY_CLASS_MATCH_EMPTY
    encoding := sample_enc }

/-- Sample options with POSIX captures. -/
def posix_opts : opt_t :=
  { bCaseInsensitive := false
    bCaseInverted := false
    posix_captures := true
    tags := false
    empty_class_policy := .EMPTY_CLASS_MATCH_EMPTY
    encoding := sample_enc }

/-- The empty state at the start of the first rule. -/
def empty_state : LowerState := ⟨[], 0, []⟩

/-- The character class `[a-z]`. -/
def cls_az : AST := .CLS 1 1 [⟨97, 122, 2⟩] false

/-- The string `"ab"`. -/
def str_ab : AST := .STR 1 1 [⟨97, 2⟩, ⟨98, 3⟩] false

/-- The capture slot of a tag that is a capture and not fictive. -/
def slot_of (t : Tag) : Option Nat :=
  match t.ncap with
  | .CAPTURE k => some k
  | _ => none

/-- The tags `ts` are a sequence of adjacent pairs, each pair either two fictive
tags or the open and close tag of one capture group, with the slots `2k` and
`2k+1`, the groups numbered upwards from `c` without gap; the result is the
number after the last group. -/
def paired (c : Nat) : List Tag → Option Nat
  | [] => some c
  | [_] => none
  | t1 :: t2 :: rest =>
    if t1.ncap = .FICTIVE ∧ t2.ncap = .FICTIVE then paired c rest
    else if t1.ncap = .CAPTURE (2 * c) ∧ t2.ncap = .CAPTURE (2 * c + 1) then paired (c + 1) rest
    else none

/-- The tag table grew from `s` to `s'` by appending, and in POSIX mode the
appended tags are paired, the capture groups numbered from `s.ncap` to
`s'.ncap`. -/
def Extends (opts : opt_t) (s s' : LowerState) : Prop :=
  ∃ new : List Tag, s'.tags = s.tags ++ new ∧
    (opts.posix_captures = true → paired s.ncap new = some s'.ncap)

/-! ## The lowering of a string in the words of the specification -/

/-- The single symbol of a character: the node returned by `re_schar`. -/
def symbol_spec (P : Prims) (opts : opt_t) (line column c : Nat) : Except Fatal RE :=
  match re_schar P opts line column c with
  | .error e => .error e
  | .ok none => .error .undefined
  | .ok (some re) => .ok re

/-- The specification of one character: "case-insensitive alphabetic characters
lower to an alternation of the lower-case and upper-case symbol; non-alphabetic
or case-sensitive characters lower to a single symbol". -/
def char_spec (P : Prims) (opts : opt_t) (line : Nat) (insensitive : Bool) (ch : ASTChar) :
    Except Fatal RE :=
  if insensitive = true ∧ P.is_alpha ch.chr = true then
    match symbol_spec P opts line ch.column (P.to_lower_unsafe ch.chr) with
    | .error e => .error e
    | .ok lo =>
      match symbol_spec P opts line ch.column (P.to_upper_unsafe ch.chr) with
      | .error e => .error e
      | .ok up => .ok (RE.ALT lo up)
  else symbol_spec P opts line ch.column ch.chr

/-- The characters of a string lowered one by one, from left to right. -/
def chars_spec (P : Prims) (opts : opt_t) (line : Nat) (insensitive : Bool) :
    List ASTChar → Except Fatal (List RE)
  | [] => .ok []
  | ch :: rest =>
    match char_spec P opts line insensitive ch with
    | .error e => .error e
    | .ok r =>
      match chars_spec P opts line insensitive rest with
      | .error e => .error e
      | .ok rs => .ok (r :: rs)

/-- The specification of the concatenation: "concatenate left-to-right; empty
string lowers to `Nil`". -/
def concat_spec : List RE → RE
  | [] => RE.NIL
  | r :: rs => rs.foldl RE.CAT r

/-- The specification of a `Str` node: "insensitive iff
`global_case_insensitive OR (node.icase != global_case_inverted)`". -/
def str_spec (P : Prims) (opts : opt_t) (line : Nat) (chars : List ASTChar) (icase : Bool) :
    Except Fatal RE :=
  match chars_spec P opts line (opts.bCaseInsensitive || (icase != opts.bCaseInverted)) chars with
  | .error e => .error e
  | .ok rs => .ok (concat_spec rs)

/-! ## Names of tags within the range of a rule -/

/-- The name of the tag at index `i`, if the tag exists and is named. -/
def name_at (tags : List Tag) (i : Nat) : Option String :=
  match tags[i]? with
  | some t => t.name
  | none => none

/-- Two tags at distinct indices of the range `[lo, hi)` carry the same name. -/
def DuplicateName (tags : List Tag) (lo hi : Nat) : Prop :=
  ∃ (i j : Nat) (name : String), lo ≤ i ∧ i < j ∧ j < hi ∧
    name_at tags i = some name ∧ name_at tags j = some name

/-- A tag of the range `[lo, hi)` carries a name of the set `names`, or two tags of
the range carry the same name. -/
def NameClash (tags : List Tag) (names : List String) (lo hi : Nat) : Prop :=
  (∃ (i : Nat) (name : String), lo ≤ i ∧ i < hi ∧ name_at tags i = some name ∧ name ∈ names) ∨
    DuplicateName tags lo hi

/-- A rule with the named tag `x` twice: `@x "a" @x`. -/
def twice_x : AST :=
  .CAT 1 1 (.CAT 1 1 (.TAG 1 1 (some "x") false) str_ab) (.TAG 1 6 (some "x") false)

/-- A rule with two different named tags: `@x "a" @y`. -/
def x_then_y : AST :=
  .CAT 1 1 (.CAT 1 1 (.TAG 1 1 (some "x") false) str_ab) (.TAG 1 6 (some "y") false)

/-! ## An input on which the partition is not the smallest one -/

/-- Four versions and no copy command. -/
def heur_cfg : cfg_t := ⟨3, []⟩

/-- The symmetric table with interference on the pairs `(0,3)`, `(1,2)`, `(2,3)`. -/
def heur_interf : List Bool :=
  [false, false, false, true,
   false, false, true, false,
   false, true, false, true,
   true, false, true, false]

/-- Another assignment for `heur_interf`: the classes `{0,2}` and `{1,3}`. -/
def heur_alt : List Nat := [1, 2, 1, 2]

/-! ## Commands that the copy-coalescing loop does not skip -/

/-- The negation of the test `y == TAGVER_ZERO || y == x` of line 39: the loop
body goes on for this command. -/
def effective (tagver_zero : Nat) (p : tcmd_t) : Bool :=
  !(decide (p.rhs = tagver_zero) || decide (p.rhs = p.lhs))

/-- Three versions and two blocks: the commands `1 = 0` and `2 = 2` of the first
block are skipped when `TAGVER_ZERO` is `0`, the second block holds `2 = 1` and
`1 = 2`. -/
def skip_cfg : cfg_t := ⟨2, [⟨[⟨1, 0⟩, ⟨2, 2⟩]⟩, ⟨[⟨2, 1⟩, ⟨1, 2⟩]⟩]⟩

/-! ## Examples of lowering in POSIX mode -/

/-- The rule `([a-z]){0,3}`. -/
def iter_cap_az : AST := .ITER 1 1 (.CAP 1 1 cls_az) 0 3

/-- The lowering of `([a-z]){0,3}` from the empty state. -/
def iter_cap_az_re : RE :=
  .ALT (.CAT (.ITER (.CAT (.TAG 0 false) (.SYM (some [(97, 123)]))) 1 3) (.TAG 1 false)) .NIL

/-- The rule `([a-z]){0,3} | ("ab")`. -/
def two_caps : AST := .ALT 1 1 (.ITER 1 1 (.CAP 1 1 cls_az) 0 3) (.CAP 1 9 str_ab)

/-- The lowering of `two_caps` from the empty state. -/
def two_caps_re : RE :=
  .ALT
    (.CAT (.TAG 0 false)
      (.CAT
        (.ALT
          (.CAT (.ITER (.CAT (.TAG 2 false) (.SYM (some [(97, 123)]))) 1 3) (.TAG 3 false))
          .NIL)
        (.TAG 1 false)))
    (.CAT (.TAG 4 false)
      (.CAT (.CAT (.SYM (some [(97, 98)])) (.SYM (some [(98, 99)]))) (.TAG 5 false)))

/-- The tag table after the lowering of `two_caps`. -/
def two_caps_tags : List Tag :=
  [⟨none, .FICTIVE, false⟩, ⟨none, .FICTIVE, false⟩,
   ⟨none, .CAPTURE 0, true⟩, ⟨none, .CAPTURE 1, false⟩,
   ⟨none, .CAPTURE 2, false⟩, ⟨none, .CAPTURE 3, false⟩]
/-! ## Basic facts about the loops -/

theorem lt_of_getElem? {α : Type} {l : List α} {i : Nat} {v : α} (h : l[i]? = some v) :
    i < l.length := by
  rcases List.getElem?_eq_some.1 h with ⟨hi, _⟩
  exact hi

theorem getElem?_of_lt {α : Type} {l : List α} {i : Nat} (h : i < l.length) :
    ∃ v, l[i]? = some v :=
  ⟨l[i], List.getElem?_eq_getElem h⟩

theorem store_eq {α : Type} {a : List α} {i : Nat} (v : α) (h : i < a.length) :
    store a i v = some (a.set i v) := by
  simp [store, h]

theorem forLoop_append {ι σ : Type} (body : ι → σ → Option σ) (l1 l2 : List ι) (s : σ) :
    forLoop body (l1 ++ l2) s = (forLoop body l1 s).bind (forLoop body l2) := by
  induction l1 generalizing s with
  | nil => simp [forLoop]
  | cons i l1 ih =>
    simp only [List.cons_append, forLoop]
    cases h : body i s with
    | none => simp
    | some s' => simpa using ih s'

theorem forLoop_inv {ι σ : Type} (body : ι → σ → Option σ) (P : σ → Prop) (l : List ι)
    (h : ∀ i ∈ l, ∀ s, P s → ∃ s', body i s = some s' ∧ P s') :
    ∀ s, P s → ∃ s', forLoop body l s = some s' ∧ P s' := by
  induction l with
  | nil => intro s hs; exact ⟨s, rfl, hs⟩
  | cons i l ih =>
    intro s hs
    obtain ⟨s1, h1, hP1⟩ := h i (List.mem_cons_self _ _) s hs
    obtain ⟨s2, h2, hP2⟩ :=
      ih (fun j hj t ht => h j (List.mem_cons_of_mem _ hj) t ht) s1 hP1
    exact ⟨s2, by simp [forLoop, h1, h2], hP2⟩

theorem forLoop_range_inv {σ : Type} (body : Nat → σ → Option σ) (P : Nat → σ → Prop) (n : Nat)
    (h : ∀ k, k < n → ∀ s, P k s → ∃ s', body k s = some s' ∧ P (k + 1) s') :
    ∀ s, P 0 s → ∃ s', forLoop body (List.range n) s = some s' ∧ P n s' := by
  induction n with
  | zero => intro s hs; exact ⟨s, rfl, hs⟩
  | succ n ih =>
    intro s hs
    obtain ⟨s1, h1, hP1⟩ := ih (fun k hk t ht => h k (Nat.lt_succ_of_lt hk) t ht) s hs
    obtain ⟨s2, h2, hP2⟩ := h n (Nat.lt_succ_self n) s1 hP1
    refine ⟨s2, ?_, hP2⟩
    rw [List.range_succ, forLoop_append, h1]
    simp [forLoop, h2]

theorem Chain.congr {next next' : List Nat} :
    ∀ {l : List Nat} {z : Nat}, Chain next z l → (∀ i ∈ l, next'[i]? = next[i]?) →
      Chain next' z l := by
  intro l
  induction l with
  | nil => intro z h _; exact h
  | cons m l ih =>
    intro z h hc
    obtain ⟨hz, hm, z', hz', hl⟩ := h
    refine ⟨hz, hm, z', ?_, ih hl (fun i hi => hc i (List.mem_cons_of_mem _ hi))⟩
    rw [hc m (List.mem_cons_self _ _)]
    exact hz'

theorem Chain.head {next : List Nat} {z : Nat} {l : List Nat} (h : Chain next z l)
    (hz : z ≠ END) : ∃ l', l = z :: l' := by
  cases l with
  | nil => exact absurd h hz
  | cons m l => exact ⟨l, by rw [h.1]⟩

theorem scan_spec (interf : List Bool) (next : List Nat) (idx : Nat → Nat) :
    ∀ (l : List Nat) (fuel z : Nat), Chain next z l → l.length < fuel →
      (∀ m ∈ l, idx m < interf.length) →
      ∃ z', scan interf next idx fuel z = some z' ∧
        ((z' = END ∧ ∀ m ∈ l, interf[idx m]? = some false) ∨
         (z' ≠ END ∧ z' ∈ l ∧ interf[idx z']? = some true)) := by
  intro l
  induction l with
  | nil =>
    intro fuel z h hf _
    cases fuel with
    | zero => simp at hf
    | succ fuel =>
      have hz : z = END := h
      exact ⟨END, by simp [scan, hz], Or.inl ⟨rfl, by simp⟩⟩
  | cons m l ih =>
    intro fuel z h hf hidx
    obtain ⟨hz, hm, z', hz', hl⟩ := h
    cases fuel with
    | zero => simp at hf
    | succ fuel =>
      subst hz
      obtain ⟨b, hb⟩ := getElem?_of_lt (hidx z (List.mem_cons_self _ _))
      cases b with
      | true =>
        exact ⟨z, by simp [scan, hm, hb], Or.inr ⟨hm, List.mem_cons_self _ _, hb⟩⟩
      | false =>
        obtain ⟨r, hr, hcase⟩ := ih fuel z' hl (by simpa using hf)
          (fun i hi => hidx i (List.mem_cons_of_mem _ hi))
        refine ⟨r, by simp [scan, hm, hb, hz', hr], ?_⟩
        rcases hcase with ⟨h1, h2⟩ | ⟨h1, h2, h3⟩
        · left
          refine ⟨h1, ?_⟩
          intro i hi
          rcases List.mem_cons.1 hi with rfl | hi
          · exact hb
          · exact h2 i hi
        · right
          exact ⟨h1, List.mem_cons_of_mem _ h2, h3⟩

theorem getElem?_set_lt {α : Type} {l : List α} {i : Nat} (j : Nat) (v : α)
    (h : i < l.length) : (l.set i v)[j]? = if i = j then some v else l[j]? := by
  rw [List.getElem?_set]
  simp [h]

theorem ClassInv.rep_lt {N : Nat} {s : Lists} (hI : ClassInv N s) {x r : Nat}
    (h : s.repr[x]? = some r) : x < N := by
  have := lt_of_getElem? h
  rw [hI.repr_len] at this
  exact this

theorem ClassInv.idx_ne_end {N : Nat} {s : Lists} (hI : ClassInv N s) {x r : Nat}
    (h : s.repr[x]? = some r) : x ≠ END := by
  have h1 := hI.rep_lt h
  have h2 := hI.le_end
  omega

theorem link_spec {N : Nat} {s : Lists} (hI : ClassInv N s) {r m : Nat}
    (hr : s.repr[r]? = some r) (hm : s.repr[m]? = some END) :
    ∃ s', link s r m = some s' ∧ s'.repr = s.repr.set m r ∧ ClassInv N s' := by
  have hrN : r < N := hI.rep_lt hr
  have hmN : m < N := hI.rep_lt hm
  have hrE : r ≠ END := hI.idx_ne_end hr
  have hmr : m ≠ r := by
    rintro rfl
    rw [hr] at hm
    exact hrE (Option.some.inj hm)
  obtain ⟨l, hch, hnd, hmem⟩ := hI.chain r hr
  obtain ⟨l', rfl⟩ := hch.head hrE
  obtain ⟨-, -, nr, hnr, hch'⟩ := hch
  have hml : m ∉ r :: l' := by
    intro h
    have := (hmem m).1 h
    rw [hm] at this
    exact hrE (Option.some.inj this).symm
  have hrl' : r ∉ l' := (List.nodup_cons.1 hnd).1
  have hnl : s.next.length = N := hI.next_len
  have hrl : s.repr.length = N := hI.repr_len
  refine ⟨⟨(s.next.set m nr).set r m, s.repr.set m r⟩, ?_, rfl, ?_⟩
  · simp [link, store, hnl, hrl, hrN, hmN, hnr]
  · have hR : ∀ j, (s.repr.set m r)[j]? = if m = j then some r else s.repr[j]? :=
      fun j => getElem?_set_lt j r (by omega)
    have hX : ∀ j, ((s.next.set m nr).set r m)[j]? =
        if r = j then some m else if m = j then some nr else s.next[j]? := by
      intro j
      rw [getElem?_set_lt j m (by simp <;> omega), getElem?_set_lt j nr (by omega)]
    refine ⟨hI.le_end, by simp [hnl], by simp [hrl], ?_, ?_, ?_⟩
    · intro x q hx hq
      simp only [hR] at hx ⊢
      by_cases hxm : m = x
      · simp only [hxm, if_true] at hx
        have : q = r := (Option.some.inj hx).symm
        subst this
        simp [hmr, hr]
      · simp only [hxm, if_false] at hx
        have hqq := hI.repr_idem x q hx hq
        have : m ≠ q := by
          rintro rfl
          rw [hm] at hqq
          exact hq (Option.some.inj hqq).symm
        simp [this, hqq]
    · intro x hx
      simp only [hR] at hx
      by_cases hxm : m = x
      · simp [hxm, hrE] at hx
      · simp only [hxm, if_false] at hx
        have hrx : r ≠ x := by
          rintro rfl
          rw [hr] at hx
          exact hrE (Option.some.inj hx)
        simp only [hX, hrx, hxm, if_false]
        exact hI.free_next x hx
    · intro q hq
      simp only [hR] at hq
      have hqm : m ≠ q := by
        rintro rfl
        simp at hq
        exact hmr hq.symm
      simp only [hqm, if_false] at hq
      by_cases hqr : q = r
      · subst hqr
        refine ⟨q :: m :: l', ?_, ?_, ?_⟩
        · refine ⟨rfl, hrE, m, by simp [hX], rfl, ?_, nr, by simp [hX, hmr.symm], ?_⟩
          · have := hI.le_end
            omega
          · refine hch'.congr ?_
            intro i hi
            have h1 : q ≠ i := by rintro rfl; exact hrl' hi
            have h2 : m ≠ i := by rintro rfl; exact hml (List.mem_cons_of_mem _ hi)
            simp [hX, h1, h2]
        · refine List.nodup_cons.2 ⟨?_, List.nodup_cons.2 ⟨?_, (List.nodup_cons.1 hnd).2⟩⟩
          · intro h
            rcases List.mem_cons.1 h with h | h
            · exact hmr h.symm
            · exact hrl' h
          · intro h
            exact hml (List.mem_cons_of_mem _ h)
        · intro x
          simp only [hR]
          by_cases hxm : m = x
          · simp [hxm]
          · simp only [hxm, if_false]
            rw [← hmem x]
            simp only [List.mem_cons]
            constructor
            · rintro (h | h | h)
              · exact Or.inl h
              · exact absurd h.symm hxm
              · exact Or.inr h
            · rintro (h | h)
              · exact Or.inl h
              · exact Or.inr (Or.inr h)
      · obtain ⟨lq, hcq, hndq, hmemq⟩ := hI.chain q hq
        have hqE : q ≠ END := hI.idx_ne_end hq
        refine ⟨lq, hcq.congr ?_, hndq, ?_⟩
        · intro i hi
          have hiq := (hmemq i).1 hi
          have h1 : r ≠ i := by
            rintro rfl
            rw [hr] at hiq
            exact hqr (Option.some.inj hiq).symm
          have h2 : m ≠ i := by
            rintro rfl
            rw [hm] at hiq
            exact hqE (Option.some.inj hiq).symm
          simp [hX, h1, h2]
        · intro x
          rw [hmemq x]
          simp only [hR]
          by_cases hxm : m = x
          · subst hxm
            simp only [if_true, hm]
            constructor
            · intro h
              exact absurd (Option.some.inj h).symm hqE
            · intro h
              exact absurd (Option.some.inj h).symm hqr
          · simp [hxm]

theorem nodup_length_le {l : List Nat} {N : Nat} (hnd : l.Nodup) (h : ∀ x ∈ l, x < N) :
    l.length ≤ N := by
  have hsub : l ⊆ List.range N := fun x hx => List.mem_range.2 (h x hx)
  have := (hnd.subperm hsub).length_le
  simpa using this

theorem index_lt {N x y : Nat} (hx : x < N) (hy : y < N) : x * N + y < N * N := by
  have : (x + 1) * N ≤ N * N := Nat.mul_le_mul_right N hx
  have h2 : (x + 1) * N = x * N + N := by ring
  omega

theorem class_scan {N : Nat} {s : Lists} (hI : ClassInv N s) {r : Nat}
    (hr : s.repr[r]? = some r) {interf : List Bool} (hlen : interf.length = N * N)
    {fuel : Nat} (hf : N < fuel) (idx : Nat → Nat) (hidx : ∀ z, z < N → idx z < N * N) :
    ∃ z', scan interf s.next idx fuel r = some z' ∧
      ((z' = END ∧ ∀ a : Nat, s.repr[a]? = some r → interf[idx a]? = some false) ∨
       (z' ≠ END ∧ s.repr[z']? = some r ∧ interf[idx z']? = some true)) := by
  obtain ⟨l, hch, hnd, hmem⟩ := hI.chain r hr
  have hlt : ∀ x ∈ l, x < N := fun x hx => hI.rep_lt ((hmem x).1 hx)
  have hll : l.length < fuel := lt_of_le_of_lt (nodup_length_le hnd hlt) hf
  obtain ⟨z', hz', hcase⟩ := scan_spec interf s.next idx l fuel r hch hll
    (fun m hm => by rw [hlen]; exact hidx m (hlt m hm))
  refine ⟨z', hz', ?_⟩
  rcases hcase with ⟨h1, h2⟩ | ⟨h1, h2, h3⟩
  · exact Or.inl ⟨h1, fun a ha => h2 a ((hmem a).2 ha)⟩
  · exact Or.inr ⟨h1, (hmem z').1 h2, h3⟩

theorem fresh_spec {N : Nat} {s : Lists} (hI : ClassInv N s) {x y : Nat}
    (hx : s.repr[x]? = some END) (hy : s.repr[y]? = some END) (hxy : x ≠ y) :
    ClassInv N ⟨s.next.set x y, (s.repr.set y x).set x x⟩ := by
  have hxN : x < N := hI.rep_lt hx
  have hyN : y < N := hI.rep_lt hy
  have hxE : x ≠ END := hI.idx_ne_end hx
  have hyE : y ≠ END := hI.idx_ne_end hy
  have hnl : s.next.length = N := hI.next_len
  have hrl : s.repr.length = N := hI.repr_len
  have hR : ∀ j, ((s.repr.set y x).set x x)[j]? =
      if x = j then some x else if y = j then some x else s.repr[j]? := by
    intro j
    rw [getElem?_set_lt j x (by simp <;> omega), getElem?_set_lt j x (by omega)]
  have hX : ∀ j, (s.next.set x y)[j]? = if x = j then some y else s.next[j]? :=
    fun j => getElem?_set_lt j y (by omega)
  have hfree : ∀ a q : Nat, s.repr[a]? = some q → q ≠ END → x ≠ q ∧ y ≠ q := by
    intro a q ha hq
    have hqq := hI.repr_idem a q ha hq
    constructor
    · rintro rfl
      rw [hx] at hqq
      exact hq (Option.some.inj hqq).symm
    · rintro rfl
      rw [hy] at hqq
      exact hq (Option.some.inj hqq).symm
  refine ⟨hI.le_end, by simp [hnl], by simp [hrl], ?_, ?_, ?_⟩
  · intro a q ha hq
    simp only [hR] at ha ⊢
    by_cases h1 : x = a
    · simp only [h1, if_true] at ha
      have : q = a := (Option.some.inj ha).symm
      simp [this, h1]
    · simp only [h1, if_false] at ha
      by_cases h2 : y = a
      · simp only [h2, if_true] at ha
        have : q = x := (Option.some.inj ha).symm
        simp [this]
      · simp only [h2, if_false] at ha
        have := hfree a q ha hq
        simp [this.1, this.2, hI.repr_idem a q ha hq]
  · intro a ha
    simp only [hR] at ha
    by_cases h1 : x = a
    · simp [h1] at ha
      exact absurd ha (h1 ▸ hxE)
    · simp only [h1, if_false] at ha
      by_cases h2 : y = a
      · simp [h2] at ha
        exact absurd ha hxE
      · simp only [h2, if_false] at ha
        simp only [hX, h1, if_false]
        exact hI.free_next a ha
  · intro q hq
    simp only [hR] at hq
    by_cases h1 : x = q
    · subst h1
      refine ⟨[x, y], ?_, by simp [hxy], ?_⟩
      · refine ⟨rfl, hxE, y, by simp [hX], rfl, hyE, END, ?_, rfl⟩
        simp only [hX, hxy, if_false]
        exact hI.free_next y hy
      · intro a
        simp only [hR, List.mem_cons, List.mem_singleton, List.not_mem_nil, or_false]
        by_cases h1 : x = a
        · simp [h1]
        · by_cases h2 : y = a
          · simp [h2]
          · simp only [h1, h2, if_false]
            constructor
            · rintro (h | h)
              · exact absurd h.symm h1
              · exact absurd h.symm h2
            · intro h
              exact absurd rfl (hfree a x h hxE).1
    · simp only [h1, if_false] at hq
      by_cases h2 : y = q
      · simp [h2] at hq
        exact absurd hq (h2 ▸ hxy)
      · simp only [h2, if_false] at hq
        have hqE : q ≠ END := hI.idx_ne_end hq
        obtain ⟨lq, hcq, hndq, hmemq⟩ := hI.chain q hq
        refine ⟨lq, hcq.congr ?_, hndq, ?_⟩
        · intro i hi
          have hiq := (hmemq i).1 hi
          have : x ≠ i := by
            rintro rfl
            rw [hx] at hiq
            exact hqE (Option.some.inj hiq).symm
          simp [hX, this]
        · intro a
          rw [hmemq a]
          simp only [hR]
          by_cases h3 : x = a
          · subst h3
            simp only [if_true, hx]
            constructor
            · intro h
              exact absurd (Option.some.inj h).symm hqE
            · intro h
              exact absurd (Option.some.inj h) h1
          · by_cases h4 : y = a
            · subst h4
              simp only [h3, if_false, if_true, hy]
              constructor
              · intro h
                exact absurd (Option.some.inj h).symm hqE
              · intro h
                exact absurd (Option.some.inj h) h1
            · simp [h3, h4]

theorem single_spec {N : Nat} {s : Lists} (hI : ClassInv N s) {x : Nat}
    (hx : s.repr[x]? = some END) :
    ClassInv N ⟨s.next, s.repr.set x x⟩ := by
  have hxN : x < N := hI.rep_lt hx
  have hxE : x ≠ END := hI.idx_ne_end hx
  have hrl : s.repr.length = N := hI.repr_len
  have hR : ∀ j, (s.repr.set x x)[j]? = if x = j then some x else s.repr[j]? :=
    fun j => getElem?_set_lt j x (by omega)
  have hfree : ∀ a q : Nat, s.repr[a]? = some q → q ≠ END → x ≠ q := by
    intro a q ha hq
    have hqq := hI.repr_idem a q ha hq
    rintro rfl
    rw [hx] at hqq
    exact hq (Option.some.inj hqq).symm
  refine ⟨hI.le_end, hI.next_len, by simp [hrl], ?_, ?_, ?_⟩
  · intro a q ha hq
    simp only [hR] at ha ⊢
    by_cases h1 : x = a
    · simp only [h1, if_true] at ha
      have : q = a := (Option.some.inj ha).symm
      simp [this, h1]
    · simp only [h1, if_false] at ha
      simp [hfree a q ha hq, hI.repr_idem a q ha hq]
  · intro a ha
    simp only [hR] at ha
    by_cases h1 : x = a
    · simp [h1] at ha
      exact absurd ha (h1 ▸ hxE)
    · simp only [h1, if_false] at ha
      exact hI.free_next a ha
  · intro q hq
    simp only [hR] at hq
    by_cases h1 : x = q
    · subst h1
      refine ⟨[x], ⟨rfl, hxE, END, hI.free_next x hx, rfl⟩, by simp, ?_⟩
      intro a
      simp only [hR, List.mem_singleton]
      by_cases h1 : x = a
      · simp [h1]
      · simp only [h1, if_false]
        constructor
        · intro h
          exact absurd h.symm h1
        · intro h
          exact absurd rfl (hfree a x h hxE)
    · simp only [h1, if_false] at hq
      have hqE : q ≠ END := hI.idx_ne_end hq
      obtain ⟨lq, hcq, hndq, hmemq⟩ := hI.chain q hq
      refine ⟨lq, hcq, hndq, ?_⟩
      intro a
      rw [hmemq a]
      simp only [hR]
      by_cases h3 : x = a
      · subst h3
        simp only [if_true, hx]
        constructor
        · intro h
          exact absurd (Option.some.inj h).symm hqE
        · intro h
          exact absurd (Option.some.inj h) h1
      · simp [h3]

theorem coalesce_spec {N : Nat} {s : Lists} (hI : ClassInv N s) {interf : List Bool}
    (hlen : interf.length = N * N) {fuel : Nat} (hf : N < fuel) (tagver_zero : Nat)
    (p : tcmd_t) (hp : p.lhs < N ∧ p.rhs < N) :
    ∃ s', coalesce tagver_zero N interf fuel p s = some s' ∧ ClassInv N s' ∧
      (s'.repr = s.repr ∨ (Step N interf s.repr s'.repr ∧ Shared s'.repr)) := by
  obtain ⟨hxN, hyN⟩ := hp
  have hrl : s.repr.length = N := hI.repr_len
  have hnl : s.next.length = N := hI.next_len
  obtain ⟨rx, hrx⟩ := getElem?_of_lt (l := s.repr) (i := p.lhs) (by omega)
  obtain ⟨ry, hry⟩ := getElem?_of_lt (l := s.repr) (i := p.rhs) (by omega)
  unfold coalesce
  by_cases hskip : p.rhs = tagver_zero ∨ p.rhs = p.lhs
  · exact ⟨s, by simp [hskip], hI, Or.inl rfl⟩
  · have hne : p.lhs ≠ p.rhs := fun h => hskip (Or.inr h.symm)
    simp only [hskip, if_false, hrx, hry]
    by_cases h1 : rx = END
    · by_cases h2 : ry = END
      · subst h1 h2
        obtain ⟨b, hb⟩ := getElem?_of_lt (l := interf) (i := p.lhs * N + p.rhs)
          (by rw [hlen]; exact index_lt hxN hyN)
        cases b with
        | true => exact ⟨s, by simp [hb], hI, Or.inl rfl⟩
        | false =>
          refine ⟨⟨s.next.set p.lhs p.rhs, (s.repr.set p.rhs p.lhs).set p.lhs p.lhs⟩, ?_,
            fresh_spec hI hrx hry hne, Or.inr ⟨Step.fresh _ _ hne hrx hry hb, ?_⟩⟩
          · simp [hb, store, hrl, hnl, hxN, hyN]
          · refine ⟨p.rhs, p.lhs, ?_, hI.idx_ne_end hrx, hne⟩
            rw [getElem?_set_lt _ _ (by simp <;> omega), getElem?_set_lt _ _ (by omega)]
            simp [hne]
      · subst h1
        have hrep := hI.repr_idem _ _ hry h2
        obtain ⟨z', hz', hcase⟩ := class_scan hI hrep hlen hf (fun z => z * N + p.lhs)
          (fun z hz => index_lt hz hxN)
        simp only [ne_eq, not_true, if_false, h2, not_false_eq_true, if_true, hz']
        rcases hcase with ⟨hE, hno⟩ | ⟨hE, -, -⟩
        · obtain ⟨s', hs', hrepr, hI'⟩ := link_spec hI hrep hrx
          refine ⟨s', by simp [hE, hs'], hI', Or.inr ⟨?_, ?_⟩⟩
          · rw [hrepr]
            exact Step.join _ _ hrx hrep (Or.inl hno)
          · refine ⟨p.lhs, ry, ?_, h2, ?_⟩
            · rw [hrepr, getElem?_set_lt _ _ (by omega)]
              simp
            · rintro rfl
              rw [hrep] at hrx
              exact h2 (Option.some.inj hrx)
        · exact ⟨s, by simp [hE], hI, Or.inl rfl⟩
    · by_cases h2 : ry = END
      · subst h2
        have hrep := hI.repr_idem _ _ hrx h1
        obtain ⟨z', hz', hcase⟩ := class_scan hI hrep hlen hf (fun z => z * N + p.rhs)
          (fun z hz => index_lt hz hyN)
        simp only [ne_eq, h1, not_false_eq_true, if_true, not_true, if_false, hz']
        rcases hcase with ⟨hE, hno⟩ | ⟨hE, -, -⟩
        · obtain ⟨s', hs', hrepr, hI'⟩ := link_spec hI hrep hry
          refine ⟨s', by simp [hE, hs'], hI', Or.inr ⟨?_, ?_⟩⟩
          · rw [hrepr]
            exact Step.join _ _ hry hrep (Or.inl hno)
          · refine ⟨p.rhs, rx, ?_, h1, ?_⟩
            · rw [hrepr, getElem?_set_lt _ _ (by omega)]
              simp
            · rintro rfl
              rw [hrep] at hry
              exact h1 (Option.some.inj hry)
        · exact ⟨s, by simp [hE], hI, Or.inl rfl⟩
      · exact ⟨s, by simp [h1, h2], hI, Or.inl rfl⟩

/-! ## What one change of the class structure preserves -/

theorem ClassInv.toReprOk {N : Nat} {s : Lists} (hI : ClassInv N s) : ReprOk N s.repr :=
  ⟨hI.le_end, hI.repr_len, hI.repr_idem⟩

theorem ReprOk.lt {N : Nat} {repr : List Nat} (h : ReprOk N repr) {x r : Nat}
    (hx : repr[x]? = some r) : x < N := by
  have := lt_of_getElem? hx
  rw [h.2.1] at this
  exact this

theorem ReprOk.ne_end {N : Nat} {repr : List Nat} (h : ReprOk N repr) {x r : Nat}
    (hx : repr[x]? = some r) : x ≠ END := by
  have h1 := h.lt hx
  have h2 := h.1
  omega

/-- A version without class is nobody's representative. -/
theorem ReprOk.free_ne {N : Nat} {repr : List Nat} (h : ReprOk N repr) {x a q : Nat}
    (hx : repr[x]? = some END) (ha : repr[a]? = some q) (hq : q ≠ END) : x ≠ q := by
  rintro rfl
  have := h.2.2 a x ha hq
  rw [hx] at this
  exact hq (Option.some.inj this).symm

/-- The entries of `repr` after each kind of change. -/
theorem Step.cases_get {N : Nat} {interf : List Bool} {repr repr' : List Nat}
    (h : Step N interf repr repr') (hok : ReprOk N repr) :
    (∃ m r, repr[m]? = some END ∧ repr[r]? = some r ∧ r ≠ END ∧
        ((∀ a : Nat, repr[a]? = some r → interf[a * N + m]? = some false) ∨
         (∀ a : Nat, repr[a]? = some r → interf[m * N + a]? = some false)) ∧
        ∀ j : Nat, repr'[j]? = if m = j then some r else repr[j]?) ∨
    (∃ x y, x ≠ y ∧ repr[x]? = some END ∧ repr[y]? = some END ∧
        interf[x * N + y]? = some false ∧
        ∀ j : Nat, repr'[j]? = if x = j then some x else if y = j then some x else repr[j]?) ∨
    (∃ rx ry, rx ≠ ry ∧ repr[rx]? = some rx ∧ repr[ry]? = some ry ∧
        (∀ a b : Nat, repr[a]? = some rx → repr[b]? = some ry →
          interf[a * N + b]? = some false) ∧
        ∀ j : Nat, repr'[j]? = (repr[j]?).map (fun r => if r = ry then rx else r)) ∨
    (∃ x, repr[x]? = some END ∧
        (∀ r : Nat, repr[r]? = some r →
          ∃ y : Nat, repr[y]? = some r ∧ interf[x * N + y]? = some true) ∧
        ∀ j : Nat, repr'[j]? = if x = j then some x else repr[j]?) := by
  cases h with
  | join m r hm hr hno =>
    left
    refine ⟨m, r, hm, hr, hok.ne_end hr, hno, fun j => getElem?_set_lt j r (lt_of_getElem? hm)⟩
  | fresh x y hne hx hy hno =>
    right; left
    refine ⟨x, y, hne, hx, hy, hno, fun j => ?_⟩
    rw [getElem?_set_lt j x (by simpa using lt_of_getElem? hx),
      getElem?_set_lt j x (lt_of_getElem? hy)]
  | merge rx ry hne hrx hry hno =>
    right; right; left
    exact ⟨rx, ry, hne, hrx, hry, hno, fun j => List.getElem?_map _ _ _⟩
  | single x hx hall =>
    right; right; right
    exact ⟨x, hx, hall, fun j => getElem?_set_lt j x (lt_of_getElem? hx)⟩

theorem Step.length_eq {N : Nat} {interf : List Bool} {repr repr' : List Nat}
    (h : Step N interf repr repr') : repr'.length = repr.length := by
  cases h <;> simp

theorem Step.keeps_reprOk {N : Nat} {interf : List Bool} {repr repr' : List Nat}
    (h : Step N interf repr repr') (hok : ReprOk N repr) : ReprOk N repr' := by
  refine ⟨hok.1, by rw [h.length_eq, hok.2.1], ?_⟩
  intro a q ha hq
  rcases h.cases_get hok with ⟨m, r, hm, hr, hrE, -, hget⟩ | ⟨x, y, hne, hx, hy, -, hget⟩ |
    ⟨rx, ry, hne, hrx, hry, -, hget⟩ | ⟨x, hx, -, hget⟩
  · rw [hget] at ha ⊢
    by_cases h1 : m = a
    · simp only [h1, if_true] at ha
      have : q = r := (Option.some.inj ha).symm
      subst this
      have : m ≠ q := by
        rintro rfl
        rw [hm] at hr
        exact hq (Option.some.inj hr).symm
      simp [this, hr]
    · simp only [h1, if_false] at ha
      simp [hok.free_ne hm ha hq, hok.2.2 a q ha hq]
  · rw [hget] at ha ⊢
    by_cases h1 : x = a
    · simp only [h1, if_true] at ha
      have : q = a := (Option.some.inj ha).symm
      simp [this, h1]
    · simp only [h1, if_false] at ha
      by_cases h2 : y = a
      · simp only [h2, if_true] at ha
        have : q = x := (Option.some.inj ha).symm
        simp [this]
      · simp only [h2, if_false] at ha
        simp [hok.free_ne hx ha hq, hok.free_ne hy ha hq, hok.2.2 a q ha hq]
  · rw [hget] at ha ⊢
    cases hra : repr[a]? with
    | none => simp [hra] at ha
    | some qa =>
      simp only [hra, Option.map_some'] at ha
      have hq' := Option.some.inj ha
      by_cases h1 : qa = ry
      · simp only [h1, if_true] at hq'
        subst hq'
        simp [hrx, hne]
      · simp only [h1, if_false] at hq'
        subst hq'
        simp [hok.2.2 a qa hra hq, h1]
  · rw [hget] at ha ⊢
    by_cases h1 : x = a
    · simp only [h1, if_true] at ha
      have : q = a := (Option.some.inj ha).symm
      simp [this, h1]
    · simp only [h1, if_false] at ha
      simp [hok.free_ne hx ha hq, hok.2.2 a q ha hq]

theorem Step.keeps_shared {N : Nat} {interf : List Bool} {repr repr' : List Nat}
    (h : Step N interf repr repr') (hok : ReprOk N repr) (hs : Shared repr) :
    Shared repr' := by
  obtain ⟨a, q, ha, hq, hqa⟩ := hs
  have hfree : ∀ x, repr[x]? = some END → x ≠ a := by
    rintro x hx rfl
    rw [hx] at ha
    exact hq (Option.some.inj ha).symm
  rcases h.cases_get hok with ⟨m, r, hm, hr, hrE, -, hget⟩ | ⟨x, y, hne, hx, hy, -, hget⟩ |
    ⟨rx, ry, hne, hrx, hry, -, hget⟩ | ⟨x, hx, -, hget⟩
  · exact ⟨a, q, by rw [hget]; simp [hfree m hm, ha], hq, hqa⟩
  · exact ⟨a, q, by rw [hget]; simp [hfree x hx, hfree y hy, ha], hq, hqa⟩
  · by_cases h1 : q = ry
    · subst h1
      refine ⟨a, rx, by rw [hget]; simp [ha], hok.ne_end hrx, ?_⟩
      rintro rfl
      rw [hrx] at ha
      exact hne (Option.some.inj ha)
    · exact ⟨a, q, by rw [hget]; simp [ha, h1], hq, hqa⟩
  · exact ⟨a, q, by rw [hget]; simp [hfree x hx, ha], hq, hqa⟩

/-- A version that has a class keeps having one. -/
theorem Step.keeps_class {N : Nat} {interf : List Bool} {repr repr' : List Nat}
    (h : Step N interf repr repr') (hok : ReprOk N repr) {a q : Nat}
    (ha : repr[a]? = some q) (hq : q ≠ END) : ∃ q', repr'[a]? = some q' ∧ q' ≠ END := by
  have hfree : ∀ x, repr[x]? = some END → x ≠ a := by
    rintro x hx rfl
    rw [hx] at ha
    exact hq (Option.some.inj ha).symm
  rcases h.cases_get hok with ⟨m, r, hm, hr, hrE, -, hget⟩ | ⟨x, y, hne, hx, hy, -, hget⟩ |
    ⟨rx, ry, hne, hrx, hry, -, hget⟩ | ⟨x, hx, -, hget⟩
  · exact ⟨q, by rw [hget]; simp [hfree m hm, ha], hq⟩
  · exact ⟨q, by rw [hget]; simp [hfree x hx, hfree y hy, ha], hq⟩
  · by_cases h1 : q = ry
    · exact ⟨rx, by rw [hget]; simp [ha, h1], hok.ne_end hrx⟩
    · exact ⟨q, by rw [hget]; simp [ha, h1], hq⟩
  · exact ⟨q, by rw [hget]; simp [hfree x hx, ha], hq⟩

theorem Step.keeps_noInterf {N : Nat} {interf : List Bool} {repr repr' : List Nat}
    (h : Step N interf repr repr') (hok : ReprOk N repr) (hsym : SymmetricTable N interf)
    (hni : NoInterf N interf repr) : NoInterf N interf repr' := by
  intro a b q hab ha hb hq
  have hok' := h.keeps_reprOk hok
  have haN : a < N := hok'.lt ha
  have hbN : b < N := hok'.lt hb
  rcases h.cases_get hok with ⟨m, r, hm, hr, hrE, hno, hget⟩ | ⟨x, y, hne, hx, hy, hno, hget⟩ |
    ⟨rx, ry, hne, hrx, hry, hno, hget⟩ | ⟨x, hx, -, hget⟩
  · rw [hget] at ha hb
    by_cases h1 : m = a
    · subst h1
      have h2 : m ≠ b := hab
      simp only [if_true] at ha
      simp only [h2, if_false] at hb
      have : q = r := (Option.some.inj ha).symm
      subst this
      rcases hno with hno | hno
      · rw [hsym m haN b hbN]
        exact hno b hb
      · exact hno b hb
    · simp only [h1, if_false] at ha
      by_cases h2 : m = b
      · subst h2
        simp only [if_true] at hb
        have : q = r := (Option.some.inj hb).symm
        subst this
        rcases hno with hno | hno
        · exact hno a ha
        · rw [hsym a haN m hbN]
          exact hno a ha
      · simp only [h2, if_false] at hb
        exact hni a b q hab ha hb hq
  · rw [hget] at ha hb
    by_cases h1 : x = a
    · subst h1
      simp only [if_true] at ha
      have hqx : q = x := (Option.some.inj ha).symm
      subst hqx
      have h2 : q ≠ b := hab
      simp only [h2, if_false] at hb
      by_cases h3 : y = b
      · subst h3
        exact hno
      · simp only [h3, if_false] at hb
        exact absurd rfl (hok.free_ne hx hb hq)
    · simp only [h1, if_false] at ha
      by_cases h2 : y = a
      · subst h2
        simp only [if_true] at ha
        have hqx : q = x := (Option.some.inj ha).symm
        subst hqx
        by_cases h3 : q = b
        · subst h3
          rw [hsym y haN q hbN]
          exact hno
        · have h4 : y ≠ b := hab
          simp only [h3, h4, if_false] at hb
          exact absurd rfl (hok.free_ne hx hb hq)
      · simp only [h2, if_false] at ha
        have hxq := hok.free_ne hx ha hq
        have hyq := hok.free_ne hy ha hq
        by_cases h3 : x = b
        · simp only [h3, if_true] at hb
          exact absurd (h3.trans (Option.some.inj hb)) hxq
        · by_cases h4 : y = b
          · simp only [h3, h4, if_true, if_false] at hb
            exact absurd (Option.some.inj hb) hxq
          · simp only [h3, h4, if_false] at hb
            exact hni a b q hab ha hb hq
  · rw [hget] at ha hb
    cases hra : repr[a]? with
    | none => simp [hra] at ha
    | some qa =>
      cases hrb : repr[b]? with
      | none => simp [hrb] at hb
      | some qb =>
        simp only [hra, Option.map_some'] at ha
        simp only [hrb, Option.map_some'] at hb
        have ha' := Option.some.inj ha
        have hb' := Option.some.inj hb
        by_cases h1 : qa = ry
        · by_cases h2 : qb = ry
          · subst h1 h2
            exact hni a b _ hab hra hrb (hok.ne_end hry)
          · simp only [h2, if_false] at hb'
            simp only [h1, if_true] at ha'
            subst h1
            rw [hb', ← ha'] at hrb
            rw [hsym a haN b hbN]
            exact hno b a hrb hra
        · simp only [h1, if_false] at ha'
          by_cases h2 : qb = ry
          · simp only [h2, if_true] at hb'
            subst h2
            rw [ha', ← hb'] at hra
            exact hno a b hra hrb
          · simp only [h2, if_false] at hb'
            rw [ha'] at hra
            rw [hb'] at hrb
            exact hni a b q hab hra hrb hq
  · rw [hget] at ha hb
    by_cases h1 : x = a
    · subst h1
      simp only [if_true] at ha
      have hqx : q = x := (Option.some.inj ha).symm
      subst hqx
      have h2 : q ≠ b := hab
      simp only [h2, if_false] at hb
      exact absurd rfl (hok.free_ne hx hb hq)
    · simp only [h1, if_false] at ha
      by_cases h2 : x = b
      · simp only [h2, if_true] at hb
        exact absurd (h2.trans (Option.some.inj hb)) (hok.free_ne hx ha hq)
      · simp only [h2, if_false] at hb
        exact hni a b q hab ha hb hq

theorem Steps.keep_reprOk {N : Nat} {interf : List Bool} {repr repr' : List Nat}
    (h : Steps N interf repr repr') (hok : ReprOk N repr) : ReprOk N repr' := by
  induction h with
  | refl => exact hok
  | tail _ hstep ih => exact hstep.keeps_reprOk ih

theorem Steps.keep_noInterf {N : Nat} {interf : List Bool} {repr repr' : List Nat}
    (h : Steps N interf repr repr') (hok : ReprOk N repr) (hsym : SymmetricTable N interf)
    (hni : NoInterf N interf repr) : NoInterf N interf repr' := by
  induction h with
  | refl => exact hni
  | tail hsteps hstep ih => exact hstep.keeps_noInterf (Steps.keep_reprOk hsteps hok) hsym ih

theorem Steps.keep_shared {N : Nat} {interf : List Bool} {repr repr' : List Nat}
    (h : Steps N interf repr repr') (hok : ReprOk N repr) (hs : Shared repr) :
    Shared repr' := by
  induction h with
  | refl => exact hs
  | tail hsteps hstep ih => exact hstep.keeps_shared (Steps.keep_reprOk hsteps hok) ih

theorem Steps.keep_class {N : Nat} {interf : List Bool} {repr repr' : List Nat}
    (h : Steps N interf repr repr') (hok : ReprOk N repr) {a q : Nat}
    (ha : repr[a]? = some q) (hq : q ≠ END) : ∃ q', repr'[a]? = some q' ∧ q' ≠ END := by
  induction h with
  | refl => exact ⟨q, ha, hq⟩
  | tail hsteps hstep ih =>
    obtain ⟨q1, h1, h2⟩ := ih
    exact hstep.keeps_class (Steps.keep_reprOk hsteps hok) h1 h2

theorem Grown.refl {N : Nat} {interf : List Bool} {s : Lists} (hI : ClassInv N s) :
    Grown N interf s s :=
  ⟨hI, Relation.ReflTransGen.refl, Or.inl rfl⟩

theorem Grown.trans {N : Nat} {interf : List Bool} {s s' s'' : Lists}
    (h1 : Grown N interf s s') (h2 : Grown N interf s' s'') : Grown N interf s s'' := by
  obtain ⟨-, hs1, hc1⟩ := h1
  obtain ⟨hI2, hs2, hc2⟩ := h2
  refine ⟨hI2, Relation.ReflTransGen.trans hs1 hs2, ?_⟩
  rcases hc2 with h | h
  · rcases hc1 with h' | h'
    · exact Or.inl (h.trans h')
    · exact Or.inr (by rw [h]; exact h')
  · exact Or.inr h

theorem Grown.of_step {N : Nat} {interf : List Bool} {s s' : Lists} (hI' : ClassInv N s')
    (h : s'.repr = s.repr ∨ (Step N interf s.repr s'.repr ∧ Shared s'.repr)) :
    Grown N interf s s' := by
  rcases h with h | ⟨h1, h2⟩
  · exact ⟨hI', by rw [h]; exact Relation.ReflTransGen.refl, Or.inl h⟩
  · exact ⟨hI', Relation.ReflTransGen.single h1, Or.inr h2⟩

theorem copy_coalescing_spec {N : Nat} {s : Lists} (hI : ClassInv N s) {interf : List Bool}
    (hlen : interf.length = N * N) {fuel : Nat} (hf : N < fuel) (tagver_zero : Nat)
    (bblocks : List cfg_bb_t) (hcmd : CmdsInRange N bblocks) :
    ∃ s', copy_coalescing tagver_zero N interf fuel bblocks s = some s' ∧
      Grown N interf s s' := by
  unfold copy_coalescing
  refine forLoop_inv _ (fun t => Grown N interf s t) bblocks ?_ s (Grown.refl hI)
  intro b hb t ht
  refine forLoop_inv _ (fun t => Grown N interf s t) b.cmd ?_ t ht
  intro p hp u hu
  obtain ⟨u', hu', hI', hstep⟩ := coalesce_spec hu.1 hlen hf tagver_zero p (hcmd b hb p hp)
  exact ⟨u', hu', hu.trans (Grown.of_step hI' hstep)⟩

/-! ## Class merging -/

theorem scan2_spec {N : Nat} {s : Lists} (hI : ClassInv N s) {ry : Nat}
    (hry : s.repr[ry]? = some ry) {interf : List Bool} (hlen : interf.length = N * N)
    {fuel : Nat} (hf : N < fuel) :
    ∀ (l : List Nat) (ofuel x : Nat), Chain s.next x l → l.length < ofuel →
      (∀ m ∈ l, m < N) →
      ∃ x', scan2 N interf s.next ry fuel ofuel x = some x' ∧
        ((x' = END ∧ ∀ a ∈ l, ∀ b : Nat, s.repr[b]? = some ry →
            interf[a * N + b]? = some false) ∨
         (x' ≠ END ∧ ∃ a ∈ l, ∃ b : Nat, s.repr[b]? = some ry ∧
            interf[a * N + b]? = some true)) := by
  intro l
  induction l with
  | nil =>
    intro ofuel x h hf' _
    cases ofuel with
    | zero => simp at hf'
    | succ ofuel =>
      have hx : x = END := h
      exact ⟨END, by simp [scan2, hx], Or.inl ⟨rfl, by simp⟩⟩
  | cons m l ih =>
    intro ofuel x h hf' hlt
    obtain ⟨hx, hm, x1, hx1, hl⟩ := h
    cases ofuel with
    | zero => simp at hf'
    | succ ofuel =>
      subst hx
      have hxN : x < N := hlt x (List.mem_cons_self _ _)
      obtain ⟨y, hy, hcase⟩ := class_scan hI hry hlen hf (fun y => x * N + y)
        (fun z hz => index_lt hxN hz)
      rcases hcase with ⟨hE, hno⟩ | ⟨hE, hyr, hyi⟩
      · obtain ⟨r, hr, hres⟩ := ih ofuel x1 hl (by simpa using hf')
          (fun i hi => hlt i (List.mem_cons_of_mem _ hi))
        refine ⟨r, by simp [scan2, hm, hy, hE, hx1, hr], ?_⟩
        rcases hres with ⟨h1, h2⟩ | ⟨h1, a, ha, b, hb, hab⟩
        · left
          refine ⟨h1, ?_⟩
          intro a ha b hb
          rcases List.mem_cons.1 ha with rfl | ha
          · exact hno b hb
          · exact h2 a ha b hb
        · exact Or.inr ⟨h1, a, List.mem_cons_of_mem _ ha, b, hb, hab⟩
      · exact ⟨x, by simp [scan2, hm, hy, hE],
          Or.inr ⟨hm, x, List.mem_cons_self _ _, y, hyr, hyi⟩⟩

theorem relabel_aux (next : List Nat) (rx ry nrx : Nat) (hnrx : next[rx]? = some nrx) :
    ∀ (l : List Nat) (fuel y : Nat) (repr : List Nat), Chain next y l → l ≠ [] →
      l.length ≤ fuel → (∀ m ∈ l, m < repr.length) →
      ∃ t repr', relabel rx ry fuel y ⟨next, repr⟩ =
          some ⟨(next.set t nrx).set rx ry, repr'⟩ ∧
        l.getLast? = some t ∧ repr'.length = repr.length ∧
        ∀ j : Nat, repr'[j]? = if j ∈ l then some rx else repr[j]? := by
  intro l
  induction l with
  | nil => intro _ _ _ _ h; exact absurd rfl h
  | cons m l ih =>
    intro fuel y repr hch _ hfuel hlt
    obtain ⟨hy, hm, z', hz', hl⟩ := hch
    subst hy
    have hyl : y < repr.length := hlt y (List.mem_cons_self _ _)
    have hyn : y < next.length := lt_of_getElem? hz'
    have hrxn : rx < next.length := lt_of_getElem? hnrx
    cases fuel with
    | zero => simp at hfuel
    | succ fuel =>
      cases l with
      | nil =>
        have hz : z' = END := hl
        subst hz
        refine ⟨y, repr.set y rx, ?_, by simp, by simp, ?_⟩
        · simp [relabel, store, hyl, hz', hnrx, hyn, hrxn]
        · intro j
          rw [getElem?_set_lt j rx hyl]
          by_cases h : y = j
          · simp [h]
          · have : ¬ j = y := fun h' => h h'.symm
            simp [h, this]
      | cons m2 l' =>
        have hz : z' = m2 := hl.1
        have hzE : z' ≠ END := by rw [hz]; exact hl.2.1
        obtain ⟨t, repr', hrel, hlast, hlen', hget⟩ := ih fuel z' (repr.set y rx) hl
          (by simp) (by simpa using hfuel)
          (fun i hi => by simpa using hlt i (List.mem_cons_of_mem _ hi))
        refine ⟨t, repr', ?_, ?_, by simpa using hlen', ?_⟩
        · simp only [relabel, store, hyl, if_true, hz', hzE, if_false]
          exact hrel
        · simpa using hlast
        · intro j
          rw [hget j, getElem?_set_lt j rx hyl]
          by_cases h1 : j ∈ m2 :: l'
          · simp [h1]
          · by_cases h2 : y = j
            · simp [h2]
            · have : ¬ j = y := fun h' => h2 h'.symm
              have h3 : j ∉ y :: m2 :: l' := by
                intro h
                rcases List.mem_cons.1 h with h | h
                · exact this h
                · exact h1 h
              simp only [h1, h2, h3, if_false]

theorem chain_splice {next next' : List Nat} {t z2 : Nat} {l2 : List Nat}
    (ht : next'[t]? = some z2) (hl2 : Chain next' z2 l2) :
    ∀ (l1 : List Nat) (z : Nat), Chain next z l1 → l1 ≠ [] → l1.Nodup →
      l1.getLast? = some t → (∀ i ∈ l1, i ≠ t → next'[i]? = next[i]?) →
      Chain next' z (l1 ++ l2) := by
  intro l1
  induction l1 with
  | nil => intro _ _ h; exact absurd rfl h
  | cons m l ih =>
    intro z hch _ hnd hlast hsame
    obtain ⟨hz, hm, z', hz', hl⟩ := hch
    cases l with
    | nil =>
      have : m = t := by simpa using hlast
      subst this
      exact ⟨hz, hm, z2, ht, hl2⟩
    | cons m2 l' =>
      have hlast' : (m2 :: l').getLast? = some t := by simpa using hlast
      have htm : t ∈ m2 :: l' := List.mem_of_getLast?_eq_some hlast'
      have hmt : m ≠ t := by
        rintro rfl
        exact (List.nodup_cons.1 hnd).1 htm
      refine ⟨hz, hm, z', ?_, ?_⟩
      · rw [hsame m (List.mem_cons_self _ _) hmt]
        exact hz'
      · exact ih z' hl (by simp) (List.nodup_cons.1 hnd).2 hlast'
          (fun i hi hit => hsame i (List.mem_cons_of_mem _ hi) hit)

theorem relabel_spec {N : Nat} {s : Lists} (hI : ClassInv N s) (interf : List Bool)
    {rx ry : Nat} (hne : rx ≠ ry) (hrx : s.repr[rx]? = some rx) (hry : s.repr[ry]? = some ry)
    (hno : ∀ a b : Nat, s.repr[a]? = some rx → s.repr[b]? = some ry →
      interf[a * N + b]? = some false)
    {fuel : Nat} (hf : N < fuel) :
    ∃ s', relabel rx ry fuel ry s = some s' ∧ ClassInv N s' ∧
      s'.repr = s.repr.map (fun r => if r = ry then rx else r) ∧
      Step N interf s.repr s'.repr ∧ Shared s'.repr := by
  have hrxE : rx ≠ END := hI.idx_ne_end hrx
  have hryE : ry ≠ END := hI.idx_ne_end hry
  have hrl : s.repr.length = N := hI.repr_len
  have hnl : s.next.length = N := hI.next_len
  obtain ⟨lx, hchx, hndx, hmemx⟩ := hI.chain rx hrx
  obtain ⟨ly, hchy, hndy, hmemy⟩ := hI.chain ry hry
  obtain ⟨lx', rfl⟩ := hchx.head hrxE
  obtain ⟨-, -, nrx, hnrx, hchx'⟩ := hchx
  have hlty : ∀ m ∈ ly, m < N := fun m hm => hI.rep_lt ((hmemy m).1 hm)
  have hly : ly ≠ [] := by
    intro h
    have := (hmemy ry).2 hry
    rw [h] at this
    simp at this
  obtain ⟨t, repr', hrel, hlast, hlen', hget⟩ := relabel_aux s.next rx ry nrx hnrx ly fuel ry
    s.repr hchy hly (le_of_lt (lt_of_le_of_lt (nodup_length_le hndy hlty) hf))
    (fun m hm => by rw [hrl]; exact hlty m hm)
  have ht : t ∈ ly := List.mem_of_getLast?_eq_some hlast
  have htN : t < N := hlty t ht
  have hrxN : rx < N := hI.rep_lt hrx
  have hmap : repr' = s.repr.map (fun r => if r = ry then rx else r) := by
    apply List.ext_getElem?
    intro j
    rw [hget j, List.getElem?_map]
    by_cases hj : j ∈ ly
    · simp [hj, (hmemy j).1 hj]
    · simp only [hj, if_false]
      cases hrj : s.repr[j]? with
      | none => simp
      | some q =>
        have : q ≠ ry := by
          rintro rfl
          exact hj ((hmemy j).2 hrj)
        simp [this]
  have hstep : Step N interf s.repr repr' := by
    rw [hmap]
    exact Step.merge rx ry hne hrx hry hno
  have hok' : ReprOk N repr' := hstep.keeps_reprOk hI.toReprOk
  have hX : ∀ j, ((s.next.set t nrx).set rx ry)[j]? =
      if rx = j then some ry else if t = j then some nrx else s.next[j]? := by
    intro j
    rw [getElem?_set_lt j ry (by simp <;> omega), getElem?_set_lt j nrx (by omega)]
  have hrxly : rx ∉ ly := by
    intro h
    have := (hmemy rx).1 h
    rw [hrx] at this
    exact hne (Option.some.inj this)
  have hdisj : ∀ i, i ∈ ly → i ∉ rx :: lx' := by
    intro i hi hi'
    have h1 := (hmemy i).1 hi
    have h2 := (hmemx i).1 hi'
    rw [h1] at h2
    exact hne (Option.some.inj h2).symm
  refine ⟨⟨(s.next.set t nrx).set rx ry, repr'⟩, by rw [← hrel], ?_, hmap, hstep, ?_⟩
  · refine ⟨hI.le_end, by simp [hnl], hok'.2.1, hok'.2.2, ?_, ?_⟩
    · intro a ha
      have ha' : repr'[a]? = some END := ha
      rw [hget a] at ha'
      by_cases hal : a ∈ ly
      · simp [hal] at ha'
        exact absurd ha' hrxE
      · simp only [hal, if_false] at ha'
        have h1 : rx ≠ a := by
          rintro rfl
          rw [hrx] at ha'
          exact hrxE (Option.some.inj ha')
        have h2 : t ≠ a := by
          rintro rfl
          exact hal ht
        show ((s.next.set t nrx).set rx ry)[a]? = some END
        rw [hX]
        simp only [h1, h2, if_false]
        exact hI.free_next a ha'
    · intro q hq
      have hq' : repr'[q]? = some q := hq
      rw [hget q] at hq'
      show ∃ l, Chain ((s.next.set t nrx).set rx ry) q l ∧ l.Nodup ∧
        ∀ x : Nat, x ∈ l ↔ repr'[x]? = some q
      by_cases hqr : q = rx
      · subst hqr
        refine ⟨q :: (ly ++ lx'), ?_, ?_, ?_⟩
        · refine ⟨rfl, hrxE, ry, by simp [hX], ?_⟩
          refine @chain_splice s.next _ t nrx lx' ?_ ?_ ly ry hchy hly hndy hlast ?_
          · have : q ≠ t := by
              rintro rfl
              exact hrxly ht
            simp [hX, this]
          · refine hchx'.congr ?_
            intro i hi
            have h1 : q ≠ i := by
              rintro rfl
              exact (List.nodup_cons.1 hndx).1 hi
            have h2 : t ≠ i := by
              rintro rfl
              exact hdisj t ht (List.mem_cons_of_mem _ hi)
            simp [hX, h1, h2]
          · intro i hi hit
            have h1 : q ≠ i := by
              rintro rfl
              exact hrxly hi
            have h2 : t ≠ i := fun h => hit h.symm
            simp [hX, h1, h2]
        · refine List.nodup_cons.2 ⟨?_, ?_⟩
          · intro h
            rcases List.mem_append.1 h with h | h
            · exact hrxly h
            · exact (List.nodup_cons.1 hndx).1 h
          · refine List.Nodup.append hndy (List.nodup_cons.1 hndx).2 ?_
            intro i hi hi'
            exact hdisj i hi (List.mem_cons_of_mem _ hi')
        · intro a
          rw [hget a]
          by_cases hal : a ∈ ly
          · simp [hal]
          · simp only [hal, if_false]
            rw [← hmemx a]
            simp [hal]
      · have hql : q ∉ ly := by
          intro h
          simp [h] at hq'
          exact hqr hq'.symm
        simp only [hql, if_false] at hq'
        have hqy : q ≠ ry := by
          rintro rfl
          exact hql ((hmemy q).2 hry)
        obtain ⟨lq, hcq, hndq, hmemq⟩ := hI.chain q hq'
        refine ⟨lq, hcq.congr ?_, hndq, ?_⟩
        · intro i hi
          have hiq := (hmemq i).1 hi
          have h1 : rx ≠ i := by
            rintro rfl
            rw [hrx] at hiq
            exact hqr (Option.some.inj hiq).symm
          have h2 : t ≠ i := by
            rintro rfl
            have := (hmemy t).1 ht
            rw [hiq] at this
            exact hqy (Option.some.inj this)
          simp [hX, h1, h2]
        · intro a
          rw [hmemq a, hget a]
          by_cases hal : a ∈ ly
          · simp only [hal, if_true, (hmemy a).1 hal]
            constructor
            · intro h
              exact absurd (Option.some.inj h).symm hqy
            · intro h
              exact absurd (Option.some.inj h).symm hqr
          · simp [hal]
  · refine ⟨ry, rx, ?_, hrxE, hne⟩
    show repr'[ry]? = some rx
    rw [hget ry]
    simp [(hmemy ry).2 hry]

theorem merge_pair_spec {N : Nat} {s : Lists} (hI : ClassInv N s) {interf : List Bool}
    (hlen : interf.length = N * N) {fuel : Nat} (hf : N < fuel) {rx ry : Nat}
    (hrx : s.repr[rx]? = some rx) (hne : rx ≠ ry) (hryN : ry < N) :
    ∃ s', merge_pair N interf fuel rx ry s = some s' ∧ Grown N interf s s' ∧
      s'.repr[rx]? = some rx ∧
      ((s'.repr = s.repr ∧
          (s.repr[ry]? = some ry → ∃ a b : Nat, s.repr[a]? = some rx ∧
            s.repr[b]? = some ry ∧ interf[a * N + b]? = some true)) ∨
       (s.repr[ry]? = some ry ∧
          s'.repr = s.repr.map (fun r => if r = ry then rx else r))) := by
  have hrl : s.repr.length = N := hI.repr_len
  obtain ⟨r, hr⟩ := getElem?_of_lt (l := s.repr) (i := ry) (by omega)
  unfold merge_pair
  simp only [hr]
  by_cases h1 : ry = r
  · subst h1
    obtain ⟨lx, hchx, hndx, hmemx⟩ := hI.chain rx hrx
    have hltx : ∀ m ∈ lx, m < N := fun m hm => hI.rep_lt ((hmemx m).1 hm)
    obtain ⟨x', hx', hcase⟩ := scan2_spec hI hr hlen hf lx fuel rx hchx
      (lt_of_le_of_lt (nodup_length_le hndx hltx) hf) hltx
    simp only [ne_eq, not_true, if_false, hx']
    rcases hcase with ⟨hE, hno⟩ | ⟨hE, a, ha, b, hb, hab⟩
    · obtain ⟨s', hs', hI', hmap, hstep, hsh⟩ := relabel_spec hI interf hne hrx hr
        (fun a b ha hb => hno a ((hmemx a).2 ha) b hb) hf
      refine ⟨s', by simp [hE, hs'], Grown.of_step hI' (Or.inr ⟨hstep, hsh⟩), ?_,
        Or.inr ⟨trivial, hmap⟩⟩
      rw [hmap, List.getElem?_map, hrx]
      simp [hne]
    · exact ⟨s, by simp [hE], Grown.refl hI, hrx,
        Or.inl ⟨rfl, fun _ => ⟨a, b, (hmemx a).1 ha, hb, hab⟩⟩⟩
  · refine ⟨s, by simp [h1], Grown.refl hI, hrx, Or.inl ⟨rfl, fun h => ?_⟩⟩
    exact absurd (Option.some.inj h).symm h1

theorem merge_row_spec {N : Nat} {s : Lists} (hI : ClassInv N s) {interf : List Bool}
    (hlen : interf.length = N * N) {fuel : Nat} (hf : N < fuel) {rx : Nat} (hrxN : rx < N) :
    ∃ s', merge_row N interf fuel rx s = some s' ∧ Grown N interf s s' := by
  have hrl : s.repr.length = N := hI.repr_len
  obtain ⟨r, hr⟩ := getElem?_of_lt (l := s.repr) (i := rx) (by omega)
  unfold merge_row
  simp only [hr]
  by_cases h1 : rx = r
  · subst h1
    simp only [ne_eq, not_true, if_false]
    obtain ⟨s', hs', hg, -⟩ := forLoop_inv (merge_pair N interf fuel rx)
      (fun t => Grown N interf s t ∧ t.repr[rx]? = some rx)
      (List.range' (rx + 1) (N - (rx + 1))) (by
        intro ry hry t ht
        have hry' := List.mem_range'_1.1 hry
        obtain ⟨t', ht', hg', hrx', -⟩ := @merge_pair_spec N t ht.1.1 interf hlen fuel hf rx ry
          ht.2 (by omega) (by omega)
        exact ⟨t', ht', ht.1.trans hg', hrx'⟩) s ⟨Grown.refl hI, hr⟩
    exact ⟨s', hs', hg⟩
  · exact ⟨s, by simp [h1], Grown.refl hI⟩

theorem class_merging_spec {N : Nat} {s : Lists} (hI : ClassInv N s) {interf : List Bool}
    (hlen : interf.length = N * N) {fuel : Nat} (hf : N < fuel) :
    ∃ s', class_merging N interf fuel s = some s' ∧ Grown N interf s s' := by
  unfold class_merging
  refine forLoop_inv _ (fun t => Grown N interf s t) (List.range N) ?_ s (Grown.refl hI)
  intro rx hrx t ht
  obtain ⟨t', ht', hg'⟩ := merge_row_spec ht.1 hlen hf (List.mem_range.1 hrx)
  exact ⟨t', ht', ht.trans hg'⟩

/-! ## Residual placement -/

theorem try_classes_spec {N : Nat} {s : Lists} (hI : ClassInv N s) {interf : List Bool}
    (hlen : interf.length = N * N) {fuel : Nat} (hf : N < fuel) {x : Nat}
    (hx : s.repr[x]? = some END) :
    ∀ rest : List Nat, (∀ r ∈ rest, r < N) →
      (∀ r : Nat, s.repr[r]? = some r → r ∉ rest →
        ∃ y : Nat, s.repr[y]? = some r ∧ interf[x * N + y]? = some true) →
      ∃ s', try_classes N interf fuel x rest s = some s' ∧ ClassInv N s' ∧
        Step N interf s.repr s'.repr ∧
        ((∃ r, r ≠ END ∧ r ≠ x ∧ s.repr[r]? = some r ∧ s'.repr = s.repr.set x r) ∨
         (s'.repr = s.repr.set x x ∧
          ∀ r : Nat, s.repr[r]? = some r →
            ∃ y : Nat, s.repr[y]? = some r ∧ interf[x * N + y]? = some true)) := by
  have hxN : x < N := hI.rep_lt hx
  have hrl : s.repr.length = N := hI.repr_len
  intro rest
  induction rest with
  | nil =>
    intro _ hall
    have hall' : ∀ r : Nat, s.repr[r]? = some r →
        ∃ y : Nat, s.repr[y]? = some r ∧ interf[x * N + y]? = some true :=
      fun r hr => hall r hr (List.not_mem_nil r)
    exact ⟨⟨s.next, s.repr.set x x⟩, by simp [try_classes, store, hrl, hxN],
      single_spec hI hx, Step.single x hx hall', Or.inr ⟨rfl, hall'⟩⟩
  | cons rx rest ih =>
    intro hlt hall
    have hrxN : rx < N := hlt rx (List.mem_cons_self _ _)
    obtain ⟨r, hr⟩ := getElem?_of_lt (l := s.repr) (i := rx) (by omega)
    have hlt' : ∀ r ∈ rest, r < N := fun r hr => hlt r (List.mem_cons_of_mem _ hr)
    simp only [try_classes, hr]
    by_cases h1 : rx = r
    · subst h1
      obtain ⟨y, hy, hcase⟩ := class_scan hI hr hlen hf (fun y => x * N + y)
        (fun z hz => index_lt hxN hz)
      simp only [ne_eq, not_true, if_false, hy]
      rcases hcase with ⟨hE, hno⟩ | ⟨hE, hyr, hyi⟩
      · obtain ⟨s', hs', hrepr, hI'⟩ := link_spec hI hr hx
        refine ⟨s', by simp [hE, hs'], hI', ?_, Or.inl ⟨rx, hI.idx_ne_end hr, ?_, hr, hrepr⟩⟩
        · rw [hrepr]
          exact Step.join _ _ hx hr (Or.inr hno)
        · rintro rfl
          rw [hr] at hx
          exact hI.idx_ne_end hr (Option.some.inj hx)
      · simp only [hE, if_false]
        refine ih hlt' ?_
        intro q hq hqr
        by_cases hq2 : q = rx
        · subst hq2
          exact ⟨y, hyr, hyi⟩
        · refine hall q hq ?_
          intro h
          rcases List.mem_cons.1 h with h | h
          · exact hq2 h
          · exact hqr h
    · simp only [ne_eq, h1, not_false_eq_true, if_true]
      refine ih hlt' ?_
      intro q hq hqr
      refine hall q hq ?_
      intro h
      rcases List.mem_cons.1 h with h | h
      · subst h
        rw [hr] at hq
        exact h1 (Option.some.inj hq).symm
      · exact hqr h

theorem place_spec {N : Nat} {s : Lists} (hI : ClassInv N s) {interf : List Bool}
    (hlen : interf.length = N * N) {fuel : Nat} (hf : N < fuel) {x : Nat} (hxN : x < N) :
    ∃ s', place N interf fuel x s = some s' ∧ ClassInv N s' ∧
      Steps N interf s.repr s'.repr ∧ Placed N interf x s.repr s'.repr := by
  have hrl : s.repr.length = N := hI.repr_len
  obtain ⟨r, hr⟩ := getElem?_of_lt (l := s.repr) (i := x) (by omega)
  unfold place
  by_cases h1 : r = END
  · subst h1
    obtain ⟨s', hs', hI', hstep, hcase⟩ := try_classes_spec hI hlen hf hr (List.range N)
      (fun r hr => List.mem_range.1 hr)
      (fun r hr hnot => absurd (List.mem_range.2 (hI.rep_lt hr)) hnot)
    refine ⟨s', by simp [hr, hs'], hI', Relation.ReflTransGen.single hstep, ?_⟩
    rcases hcase with ⟨q, hq1, hq2, hq3, hq4⟩ | ⟨hq, hall⟩
    · exact Or.inl ⟨q, hq1, hq2, hr, hq3, hq4⟩
    · exact Or.inr (Or.inr ⟨hr, hq, hall⟩)
  · exact ⟨s, by simp [hr, h1], hI, Relation.ReflTransGen.refl,
      Or.inr (Or.inl ⟨rfl, r, hr, h1⟩)⟩

theorem Placed.has_class {N : Nat} {interf : List Bool} {x : Nat} {repr repr' : List Nat}
    (h : Placed N interf x repr repr') (hok : ReprOk N repr) :
    ∃ q, repr'[x]? = some q ∧ q ≠ END := by
  rcases h with ⟨r, h1, -, h3, -, h5⟩ | ⟨h1, q, h2, h3⟩ | ⟨h1, h2, -⟩
  · exact ⟨r, by rw [h5, getElem?_set_lt _ _ (lt_of_getElem? h3)]; simp, h1⟩
  · exact ⟨q, by rw [h1]; exact h2, h3⟩
  · exact ⟨x, by rw [h2, getElem?_set_lt _ _ (lt_of_getElem? h1)]; simp, hok.ne_end h1⟩

/-- Residual placement with an additional loop invariant `Q`. -/
theorem residual_placement_inv {N : Nat} {s : Lists} (hI : ClassInv N s) {interf : List Bool}
    (hlen : interf.length = N * N) {fuel : Nat} (hf : N < fuel) (Q : Nat → Lists → Prop)
    (hQ0 : Q 0 s)
    (hQ : ∀ k t t', k < N → ClassInv N t → Q k t → ClassInv N t' →
      Steps N interf t.repr t'.repr → Placed N interf k t.repr t'.repr → Q (k + 1) t') :
    ∃ s', residual_placement N interf fuel s = some s' ∧ ClassInv N s' ∧
      Steps N interf s.repr s'.repr ∧
      (∀ a, a < N → ∃ q, s'.repr[a]? = some q ∧ q ≠ END) ∧ Q N s' := by
  unfold residual_placement
  obtain ⟨s', hs', hI', hsteps, hnf, hq⟩ := forLoop_range_inv (place N interf fuel)
    (fun k t => ClassInv N t ∧ Steps N interf s.repr t.repr ∧
      (∀ a, a < k → ∃ q, t.repr[a]? = some q ∧ q ≠ END) ∧ Q k t) N (by
      intro k hk t ⟨htI, hts, htn, htq⟩
      obtain ⟨t', ht', hI', hst, hcase⟩ := place_spec htI hlen hf hk
      refine ⟨t', ht', hI', Relation.ReflTransGen.trans hts hst, ?_,
        hQ k t t' hk htI htq hI' hst hcase⟩
      intro a ha
      rcases Nat.lt_succ_iff_lt_or_eq.1 ha with h | h
      · obtain ⟨q, hq1, hq2⟩ := htn a h
        exact Steps.keep_class hst htI.toReprOk hq1 hq2
      · rw [h]
        exact hcase.has_class htI.toReprOk) s
    ⟨hI, Relation.ReflTransGen.refl, fun a ha => absurd ha (Nat.not_lt_zero a), hQ0⟩
  exact ⟨s', hs', hI', hsteps, hnf, hq⟩

/-! ## The three phases together -/

theorem init_inv {N : Nat} (hN : N ≤ END) : ClassInv N (init N) := by
  have hR : ∀ j : Nat, (init N).repr[j]? = if j < N then some END else none := by
    intro j
    simp [init, List.getElem?_replicate]
  have hX : ∀ j : Nat, (init N).next[j]? = if j < N then some END else none := by
    intro j
    simp [init, List.getElem?_replicate]
  have hno : ∀ x r : Nat, (init N).repr[x]? = some r → r = END ∧ x < N := by
    intro x r hx
    rw [hR] at hx
    by_cases h : x < N
    · simp only [h, if_true] at hx
      exact ⟨(Option.some.inj hx).symm, h⟩
    · simp [h] at hx
  refine ⟨hN, by simp [init], by simp [init], ?_, ?_, ?_⟩
  · intro x r hx hr
    exact absurd (hno x r hx).1 hr
  · intro x hx
    rw [hX]
    simp [(hno x END hx).2]
  · intro r hr
    have := hno r r hr
    omega

theorem init_free {N : Nat} {a q : Nat} (h : (init N).repr[a]? = some q) : q = END := by
  simp only [init, List.getElem?_replicate] at h
  by_cases h1 : a < N
  · simp only [h1, if_true] at h
    exact (Option.some.inj h).symm
  · simp [h1] at h

/-- The three phases succeed one after the other; the final arrays satisfy the
invariant, every version has a class, and unless some class has two members
every version interferes with all smaller ones. -/
theorem partition_spec (tagver_zero : Nat) (cfg : cfg_t) (interf : List Bool) (fuel : Nat)
    (hN : cfg.nver ≤ END) (hlen : interf.length = cfg.nver * cfg.nver)
    (hcmd : CmdsInRange cfg.nver cfg.bblocks) (hf : cfg.nver < fuel) :
    ∃ s1 s2 s3,
      copy_coalescing tagver_zero cfg.nver interf fuel cfg.bblocks (init cfg.nver) = some s1 ∧
      class_merging cfg.nver interf fuel s1 = some s2 ∧
      residual_placement cfg.nver interf fuel s2 = some s3 ∧
      partition tagver_zero cfg interf fuel = some s3 ∧
      Grown cfg.nver interf (init cfg.nver) s1 ∧ Grown cfg.nver interf s1 s2 ∧
      ClassInv cfg.nver s3 ∧ Steps cfg.nver interf s2.repr s3.repr ∧
      (∀ a, a < cfg.nver → ∃ q, s3.repr[a]? = some q ∧ q ≠ END) ∧
      (Shared s3.repr ∨
        ∀ a, a < cfg.nver → ∀ b, b < a → interf[a * cfg.nver + b]? = some true) := by
  obtain ⟨s1, h1, hg1⟩ := copy_coalescing_spec (init_inv hN) hlen hf tagver_zero cfg.bblocks hcmd
  obtain ⟨s2, h2, hg2⟩ := class_merging_spec hg1.1 hlen hf
  have hg12 := hg1.trans hg2
  obtain ⟨s3, h3, hI3, hst3, hnf, hq⟩ := residual_placement_inv hg2.1 hlen hf
    (fun k t => Shared t.repr ∨
      ((∀ a, a < k → t.repr[a]? = some a) ∧
       (∀ a q, t.repr[a]? = some q → k ≤ a → q = END) ∧
       ∀ a, a < k → ∀ b, b < a → interf[a * cfg.nver + b]? = some true))
    (by
      rcases hg12.2.2 with h | h
      · right
        refine ⟨fun a ha => absurd ha (Nat.not_lt_zero a), ?_, fun a ha => absurd ha (Nat.not_lt_zero a)⟩
        intro a q ha _
        rw [h] at ha
        exact init_free ha
      · exact Or.inl h)
    (by
      intro k t t' hk htI hQ hI' hst hcase
      rcases hQ with hQ | ⟨hQ1, hQ2, hQ3⟩
      · exact Or.inl (Steps.keep_shared hst htI.toReprOk hQ)
      · rcases hcase with ⟨r, hr1, hr2, hr3, -, hr5⟩ | ⟨-, q, hq1, hq2⟩ | ⟨hfree, hset, hall⟩
        · left
          exact ⟨k, r, by rw [hr5, getElem?_set_lt _ _ (lt_of_getElem? hr3)]; simp, hr1, hr2⟩
        · exact absurd (hQ2 k q hq1 (le_refl k)) hq2
        · right
          have hget : ∀ j : Nat, t'.repr[j]? = if k = j then some k else t.repr[j]? := by
            intro j
            rw [hset]
            exact getElem?_set_lt j k (by rw [htI.repr_len]; exact hk)
          refine ⟨?_, ?_, ?_⟩
          · intro a ha
            rw [hget]
            rcases Nat.lt_succ_iff_lt_or_eq.1 ha with h | h
            · have : k ≠ a := by omega
              simp [this, hQ1 a h]
            · simp [h]
          · intro a q ha hka
            rw [hget] at ha
            have : k ≠ a := by omega
            simp only [this, if_false] at ha
            exact hQ2 a q ha (by omega)
          · intro a ha b hb
            rcases Nat.lt_succ_iff_lt_or_eq.1 ha with h | h
            · exact hQ3 a h b hb
            · subst h
              obtain ⟨y, hy1, hy2⟩ := hall b (hQ1 b hb)
              have hyb : y = b := by
                by_cases hya : y < a
                · have := hQ1 y hya
                  rw [hy1] at this
                  exact (Option.some.inj this).symm
                · have := hQ2 y b hy1 (by omega)
                  exact absurd this (htI.idx_ne_end (hQ1 b hb))
              rw [hyb] at hy2
              exact hy2)
  refine ⟨s1, s2, s3, h1, h2, h3, ?_, hg1, hg2, hI3, hst3, hnf, ?_⟩
  · simp [partition, h1, h2, h3]
  · rcases hq with h | ⟨-, -, h⟩
    · exact Or.inl h
    · exact Or.inr h

/-! ## The numbering loop -/

theorem assign_spec (next : List Nat) (c : Nat) :
    ∀ (l : List Nat) (fuel x : Nat) (v : List (Option Nat)), Chain next x l →
      l.length < fuel → (∀ m ∈ l, m < v.length) →
      ∃ v', assign next c fuel x v = some v' ∧ v'.length = v.length ∧
        ∀ j : Nat, v'[j]? = if j ∈ l then some (some c) else v[j]? := by
  intro l
  induction l with
  | nil =>
    intro fuel x v h hf _
    cases fuel with
    | zero => simp at hf
    | succ fuel =>
      have hx : x = END := h
      exact ⟨v, by simp [assign, hx], rfl, by simp⟩
  | cons m l ih =>
    intro fuel x v h hf hlt
    obtain ⟨hx, hm, x1, hx1, hl⟩ := h
    cases fuel with
    | zero => simp at hf
    | succ fuel =>
      subst hx
      have hxv : x < v.length := hlt x (List.mem_cons_self _ _)
      obtain ⟨v', hv', hlen', hget⟩ := ih fuel x1 (v.set x (some c)) hl (by simpa using hf)
        (fun i hi => by simpa using hlt i (List.mem_cons_of_mem _ hi))
      refine ⟨v', by simp [assign, hm, store, hxv, hx1, hv'], by simpa using hlen', ?_⟩
      intro j
      rw [hget j, getElem?_set_lt j (some c) hxv]
      by_cases h1 : j ∈ l
      · simp [h1]
      · by_cases h2 : x = j
        · simp [h2]
        · have h3 : ¬ j = x := fun h' => h2 h'.symm
          simp [h1, h2, h3]

theorem isRep_iff {repr : List Nat} {r : Nat} : isRep repr r = true ↔ repr[r]? = some r := by
  simp [isRep]

theorem rank_succ (repr : List Nat) (k : Nat) :
    rank repr k = classCount k repr + if isRep repr k then 1 else 0 := by
  simp [rank, classCount, List.range_succ, List.countP_append, List.countP_cons]

theorem classCount_succ (repr : List Nat) (k : Nat) :
    classCount (k + 1) repr = classCount k repr + if isRep repr k then 1 else 0 := by
  simp [classCount, List.range_succ, List.countP_append, List.countP_cons]

theorem numbering_spec {N : Nat} {s : Lists} (hI : ClassInv N s) {fuel : Nat} (hf : N < fuel) :
    ∃ v, numbering N fuel s (List.replicate N none) = some (classCount N s.repr, v) ∧
      v.length = N ∧
      ∀ j q : Nat, s.repr[j]? = some q → q ≠ END → v[j]? = some (some (rank s.repr q)) := by
  unfold numbering
  obtain ⟨⟨c, v⟩, hres, hc, hvl, hv⟩ := forLoop_range_inv (number_class s fuel)
    (fun k acc => acc.1 = classCount k s.repr ∧ acc.2.length = N ∧
      ∀ j q : Nat, s.repr[j]? = some q → q ≠ END →
        acc.2[j]? = some (if q < k then some (rank s.repr q) else none)) N (by
      rintro k hk ⟨c, v⟩ ⟨hc, hvl, hv⟩
      simp only at hc hvl hv
      obtain ⟨r, hr⟩ := getElem?_of_lt (l := s.repr) (i := k) (by rw [hI.repr_len]; exact hk)
      unfold number_class
      simp only [hr]
      by_cases h1 : r = k
      · subst h1
        obtain ⟨l, hch, hnd, hmem⟩ := hI.chain r hr
        have hlt : ∀ x ∈ l, x < N := fun x hx => hI.rep_lt ((hmem x).1 hx)
        obtain ⟨v', hv', hlen', hget⟩ := assign_spec s.next (c + 1) l fuel r v hch
          (lt_of_le_of_lt (nodup_length_le hnd hlt) hf) (fun m hm => by rw [hvl]; exact hlt m hm)
        have hrep : isRep s.repr r = true := isRep_iff.2 hr
        refine ⟨(c + 1, v'), by simp [hv'], ?_, by rw [hlen', hvl], ?_⟩
        · simp [classCount_succ, hrep, hc]
        · intro j q hj hq
          simp only
          rw [hget j]
          by_cases hjl : j ∈ l
          · have := (hmem j).1 hjl
            rw [hj] at this
            have hqr : q = r := Option.some.inj this
            subst hqr
            simp [hjl, rank_succ, hrep, hc]
          · have hqr : q ≠ r := by
              rintro rfl
              exact hjl ((hmem j).2 hj)
            simp only [hjl, if_false]
            rw [hv j q hj hq]
            by_cases h2 : q < r
            · have : q < r + 1 := by omega
              simp [h2, this]
            · have : ¬ q < r + 1 := by omega
              simp [h2, this]
      · have hrep : isRep s.repr k = false := by
          simp only [isRep, hr, decide_eq_false_iff_not]
          intro h
          exact h1 (Option.some.inj h)
        refine ⟨(c, v), by simp [h1], ?_, hvl, ?_⟩
        · simp [classCount_succ, hrep, hc]
        · intro j q hj hq
          simp only
          rw [hv j q hj hq]
          have hqk : q ≠ k := by
            rintro rfl
            have := hI.repr_idem j q hj hq
            rw [hr] at this
            exact h1 (Option.some.inj this)
          by_cases h2 : q < k
          · have : q < k + 1 := by omega
            simp [h2, this]
          · have : ¬ q < k + 1 := by omega
            simp [h2, this]) (0, List.replicate N none) (by
      refine ⟨by simp [classCount], by simp, ?_⟩
      intro j q hj _
      have := hI.rep_lt hj
      simp [List.getElem?_replicate, this])
  simp only at hc hvl hv
  refine ⟨v, by rw [hres, hc], hvl, ?_⟩
  intro j q hj hq
  rw [hv j q hj hq]
  have := hI.rep_lt (hI.repr_idem j q hj hq)
  simp [this]

/-! ## Ranks of representatives -/

theorem classCount_mono (repr : List Nat) {a b : Nat} (h : a ≤ b) :
    classCount a repr ≤ classCount b repr := by
  induction h with
  | refl => exact le_refl _
  | step _ ih =>
    rw [classCount_succ]
    omega

theorem rank_eq (repr : List Nat) (q : Nat) : rank repr q = classCount (q + 1) repr := rfl

theorem rank_pos {repr : List Nat} {q : Nat} (h : isRep repr q = true) : 1 ≤ rank repr q := by
  rw [rank_succ, h]
  simp

theorem rank_le {repr : List Nat} {q N : Nat} (h : q < N) : rank repr q ≤ classCount N repr :=
  classCount_mono repr h

theorem rank_lt_of_lt {repr : List Nat} {q1 q2 : Nat} (h : q1 < q2)
    (h2 : isRep repr q2 = true) : rank repr q1 < rank repr q2 := by
  have h3 : rank repr q1 ≤ classCount q2 repr := classCount_mono repr h
  rw [rank_succ repr q2, h2]
  simp only [if_true]
  omega

theorem rank_inj {repr : List Nat} {q1 q2 : Nat} (h1 : isRep repr q1 = true)
    (h2 : isRep repr q2 = true) (h : rank repr q1 = rank repr q2) : q1 = q2 := by
  rcases Nat.lt_trichotomy q1 q2 with hlt | heq | hgt
  · have := rank_lt_of_lt hlt h2
    omega
  · exact heq
  · have := rank_lt_of_lt hgt h1
    omega

theorem rank_surj (repr : List Nat) :
    ∀ (N k : Nat), 1 ≤ k → k ≤ classCount N repr →
      ∃ q, q < N ∧ isRep repr q = true ∧ rank repr q = k := by
  intro N
  induction N with
  | zero =>
    intro k h1 h2
    simp [classCount] at h2
    omega
  | succ n ih =>
    intro k h1 h2
    rw [classCount_succ] at h2
    by_cases hk : k ≤ classCount n repr
    · obtain ⟨q, hq, hr, hrk⟩ := ih k h1 hk
      exact ⟨q, Nat.lt_succ_of_lt hq, hr, hrk⟩
    · by_cases hrep : isRep repr n = true
      · refine ⟨n, Nat.lt_succ_self n, hrep, ?_⟩
        rw [rank_succ, hrep]
        simp only [hrep, if_true] at h2
        simp only [if_true]
        omega
      · simp only [hrep] at h2
        simp at h2
        omega

theorem classCount_eq_iff {N : Nat} {repr : List Nat} :
    classCount N repr = N ↔ ∀ r, r < N → repr[r]? = some r := by
  have h : classCount N repr = (List.range N).length ↔
      ∀ r ∈ List.range N, isRep repr r = true := List.countP_eq_length
  simp only [List.length_range, List.mem_range] at h
  rw [h]
  constructor
  · intro h r hr
    exact isRep_iff.1 (h r hr)
  · intro h r hr
    exact isRep_iff.2 (h r hr)

/-! ## The whole function -/

/-- The main statement about `variable_allocation`: it returns, the returned
count is the number of representatives, and every version is numbered with the
rank of its representative. -/
theorem variable_allocation_spec (tagver_zero : Nat) (cfg : cfg_t) (interf : List Bool)
    (fuel : Nat) (hN : cfg.nver ≤ END) (hlen : interf.length = cfg.nver * cfg.nver)
    (hcmd : CmdsInRange cfg.nver cfg.bblocks) (hf : cfg.nver < fuel) :
    ∃ s3 v, partition tagver_zero cfg interf fuel = some s3 ∧
      variable_allocation tagver_zero cfg interf fuel =
        some (classCount cfg.nver s3.repr, v) ∧
      ClassInv cfg.nver s3 ∧ Steps cfg.nver interf (init cfg.nver).repr s3.repr ∧
      (Shared s3.repr ∨
        ∀ a, a < cfg.nver → ∀ b, b < a → interf[a * cfg.nver + b]? = some true) ∧
      v.length = cfg.nver ∧
      ∀ x, x < cfg.nver → ∃ q, s3.repr[x]? = some q ∧ s3.repr[q]? = some q ∧
        q < cfg.nver ∧ v[x]? = some (some (rank s3.repr q)) := by
  obtain ⟨s1, s2, s3, -, -, -, hp, hg1, hg2, hI3, hst3, hnf, htri⟩ :=
    partition_spec tagver_zero cfg interf fuel hN hlen hcmd hf
  obtain ⟨v, hv, hvl, hget⟩ := numbering_spec hI3 hf
  refine ⟨s3, v, hp, by simp [variable_allocation, hp, hv], hI3,
    Relation.ReflTransGen.trans (Relation.ReflTransGen.trans hg1.2.1 hg2.2.1) hst3, htri, hvl, ?_⟩
  intro x hx
  obtain ⟨q, hq, hqE⟩ := hnf x hx
  have hqq := hI3.repr_idem x q hq hqE
  exact ⟨q, hq, hqq, hI3.rep_lt hqq, hget x q hq hqE⟩

theorem init_noInterf (N : Nat) (interf : List Bool) : NoInterf N interf (init N).repr := by
  intro a b r _ ha _ hr
  exact absurd (init_free ha) hr

theorem init_not_shared (N : Nat) : ¬ Shared (init N).repr := by
  rintro ⟨a, r, ha, hr, -⟩
  exact hr (init_free ha)

theorem Step.full_not_shared {N : Nat} {interf : List Bool} {repr repr' : List Nat}
    (h : Step N interf repr repr') (hok : ReprOk N repr) (hfull : FullyInterfering N interf)
    (hs : ¬ Shared repr) : ¬ Shared repr' := by
  have hcontra : ∀ a b : Nat, a < N → b < N → a ≠ b → interf[a * N + b]? = some false →
      False := by
    intro a b ha hb hab hf
    rw [hfull a ha b hb hab] at hf
    exact absurd (Option.some.inj hf) (by decide)
  rcases h.cases_get hok with ⟨m, r, hm, hr, hrE, hno, hget⟩ | ⟨x, y, hne, hx, hy, hno, hget⟩ |
    ⟨rx, ry, hne, hrx, hry, hno, hget⟩ | ⟨x, hx, -, hget⟩
  · exfalso
    have hmr : r ≠ m := by
      rintro rfl
      rw [hr] at hm
      exact hrE (Option.some.inj hm)
    rcases hno with hno | hno
    · exact hcontra r m (hok.lt hr) (hok.lt hm) hmr (hno r hr)
    · exact hcontra m r (hok.lt hm) (hok.lt hr) hmr.symm (hno r hr)
  · exact absurd hno (fun h => hcontra x y (hok.lt hx) (hok.lt hy) hne h)
  · exact absurd (hno rx ry hrx hry) (fun h => hcontra rx ry (hok.lt hrx) (hok.lt hry) hne h)
  · rintro ⟨a, q, ha, hq, hqa⟩
    rw [hget] at ha
    by_cases h1 : x = a
    · simp only [h1, if_true] at ha
      exact hqa (Option.some.inj ha).symm
    · simp only [h1, if_false] at ha
      exact hs ⟨a, q, ha, hq, hqa⟩

theorem Steps.full_never_shared {N : Nat} {interf : List Bool} {repr repr' : List Nat}
    (h : Steps N interf repr repr') (hok : ReprOk N repr) (hfull : FullyInterfering N interf)
    (hs : ¬ Shared repr) : ¬ Shared repr' := by
  induction h with
  | refl => exact hs
  | tail hsteps hstep ih => exact hstep.full_not_shared (Steps.keep_reprOk hsteps hok) hfull ih

/-! ## The claims about the allocator -/

/-- Claim C1: for a symmetric interference table and copy commands with
versions in range, `variable_allocation` returns, and two distinct versions that
interfere get different variables. -/
theorem variable_allocation_separates (tagver_zero : Nat) (cfg : cfg_t) (interf : List Bool)
    (fuel : Nat) (hN : cfg.nver ≤ END) (hlen : interf.length = cfg.nver * cfg.nver)
    (hsym : SymmetricTable cfg.nver interf) (hcmd : CmdsInRange cfg.nver cfg.bblocks)
    (hf : cfg.nver < fuel) :
    ∃ count v, variable_allocation tagver_zero cfg interf fuel = some (count, v) ∧
      ∀ x y, x < cfg.nver → y < cfg.nver → x ≠ y →
        interf[x * cfg.nver + y]? = some true →
        ∃ vx vy, v[x]? = some (some vx) ∧ v[y]? = some (some vy) ∧ vx ≠ vy := by
  obtain ⟨s3, v, -, hva, hI3, hsteps, -, -, hget⟩ :=
    variable_allocation_spec tagver_zero cfg interf fuel hN hlen hcmd hf
  have hni : NoInterf cfg.nver interf s3.repr :=
    Steps.keep_noInterf hsteps (init_inv hN).toReprOk hsym (init_noInterf _ _)
  refine ⟨_, v, hva, ?_⟩
  intro x y hx hy hxy hint
  obtain ⟨qx, hqx, hrx, -, hvx⟩ := hget x hx
  obtain ⟨qy, hqy, hry, -, hvy⟩ := hget y hy
  refine ⟨_, _, hvx, hvy, ?_⟩
  intro heq
  have hq : qx = qy := rank_inj (isRep_iff.2 hrx) (isRep_iff.2 hry) heq
  subst hq
  have := hni x y qx hxy hqx hqy (hI3.idx_ne_end hrx)
  rw [hint] at this
  exact absurd (Option.some.inj this) (by decide)

/-- Claim C2: every cell of `ver2new` is written, every written value lies in
`1..count`, every number in `1..count` is used, the count is the number of
class representatives, and two versions get the same number exactly when they
have the same representative. -/
theorem variable_allocation_numbering (tagver_zero : Nat) (cfg : cfg_t) (interf : List Bool)
    (fuel : Nat) (hN : cfg.nver ≤ END) (hlen : interf.length = cfg.nver * cfg.nver)
    (hcmd : CmdsInRange cfg.nver cfg.bblocks) (hf : cfg.nver < fuel) :
    ∃ s3 count v, partition tagver_zero cfg interf fuel = some s3 ∧
      variable_allocation tagver_zero cfg interf fuel = some (count, v) ∧
      v.length = cfg.nver ∧
      (∀ x, x < cfg.nver → ∃ k, v[x]? = some (some k) ∧ 1 ≤ k ∧ k ≤ count) ∧
      (∀ k, 1 ≤ k → k ≤ count → ∃ x, x < cfg.nver ∧ v[x]? = some (some k)) ∧
      count = classCount cfg.nver s3.repr ∧
      (∀ x y, x < cfg.nver → y < cfg.nver → (v[x]? = v[y]? ↔ s3.repr[x]? = s3.repr[y]?)) := by
  obtain ⟨s3, v, hp, hva, hI3, -, -, hvl, hget⟩ :=
    variable_allocation_spec tagver_zero cfg interf fuel hN hlen hcmd hf
  refine ⟨s3, _, v, hp, hva, hvl, ?_, ?_, rfl, ?_⟩
  · intro x hx
    obtain ⟨q, -, hr, hqN, hv⟩ := hget x hx
    exact ⟨_, hv, rank_pos (isRep_iff.2 hr), rank_le hqN⟩
  · intro k h1 h2
    obtain ⟨q, hqN, hrep, hrk⟩ := rank_surj s3.repr cfg.nver k h1 h2
    obtain ⟨q', hq', -, -, hv⟩ := hget q hqN
    have : q' = q := by
      have := isRep_iff.1 hrep
      rw [this] at hq'
      exact (Option.some.inj hq').symm
    subst this
    exact ⟨q', hqN, by rw [hv, hrk]⟩
  · intro x y hx hy
    obtain ⟨qx, hqx, hrx, -, hvx⟩ := hget x hx
    obtain ⟨qy, hqy, hry, -, hvy⟩ := hget y hy
    rw [hvx, hvy, hqx, hqy]
    constructor
    · intro h
      have h' : rank s3.repr qx = rank s3.repr qy := Option.some.inj (Option.some.inj h)
      rw [rank_inj (isRep_iff.2 hrx) (isRep_iff.2 hry) h']
    · intro h
      rw [Option.some.inj h]

/-- Claim C3: the returned count is at most the number of versions, and it is
equal to it when every two distinct versions interfere. -/
theorem variable_allocation_count_le (tagver_zero : Nat) (cfg : cfg_t) (interf : List Bool)
    (fuel : Nat) (hN : cfg.nver ≤ END) (hlen : interf.length = cfg.nver * cfg.nver)
    (hcmd : CmdsInRange cfg.nver cfg.bblocks) (hf : cfg.nver < fuel) :
    ∃ count v, variable_allocation tagver_zero cfg interf fuel = some (count, v) ∧
      count ≤ cfg.nver ∧ (FullyInterfering cfg.nver interf → count = cfg.nver) := by
  obtain ⟨s3, v, -, hva, hI3, hsteps, -, -, hget⟩ :=
    variable_allocation_spec tagver_zero cfg interf fuel hN hlen hcmd hf
  refine ⟨_, v, hva, ?_, ?_⟩
  · have := List.countP_le_length (isRep s3.repr) (l := List.range cfg.nver)
    simpa [classCount] using this
  · intro hfull
    have hns : ¬ Shared s3.repr :=
      Steps.full_never_shared hsteps (init_inv hN).toReprOk hfull (init_not_shared _)
    rw [classCount_eq_iff]
    intro r hr
    obtain ⟨q, hq, hqq, -, -⟩ := hget r hr
    by_cases h : q = r
    · rw [hq, h]
    · exact absurd ⟨r, q, hq, hI3.idx_ne_end hqq, h⟩ hns

/-- Claim C4: for a symmetric table, if the returned count equals the number of
versions then every two distinct versions interfere. -/
theorem variable_allocation_count_eq (tagver_zero : Nat) (cfg : cfg_t) (interf : List Bool)
    (fuel : Nat) (hN : cfg.nver ≤ END) (hlen : interf.length = cfg.nver * cfg.nver)
    (hsym : SymmetricTable cfg.nver interf) (hcmd : CmdsInRange cfg.nver cfg.bblocks)
    (hf : cfg.nver < fuel) :
    ∃ count v, variable_allocation tagver_zero cfg interf fuel = some (count, v) ∧
      (count = cfg.nver → FullyInterfering cfg.nver interf) := by
  obtain ⟨s3, v, -, hva, hI3, -, htri, -, -⟩ :=
    variable_allocation_spec tagver_zero cfg interf fuel hN hlen hcmd hf
  refine ⟨_, v, hva, ?_⟩
  intro hcount
  have hall := classCount_eq_iff.1 hcount
  have hns : ¬ Shared s3.repr := by
    rintro ⟨a, q, ha, hq, hqa⟩
    rw [hall a (hI3.rep_lt ha)] at ha
    exact hqa (Option.some.inj ha).symm
  have hlow := htri.resolve_left hns
  intro x hx y hy hxy
  rcases Nat.lt_or_gt_of_ne hxy with h | h
  · rw [hsym x hx y hy]
    exact hlow y hy x h
  · exact hlow x hx y h

/-- Claim C7: for every table (symmetric or not) and all copy commands in
range, each phase returns, the invariant of the member lists holds after each
phase, and the function returns. -/
theorem variable_allocation_terminates (tagver_zero : Nat) (cfg : cfg_t) (interf : List Bool)
    (fuel : Nat) (hN : cfg.nver ≤ END) (hlen : interf.length = cfg.nver * cfg.nver)
    (hcmd : CmdsInRange cfg.nver cfg.bblocks) (hf : cfg.nver < fuel) :
    ∃ s1 s2 s3 count v,
      copy_coalescing tagver_zero cfg.nver interf fuel cfg.bblocks (init cfg.nver) = some s1 ∧
      class_merging cfg.nver interf fuel s1 = some s2 ∧
      residual_placement cfg.nver interf fuel s2 = some s3 ∧
      numbering cfg.nver fuel s3 (List.replicate cfg.nver none) = some (count, v) ∧
      variable_allocation tagver_zero cfg interf fuel = some (count, v) ∧
      ClassInv cfg.nver (init cfg.nver) ∧ ClassInv cfg.nver s1 ∧ ClassInv cfg.nver s2 ∧
      ClassInv cfg.nver s3 ∧ v.length = cfg.nver := by
  obtain ⟨s1, s2, s3, h1, h2, h3, hp, hg1, hg2, hI3, -, -, -⟩ :=
    partition_spec tagver_zero cfg interf fuel hN hlen hcmd hf
  obtain ⟨v, hv, hvl, -⟩ := numbering_spec hI3 hf
  exact ⟨s1, s2, s3, _, v, h1, h2, h3, hv, by simp [variable_allocation, hp, hv],
    init_inv hN, hg1.1, hg2.1, hI3, hvl⟩

/-! ## More fuel does not change a result -/

theorem forLoop_some_imp {ι σ : Type} {body body' : ι → σ → Option σ}
    (h : ∀ i s r, body i s = some r → body' i s = some r) :
    ∀ (l : List ι) (s r : σ), forLoop body l s = some r → forLoop body' l s = some r := by
  intro l
  induction l with
  | nil => intro s r hr; exact hr
  | cons i l ih =>
    intro s r hr
    simp only [forLoop] at hr ⊢
    cases hb : body i s with
    | none => simp [hb] at hr
    | some s1 =>
      simp only [hb] at hr
      simp only [h i s s1 hb]
      exact ih s1 r hr

theorem scan_mono (interf : List Bool) (next : List Nat) (idx : Nat → Nat) :
    ∀ (f f' z r : Nat), scan interf next idx f z = some r → f ≤ f' →
      scan interf next idx f' z = some r := by
  intro f
  induction f with
  | zero => intro f' z r h; simp [scan] at h
  | succ f ih =>
    intro f' z r h hle
    obtain ⟨f'', rfl⟩ : ∃ f'', f' = f'' + 1 := ⟨f' - 1, by omega⟩
    simp only [scan] at h ⊢
    by_cases hz : z = END
    · simpa [hz] using h
    · simp only [hz, if_false] at h ⊢
      cases hb : interf[idx z]? with
      | none => simp [hb] at h
      | some b =>
        cases b with
        | true => simpa [hb] using h
        | false =>
          simp only [hb] at h ⊢
          cases hn : next[z]? with
          | none => simp [hn] at h
          | some z' =>
            simp only [hn] at h ⊢
            exact ih f'' z' r h (by omega)

theorem scan2_mono (N : Nat) (interf : List Bool) (next : List Nat) (ry : Nat)
    {f f' : Nat} (hf : f ≤ f') :
    ∀ (g g' x r : Nat), scan2 N interf next ry f g x = some r → g ≤ g' →
      scan2 N interf next ry f' g' x = some r := by
  intro g
  induction g with
  | zero => intro g' x r h; simp [scan2] at h
  | succ g ih =>
    intro g' x r h hle
    obtain ⟨g'', rfl⟩ : ∃ g'', g' = g'' + 1 := ⟨g' - 1, by omega⟩
    simp only [scan2] at h ⊢
    by_cases hx : x = END
    · simpa [hx] using h
    · simp only [hx, if_false] at h ⊢
      cases hs : scan interf next (fun y => x * N + y) f ry with
      | none => simp [hs] at h
      | some y =>
        simp only [hs] at h
        simp only [scan_mono _ _ _ f f' ry y hs hf]
        by_cases hy : y = END
        · simp only [hy, ne_eq, not_true, if_false] at h ⊢
          cases hn : next[x]? with
          | none => simp [hn] at h
          | some x' =>
            simp only [hn] at h ⊢
            exact ih g'' x' r h (by omega)
        · simpa [hy] using h

theorem relabel_mono (rx ry : Nat) :
    ∀ (f f' y : Nat) (s r : Lists), relabel rx ry f y s = some r → f ≤ f' →
      relabel rx ry f' y s = some r := by
  intro f
  induction f with
  | zero => intro f' y s r h; simp [relabel] at h
  | succ f ih =>
    intro f' y s r h hle
    obtain ⟨f'', rfl⟩ : ∃ f'', f' = f'' + 1 := ⟨f' - 1, by omega⟩
    simp only [relabel] at h ⊢
    cases h1 : store s.repr y rx with
    | none => simp [h1] at h
    | some repr1 =>
      simp only [h1] at h ⊢
      cases h2 : s.next[y]? with
      | none => simp [h2] at h
      | some ny =>
        simp only [h2] at h ⊢
        by_cases h3 : ny = END
        · simpa [h3] using h
        · simp only [h3, if_false] at h ⊢
          exact ih f'' ny _ r h (by omega)

theorem assign_mono (next : List Nat) (c : Nat) :
    ∀ (f f' x : Nat) (v r : List (Option Nat)), assign next c f x v = some r → f ≤ f' →
      assign next c f' x v = some r := by
  intro f
  induction f with
  | zero => intro f' x v r h; simp [assign] at h
  | succ f ih =>
    intro f' x v r h hle
    obtain ⟨f'', rfl⟩ : ∃ f'', f' = f'' + 1 := ⟨f' - 1, by omega⟩
    simp only [assign] at h ⊢
    by_cases hx : x = END
    · simpa [hx] using h
    · simp only [hx, if_false] at h ⊢
      cases h1 : store v x (some c) with
      | none => simp [h1] at h
      | some v1 =>
        simp only [h1] at h ⊢
        cases h2 : next[x]? with
        | none => simp [h2] at h
        | some x' =>
          simp only [h2] at h ⊢
          exact ih f'' x' v1 r h (by omega)

theorem coalesce_mono (tagver_zero N : Nat) (interf : List Bool) {f f' : Nat} (hf : f ≤ f')
    (p : tcmd_t) (s r : Lists) (h : coalesce tagver_zero N interf f p s = some r) :
    coalesce tagver_zero N interf f' p s = some r := by
  unfold coalesce at h ⊢
  simp only at h ⊢
  by_cases h0 : p.rhs = tagver_zero ∨ p.rhs = p.lhs
  · simpa [h0] using h
  · simp only [h0, if_false] at h ⊢
    cases h1 : s.repr[p.lhs]? with
    | none => simp [h1] at h
    | some rx =>
      cases h2 : s.repr[p.rhs]? with
      | none => simp [h1, h2] at h
      | some ry =>
        simp only [h1, h2] at h ⊢
        by_cases h3 : rx = END
        · by_cases h4 : ry = END
          · simpa [h3, h4] using h
          · simp only [h3, h4, ne_eq, not_true, not_false_eq_true, if_true, if_false] at h ⊢
            cases h5 : scan interf s.next (fun z => z * N + p.lhs) f ry with
            | none => simp [h5] at h
            | some z =>
              simp only [h5] at h
              simp only [scan_mono _ _ _ f f' ry z h5 hf]
              exact h
        · by_cases h4 : ry = END
          · simp only [h3, h4, ne_eq, not_true, not_false_eq_true, if_true, if_false] at h ⊢
            cases h5 : scan interf s.next (fun z => z * N + p.rhs) f rx with
            | none => simp [h5] at h
            | some z =>
              simp only [h5] at h
              simp only [scan_mono _ _ _ f f' rx z h5 hf]
              exact h
          · simpa [h3, h4] using h

theorem merge_pair_mono (N : Nat) (interf : List Bool) {f f' : Nat} (hf : f ≤ f')
    (rx ry : Nat) (s r : Lists) (h : merge_pair N interf f rx ry s = some r) :
    merge_pair N interf f' rx ry s = some r := by
  unfold merge_pair at h ⊢
  cases h1 : s.repr[ry]? with
  | none => simp [h1] at h
  | some q =>
    simp only [h1] at h ⊢
    by_cases h2 : ry = q
    · simp only [h2, ne_eq, not_true, if_false] at h ⊢
      cases h3 : scan2 N interf s.next q f f rx with
      | none => simp [h3] at h
      | some x =>
        simp only [h3] at h
        simp only [scan2_mono N interf s.next q hf f f' rx x h3 hf]
        by_cases h4 : x = END
        · simp only [h4, if_true] at h ⊢
          exact relabel_mono rx q f f' q s r h hf
        · simpa [h4] using h
    · simpa [h2] using h

theorem merge_row_mono (N : Nat) (interf : List Bool) {f f' : Nat} (hf : f ≤ f')
    (rx : Nat) (s r : Lists) (h : merge_row N interf f rx s = some r) :
    merge_row N interf f' rx s = some r := by
  unfold merge_row at h ⊢
  cases h1 : s.repr[rx]? with
  | none => simp [h1] at h
  | some q =>
    simp only [h1] at h ⊢
    by_cases h2 : rx = q
    · simp only [h2, ne_eq, not_true, if_false] at h ⊢
      exact forLoop_some_imp (fun i s r h => merge_pair_mono N interf hf q i s r h) _ s r h
    · simpa [h2] using h

theorem try_classes_mono (N : Nat) (interf : List Bool) {f f' : Nat} (hf : f ≤ f') (x : Nat) :
    ∀ (rest : List Nat) (s r : Lists), try_classes N interf f x rest s = some r →
      try_classes N interf f' x rest s = some r := by
  intro rest
  induction rest with
  | nil => intro s r h; simpa [try_classes] using h
  | cons rx rest ih =>
    intro s r h
    simp only [try_classes] at h ⊢
    cases h1 : s.repr[rx]? with
    | none => simp [h1] at h
    | some q =>
      simp only [h1] at h ⊢
      by_cases h2 : rx = q
      · simp only [h2, ne_eq, not_true, if_false] at h ⊢
        cases h3 : scan interf s.next (fun y => x * N + y) f q with
        | none => simp [h3] at h
        | some y =>
          simp only [h3] at h
          simp only [scan_mono _ _ _ f f' q y h3 hf]
          by_cases h4 : y = END
          · simpa [h4] using h
          · simp only [h4, if_false] at h ⊢
            exact ih s r h
      · simp only [h2, ne_eq, not_false_eq_true, if_true] at h ⊢
        exact ih s r h

theorem place_mono (N : Nat) (interf : List Bool) {f f' : Nat} (hf : f ≤ f')
    (x : Nat) (s r : Lists) (h : place N interf f x s = some r) :
    place N interf f' x s = some r := by
  unfold place at h ⊢
  cases h1 : s.repr[x]? with
  | none => simp [h1] at h
  | some q =>
    simp only [h1] at h ⊢
    by_cases h2 : q = END
    · simp only [h2, ne_eq, not_true, if_false] at h ⊢
      exact try_classes_mono N interf hf x _ s r h
    · simpa [h2] using h

theorem number_class_mono (s : Lists) {f f' : Nat} (hf : f ≤ f') (rx : Nat)
    (acc r : Nat × List (Option Nat)) (h : number_class s f rx acc = some r) :
    number_class s f' rx acc = some r := by
  unfold number_class at h ⊢
  cases h1 : s.repr[rx]? with
  | none => simp [h1] at h
  | some q =>
    simp only [h1] at h ⊢
    by_cases h2 : q = rx
    · simp only [h2, ne_eq, not_true, if_false] at h ⊢
      cases h3 : assign s.next (acc.1 + 1) f rx acc.2 with
      | none => simp [h3] at h
      | some v1 =>
        simp only [h3] at h
        simp only [assign_mono _ _ f f' rx acc.2 v1 h3 hf]
        exact h
    · simpa [h2] using h

theorem partition_mono (tagver_zero : Nat) (cfg : cfg_t) (interf : List Bool) {f f' : Nat}
    (hf : f ≤ f') (r : Lists) (h : partition tagver_zero cfg interf f = some r) :
    partition tagver_zero cfg interf f' = some r := by
  unfold partition at h ⊢
  cases h1 : copy_coalescing tagver_zero cfg.nver interf f cfg.bblocks (init cfg.nver) with
  | none => simp [h1] at h
  | some s1 =>
    have h1' : copy_coalescing tagver_zero cfg.nver interf f' cfg.bblocks (init cfg.nver)
        = some s1 := by
      unfold copy_coalescing at h1 ⊢
      refine forLoop_some_imp ?_ _ _ _ h1
      intro b s r hb
      exact forLoop_some_imp (fun p s r h => coalesce_mono tagver_zero cfg.nver interf hf p s r h)
        _ s r hb
    simp only [h1] at h
    simp only [h1']
    cases h2 : class_merging cfg.nver interf f s1 with
    | none => simp [h2] at h
    | some s2 =>
      have h2' : class_merging cfg.nver interf f' s1 = some s2 := by
        unfold class_merging at h2 ⊢
        exact forLoop_some_imp (fun i s r h => merge_row_mono cfg.nver interf hf i s r h)
          _ _ _ h2
      simp only [h2] at h
      simp only [h2']
      unfold residual_placement at h ⊢
      exact forLoop_some_imp (fun i s r h => place_mono cfg.nver interf hf i s r h) _ _ _ h

/-- A result obtained with some fuel is the result for every larger fuel. -/
theorem variable_allocation_mono (tagver_zero : Nat) (cfg : cfg_t) (interf : List Bool)
    {f f' : Nat} (hf : f ≤ f') (r : Nat × List (Option Nat))
    (h : variable_allocation tagver_zero cfg interf f = some r) :
    variable_allocation tagver_zero cfg interf f' = some r := by
  unfold variable_allocation at h ⊢
  cases h1 : partition tagver_zero cfg interf f with
  | none => simp [h1] at h
  | some s3 =>
    simp only [h1] at h
    simp only [partition_mono tagver_zero cfg interf hf s3 h1]
    unfold numbering at h ⊢
    exact forLoop_some_imp (fun i s r h => number_class_mono s3 hf i s r h) _ _ _ h

/-! ## Without interference there is one class -/

theorem forLoop_range'_inv {σ : Type} (body : Nat → σ → Option σ) (P : Nat → σ → Prop) :
    ∀ (n a : Nat),
      (∀ j, a ≤ j → j < a + n → ∀ s, P j s → ∃ s', body j s = some s' ∧ P (j + 1) s') →
      ∀ s, P a s → ∃ s', forLoop body (List.range' a n) s = some s' ∧ P (a + n) s' := by
  intro n
  induction n with
  | zero => intro a _ s hs; exact ⟨s, rfl, hs⟩
  | succ n ih =>
    intro a h s hs
    obtain ⟨s1, h1, hP1⟩ := h a (le_refl a) (by omega) s hs
    obtain ⟨s2, h2, hP2⟩ := ih (a + 1) (fun j hj1 hj2 t ht => h j (by omega) (by omega) t ht)
      s1 hP1
    refine ⟨s2, ?_, ?_⟩
    · rw [List.range'_succ]
      simp [forLoop, h1, h2]
    · have : a + 1 + n = a + (n + 1) := by omega
      rw [← this]
      exact hP2

theorem merge_row_unique {N : Nat} {interf : List Bool} (hfree : InterferenceFree N interf)
    (hlen : interf.length = N * N) {fuel : Nat} (hf : N < fuel) {k : Nat} (hk : k < N)
    {t : Lists} (hI : ClassInv N t)
    (hU : ∀ r1 r2 : Nat, t.repr[r1]? = some r1 → t.repr[r2]? = some r2 → r1 < k → r1 = r2) :
    ∃ t', merge_row N interf fuel k t = some t' ∧ ClassInv N t' ∧
      ∀ r1 r2 : Nat, t'.repr[r1]? = some r1 → t'.repr[r2]? = some r2 → r1 < k + 1 →
        r1 = r2 := by
  have hrl : t.repr.length = N := hI.repr_len
  obtain ⟨r, hr⟩ := getElem?_of_lt (l := t.repr) (i := k) (by omega)
  unfold merge_row
  simp only [hr]
  by_cases h1 : k = r
  · subst h1
    simp only [ne_eq, not_true, if_false]
    obtain ⟨t', ht', hI', hk', hV⟩ := forLoop_range'_inv (merge_pair N interf fuel k)
      (fun j u => ClassInv N u ∧ u.repr[k]? = some k ∧
        ∀ r : Nat, u.repr[r]? = some r → r = k ∨ j ≤ r) (N - (k + 1)) (k + 1) (by
        intro j hj1 hj2 u ⟨huI, huk, huV⟩
        obtain ⟨u', hu', hg, hk', hcase⟩ := @merge_pair_spec N u huI interf hlen fuel hf k j
          huk (by omega) (by omega)
        refine ⟨u', hu', hg.1, hk', ?_⟩
        intro q hq
        rcases hcase with ⟨hsame, hwhy⟩ | ⟨hjrep, hmap⟩
        · rw [hsame] at hq
          rcases huV q hq with h | h
          · exact Or.inl h
          · by_cases hqj : q = j
            · subst hqj
              obtain ⟨a, b, ha, hb, hab⟩ := hwhy hq
              have hne : a ≠ b := by
                rintro rfl
                rw [ha] at hb
                have := Option.some.inj hb
                omega
              rw [hfree a (huI.rep_lt ha) b (huI.rep_lt hb) hne] at hab
              exact absurd (Option.some.inj hab) (by decide)
            · right
              omega
        · rw [hmap, List.getElem?_map] at hq
          cases hrq : u.repr[q]? with
          | none => simp [hrq] at hq
          | some p =>
            simp only [hrq, Option.map_some'] at hq
            have hq' := Option.some.inj hq
            by_cases hpj : p = j
            · simp only [hpj, if_true] at hq'
              exact Or.inl hq'.symm
            · simp only [hpj, if_false] at hq'
              subst hq'
              rcases huV p hrq with h | h
              · exact Or.inl h
              · right
                omega) t ⟨hI, hr, by
        intro q hq
        by_cases hqk : q < k
        · exact Or.inl (hU q k hq hr hqk)
        · by_cases hqk2 : q = k
          · exact Or.inl hqk2
          · right
            omega⟩
    refine ⟨t', ht', hI', ?_⟩
    intro r1 r2 h1 h2 _
    have e1 : r1 = k := by
      rcases hV r1 h1 with h | h
      · exact h
      · have := hI'.rep_lt h1
        omega
    have e2 : r2 = k := by
      rcases hV r2 h2 with h | h
      · exact h
      · have := hI'.rep_lt h2
        omega
    rw [e1, e2]
  · refine ⟨t, by simp [h1], hI, ?_⟩
    intro r1 r2 hr1 hr2 hlt
    rcases Nat.lt_succ_iff_lt_or_eq.1 hlt with h | h
    · exact hU r1 r2 hr1 hr2 h
    · subst h
      rw [hr] at hr1
      exact absurd (Option.some.inj hr1).symm h1

theorem class_merging_unique {N : Nat} {interf : List Bool} (hfree : InterferenceFree N interf)
    (hlen : interf.length = N * N) {fuel : Nat} (hf : N < fuel) {s : Lists}
    (hI : ClassInv N s) :
    ∃ s', class_merging N interf fuel s = some s' ∧ ClassInv N s' ∧
      ∀ r1 r2 : Nat, s'.repr[r1]? = some r1 → s'.repr[r2]? = some r2 → r1 = r2 := by
  unfold class_merging
  obtain ⟨s', hs', hI', hU⟩ := forLoop_range_inv (merge_row N interf fuel)
    (fun k t => ClassInv N t ∧
      ∀ r1 r2 : Nat, t.repr[r1]? = some r1 → t.repr[r2]? = some r2 → r1 < k → r1 = r2) N
    (fun k hk t ht => merge_row_unique hfree hlen hf hk ht.1 ht.2) s
    ⟨hI, fun r1 _ _ _ h => absurd h (Nat.not_lt_zero r1)⟩
  exact ⟨s', hs', hI', fun r1 r2 h1 h2 => hU r1 r2 h1 h2 (hI'.rep_lt h1)⟩

theorem residual_placement_unique {N : Nat} {interf : List Bool}
    (hfree : InterferenceFree N interf) (hlen : interf.length = N * N) {fuel : Nat}
    (hf : N < fuel) {s : Lists} (hI : ClassInv N s)
    (hU : ∀ r1 r2 : Nat, s.repr[r1]? = some r1 → s.repr[r2]? = some r2 → r1 = r2) :
    ∃ s', residual_placement N interf fuel s = some s' ∧ ClassInv N s' ∧
      (∀ a, a < N → ∃ q, s'.repr[a]? = some q ∧ q ≠ END) ∧
      ∀ r1 r2 : Nat, s'.repr[r1]? = some r1 → s'.repr[r2]? = some r2 → r1 = r2 := by
  obtain ⟨s', hs', hI', -, hnf, hQ⟩ := residual_placement_inv hI hlen hf
    (fun _ t => ∀ r1 r2 : Nat, t.repr[r1]? = some r1 → t.repr[r2]? = some r2 → r1 = r2) hU (by
      intro k t t' hk htI hQ _ _ hcase
      rcases hcase with ⟨r, hr1, hr2, hr3, -, hr5⟩ | ⟨hsame, -⟩ | ⟨hfr, hset, hall⟩
      · have hget : ∀ j : Nat, t'.repr[j]? = if k = j then some r else t.repr[j]? := by
          intro j
          rw [hr5]
          exact getElem?_set_lt j r (lt_of_getElem? hr3)
        have hold : ∀ q : Nat, t'.repr[q]? = some q → t.repr[q]? = some q := by
          intro q hq
          rw [hget] at hq
          by_cases hkq : k = q
          · simp only [hkq, if_true] at hq
            exact absurd ((Option.some.inj hq).trans hkq.symm) hr2
          · simpa [hkq] using hq
        intro r1 r2 h1 h2
        exact hQ r1 r2 (hold r1 h1) (hold r2 h2)
      · rw [hsame]
        exact hQ
      · have hget : ∀ j : Nat, t'.repr[j]? = if k = j then some k else t.repr[j]? := by
          intro j
          rw [hset]
          exact getElem?_set_lt j k (lt_of_getElem? hfr)
        have hnone : ∀ q : Nat, t.repr[q]? = some q → False := by
          intro q hq
          obtain ⟨y, hy1, hy2⟩ := hall q hq
          have hne : k ≠ y := by
            rintro rfl
            rw [hfr] at hy1
            exact htI.idx_ne_end hq (Option.some.inj hy1).symm
          rw [hfree k hk y (htI.rep_lt hy1) hne] at hy2
          exact absurd (Option.some.inj hy2) (by decide)
        have honly : ∀ q : Nat, t'.repr[q]? = some q → q = k := by
          intro q hq
          rw [hget] at hq
          by_cases hkq : k = q
          · exact hkq.symm
          · simp only [hkq, if_false] at hq
            exact absurd hq (fun h => hnone q h)
        intro r1 r2 h1 h2
        rw [honly r1 h1, honly r2 h2])
  exact ⟨s', hs', hI', hnf, hQ⟩

theorem classCount_eq_one {N : Nat} {s : Lists} (hI : ClassInv N s) (hN : 0 < N)
    (hnf : ∀ a, a < N → ∃ q, s.repr[a]? = some q ∧ q ≠ END)
    (hU : ∀ r1 r2 : Nat, s.repr[r1]? = some r1 → s.repr[r2]? = some r2 → r1 = r2) :
    classCount N s.repr = 1 := by
  obtain ⟨q, hq, hqE⟩ := hnf 0 hN
  have hqq := hI.repr_idem 0 q hq hqE
  have h1 : 1 ≤ classCount N s.repr :=
    le_trans (rank_pos (isRep_iff.2 hqq)) (rank_le (hI.rep_lt hqq))
  by_contra hne
  have h2 : 2 ≤ classCount N s.repr := by omega
  obtain ⟨a, -, ha, hra⟩ := rank_surj s.repr N 1 (le_refl 1) h1
  obtain ⟨b, -, hb, hrb⟩ := rank_surj s.repr N 2 (by omega) h2
  have := hU a b (isRep_iff.1 ha) (isRep_iff.1 hb)
  rw [this] at hra
  omega

/-! ## The value of `TAGVER_ZERO` matters only through the commands it skips -/

theorem forLoop_congr {ι σ : Type} {body body' : ι → σ → Option σ} :
    ∀ (l : List ι), (∀ i ∈ l, ∀ s, body i s = body' i s) →
      ∀ s, forLoop body l s = forLoop body' l s := by
  intro l
  induction l with
  | nil => intro _ s; rfl
  | cons i l ih =>
    intro h s
    simp only [forLoop]
    rw [h i (List.mem_cons_self _ _) s]
    cases body' i s with
    | none => rfl
    | some s1 => exact ih (fun j hj t => h j (List.mem_cons_of_mem _ hj) t) s1

theorem coalesce_congr_zero {z z' : Nat} (N : Nat) (interf : List Bool) (fuel : Nat)
    (p : tcmd_t) (h : p.rhs = z ↔ p.rhs = z') (s : Lists) :
    coalesce z N interf fuel p s = coalesce z' N interf fuel p s := by
  unfold coalesce
  by_cases h1 : p.rhs = z
  · have h2 : p.rhs = z' := h.1 h1
    simp [h1, h2]
    simp [← h1, ← h2]
  · have h2 : ¬ p.rhs = z' := fun h' => h1 (h.2 h')
    simp [h1, h2]

theorem variable_allocation_congr_zero {z z' : Nat} (cfg : cfg_t) (interf : List Bool)
    (fuel : Nat) (h : ∀ b ∈ cfg.bblocks, ∀ p ∈ b.cmd, (p.rhs = z ↔ p.rhs = z')) :
    variable_allocation z cfg interf fuel = variable_allocation z' cfg interf fuel := by
  have h1 : copy_coalescing z cfg.nver interf fuel cfg.bblocks (init cfg.nver) =
      copy_coalescing z' cfg.nver interf fuel cfg.bblocks (init cfg.nver) := by
    unfold copy_coalescing
    refine forLoop_congr _ ?_ _
    intro b hb s
    exact forLoop_congr _ (fun p hp t => coalesce_congr_zero _ _ _ p (h b hb p hp) t) s
  simp only [variable_allocation, partition, h1]

/-! ## Chains of copy commands -/

/-- Claim C5 (as amended): when no two distinct versions interfere, the
function returns the count 1, whatever the copy commands are. -/
theorem variable_allocation_interference_free (tagver_zero : Nat) (cfg : cfg_t)
    (interf : List Bool) (fuel : Nat) (hN : cfg.nver ≤ END)
    (hlen : interf.length = cfg.nver * cfg.nver)
    (hfree : InterferenceFree cfg.nver interf) (hcmd : CmdsInRange cfg.nver cfg.bblocks)
    (hf : cfg.nver < fuel) :
    ∃ v, variable_allocation tagver_zero cfg interf fuel = some (1, v) := by
  obtain ⟨s1, s2, s3, -, h2, h3, hp, hg1, hg2, -, -, -, -⟩ :=
    partition_spec tagver_zero cfg interf fuel hN hlen hcmd hf
  obtain ⟨s2', h2', -, hU2⟩ := class_merging_unique hfree hlen hf hg1.1
  rw [h2] at h2'
  have e2 : s2 = s2' := Option.some.inj h2'
  subst e2
  obtain ⟨s3', h3', hI3, hnf, hU3⟩ := residual_placement_unique hfree hlen hf hg2.1 hU2
  rw [h3] at h3'
  have e3 : s3 = s3' := Option.some.inj h3'
  subst e3
  obtain ⟨v, hv, -, -⟩ := numbering_spec hI3 hf
  have hone := classCount_eq_one hI3 (Nat.succ_pos _) hnf hU3
  refine ⟨v, ?_⟩
  simp only [variable_allocation, hp, hv]
  rw [hone]

/-- Claim C5 fails as stated: the three versions of the chain `1 = 0`, `2 = 1`
are connected to the root `0` by copy commands with non-interfering sides, but
`0` and `2` interfere and the function returns the count 2. -/
theorem chain_count_two :
    SymmetricTable chain_cfg.nver chain_interf ∧
    CmdsInRange chain_cfg.nver chain_cfg.bblocks ∧
    ChainedTo chain_cfg.nver chain_interf (allCmds chain_cfg.bblocks) 0 ∧
    ∀ tagver_zero fuel : Nat, chain_cfg.nver < fuel →
      ∃ v, variable_allocation tagver_zero chain_cfg chain_interf fuel = some (2, v) := by
  have e01 : CopyEdge chain_cfg.nver chain_interf (allCmds chain_cfg.bblocks) 0 1 :=
    ⟨⟨1, 0⟩, by decide, Or.inr ⟨rfl, rfl⟩, by decide⟩
  have e12 : CopyEdge chain_cfg.nver chain_interf (allCmds chain_cfg.bblocks) 1 2 :=
    ⟨⟨2, 1⟩, by decide, Or.inr ⟨rfl, rfl⟩, by decide⟩
  refine ⟨by decide, by decide, ?_, ?_⟩
  · intro x hx
    have hx3 : x < 3 := hx
    interval_cases x
    · exact Relation.ReflTransGen.refl
    · exact Relation.ReflTransGen.single e01
    · exact Relation.ReflTransGen.tail (Relation.ReflTransGen.single e01) e12
  · intro z fuel hf
    have hf4 : 4 ≤ fuel := hf
    by_cases h0 : z = 0
    · subst h0
      exact ⟨[some 1, some 2, some 2],
        variable_allocation_mono 0 chain_cfg chain_interf hf4 _ (by decide)⟩
    · by_cases h1 : z = 1
      · subst h1
        exact ⟨[some 1, some 1, some 2],
          variable_allocation_mono 1 chain_cfg chain_interf hf4 _ (by decide)⟩
      · have hc : variable_allocation z chain_cfg chain_interf 4 =
            variable_allocation 2 chain_cfg chain_interf 4 := by
          refine variable_allocation_congr_zero _ _ _ ?_
          intro b hb p hp
          simp only [chain_cfg, List.mem_singleton] at hb
          subst hb
          simp only [List.mem_cons, List.mem_singleton, List.not_mem_nil, or_false] at hp
          rcases hp with rfl | rfl
          · simp
            omega
          · simp
            omega
        exact ⟨[some 1, some 1, some 2],
          variable_allocation_mono z chain_cfg chain_interf hf4 _ (by rw [hc]; decide)⟩

/-- Claim C6 (scenario D): three versions, interference between `0` and `1` only,
one copy command `2 = 0`: the count is 2, the versions `0` and `2` share a
variable and `1` has another one. -/
theorem scenarioD_result (tagver_zero fuel : Nat) (hf : scenarioD_cfg.nver < fuel) :
    ∃ v a b, variable_allocation tagver_zero scenarioD_cfg scenarioD_interf fuel = some (2, v) ∧
      v[0]? = some (some a) ∧ v[2]? = some (some a) ∧ v[1]? = some (some b) ∧ a ≠ b := by
  have hf4 : 4 ≤ fuel := hf
  by_cases h0 : tagver_zero = 0
  · subst h0
    exact ⟨[some 1, some 2, some 1], 1, 2,
      variable_allocation_mono 0 scenarioD_cfg scenarioD_interf hf4 _ (by decide),
      rfl, rfl, rfl, by decide⟩
  · have hc : variable_allocation tagver_zero scenarioD_cfg scenarioD_interf 4 =
        variable_allocation 1 scenarioD_cfg scenarioD_interf 4 := by
      refine variable_allocation_congr_zero _ _ _ ?_
      intro b hb p hp
      simp only [scenarioD_cfg, List.mem_singleton] at hb
      subst hb
      simp only [List.mem_singleton] at hp
      subst hp
      simp
      omega
    exact ⟨[some 2, some 1, some 2], 2, 1,
      variable_allocation_mono tagver_zero scenarioD_cfg scenarioD_interf hf4 _
        (by rw [hc]; decide),
      rfl, rfl, rfl, by decide⟩

/-! ## The claims at concrete inputs -/

/-- Claim C1 at the input of scenario D, where the versions `0` and `1` interfere. -/
theorem variable_allocation_separates_witness :
    scenarioD_cfg.nver ≤ END ∧
    scenarioD_interf.length = scenarioD_cfg.nver * scenarioD_cfg.nver ∧
    SymmetricTable scenarioD_cfg.nver scenarioD_interf ∧
    CmdsInRange scenarioD_cfg.nver scenarioD_cfg.bblocks ∧
    scenarioD_cfg.nver < 4 ∧
    ∃ count v, variable_allocation 0 scenarioD_cfg scenarioD_interf 4 = some (count, v) ∧
      ∀ x y, x < scenarioD_cfg.nver → y < scenarioD_cfg.nver → x ≠ y →
        scenarioD_interf[x * scenarioD_cfg.nver + y]? = some true →
        ∃ vx vy, v[x]? = some (some vx) ∧ v[y]? = some (some vy) ∧ vx ≠ vy :=
  ⟨by decide, by decide, by decide, by decide, by decide,
    variable_allocation_separates 0 scenarioD_cfg scenarioD_interf 4
      (by decide) (by decide) (by decide) (by decide) (by decide)⟩

/-- Claim C2 at the input of scenario D. -/
theorem variable_allocation_numbering_witness :
    scenarioD_cfg.nver ≤ END ∧
    scenarioD_interf.length = scenarioD_cfg.nver * scenarioD_cfg.nver ∧
    CmdsInRange scenarioD_cfg.nver scenarioD_cfg.bblocks ∧
    scenarioD_cfg.nver < 4 ∧
    ∃ s3 count v, partition 0 scenarioD_cfg scenarioD_interf 4 = some s3 ∧
      variable_allocation 0 scenarioD_cfg scenarioD_interf 4 = some (count, v) ∧
      v.length = scenarioD_cfg.nver ∧
      (∀ x, x < scenarioD_cfg.nver → ∃ k, v[x]? = some (some k) ∧ 1 ≤ k ∧ k ≤ count) ∧
      (∀ k, 1 ≤ k → k ≤ count → ∃ x, x < scenarioD_cfg.nver ∧ v[x]? = some (some k)) ∧
      count = classCount scenarioD_cfg.nver s3.repr ∧
      (∀ x y, x < scenarioD_cfg.nver → y < scenarioD_cfg.nver →
        (v[x]? = v[y]? ↔ s3.repr[x]? = s3.repr[y]?)) :=
  ⟨by decide, by decide, by decide, by decide,
    variable_allocation_numbering 0 scenarioD_cfg scenarioD_interf 4
      (by decide) (by decide) (by decide) (by decide)⟩

/-- Claim C3 at two versions that interfere with each other. -/
theorem variable_allocation_count_le_witness :
    pair_cfg.nver ≤ END ∧ pair_interf.length = pair_cfg.nver * pair_cfg.nver ∧
    CmdsInRange pair_cfg.nver pair_cfg.bblocks ∧ pair_cfg.nver < 3 ∧
    FullyInterfering pair_cfg.nver pair_interf ∧
    ∃ count v, variable_allocation 0 pair_cfg pair_interf 3 = some (count, v) ∧
      count ≤ pair_cfg.nver ∧ (FullyInterfering pair_cfg.nver pair_interf → count = pair_cfg.nver) :=
  ⟨by decide, by decide, by decide, by decide, by decide,
    variable_allocation_count_le 0 pair_cfg pair_interf 3
      (by decide) (by decide) (by decide) (by decide)⟩

/-- Claim C4 at two versions that interfere with each other. -/
theorem variable_allocation_count_eq_witness :
    pair_cfg.nver ≤ END ∧ pair_interf.length = pair_cfg.nver * pair_cfg.nver ∧
    SymmetricTable pair_cfg.nver pair_interf ∧
    CmdsInRange pair_cfg.nver pair_cfg.bblocks ∧ pair_cfg.nver < 3 ∧
    ∃ count v, variable_allocation 0 pair_cfg pair_interf 3 = some (count, v) ∧
      (count = pair_cfg.nver → FullyInterfering pair_cfg.nver pair_interf) :=
  ⟨by decide, by decide, by decide, by decide, by decide,
    variable_allocation_count_eq 0 pair_cfg pair_interf 3
      (by decide) (by decide) (by decide) (by decide) (by decide)⟩

/-- Claim C5 (as amended) at the chain `1 = 0`, `2 = 1` without interference. -/
theorem variable_allocation_interference_free_witness :
    chain_cfg.nver ≤ END ∧ (free_interf 3).length = chain_cfg.nver * chain_cfg.nver ∧
    InterferenceFree chain_cfg.nver (free_interf 3) ∧
    CmdsInRange chain_cfg.nver chain_cfg.bblocks ∧ chain_cfg.nver < 4 ∧
    ∃ v, variable_allocation 0 chain_cfg (free_interf 3) 4 = some (1, v) :=
  ⟨by decide, by decide, by decide, by decide, by decide,
    variable_allocation_interference_free 0 chain_cfg (free_interf 3) 4
      (by decide) (by decide) (by decide) (by decide) (by decide)⟩

/-- Claim C6 with `TAGVER_ZERO = 0` and fuel 4. -/
theorem scenarioD_result_witness :
    scenarioD_cfg.nver < 4 ∧
    ∃ v a b, variable_allocation 0 scenarioD_cfg scenarioD_interf 4 = some (2, v) ∧
      v[0]? = some (some a) ∧ v[2]? = some (some a) ∧ v[1]? = some (some b) ∧ a ≠ b :=
  ⟨by decide, scenarioD_result 0 4 (by decide)⟩

/-- Claim C7 at the chain `1 = 0`, `2 = 1` with a table that is not symmetric. -/
theorem variable_allocation_terminates_witness :
    chain_cfg.nver ≤ END ∧ asym_interf.length = chain_cfg.nver * chain_cfg.nver ∧
    CmdsInRange chain_cfg.nver chain_cfg.bblocks ∧ chain_cfg.nver < 4 ∧
    ¬ SymmetricTable chain_cfg.nver asym_interf ∧
    ∃ s1 s2 s3 count v,
      copy_coalescing 0 chain_cfg.nver asym_interf 4 chain_cfg.bblocks (init chain_cfg.nver)
        = some s1 ∧
      class_merging chain_cfg.nver asym_interf 4 s1 = some s2 ∧
      residual_placement chain_cfg.nver asym_interf 4 s2 = some s3 ∧
      numbering chain_cfg.nver 4 s3 (List.replicate chain_cfg.nver none) = some (count, v) ∧
      variable_allocation 0 chain_cfg asym_interf 4 = some (count, v) ∧
      ClassInv chain_cfg.nver (init chain_cfg.nver) ∧ ClassInv chain_cfg.nver s1 ∧
      ClassInv chain_cfg.nver s2 ∧ ClassInv chain_cfg.nver s3 ∧ v.length = chain_cfg.nver :=
  ⟨by decide, by decide, by decide, by decide, by decide,
    variable_allocation_terminates 0 chain_cfg asym_interf 4
      (by decide) (by decide) (by decide) (by decide)⟩

/-! ## The AST helpers -/

/-- Claim C8: for a `CAT` node, `fixlen` is `VARDIST` when one of the two
operand lengths is `VARDIST`; otherwise it is the sum of the two operand
lengths, computed in `size_t` (modulo `2^64`), hence the exact sum whenever the
sum is below `2^64`; for `"a" "bc"` it is 3. -/
theorem fixlen_cat (VARDIST line column : Nat) (a b : AST) :
    (fixlen VARDIST a ≠ VARDIST → fixlen VARDIST b ≠ VARDIST →
      fixlen VARDIST (AST.CAT line column a b) =
        (fixlen VARDIST a + fixlen VARDIST b) % SIZE_MOD) ∧
    (fixlen VARDIST a ≠ VARDIST → fixlen VARDIST b ≠ VARDIST →
      fixlen VARDIST a + fixlen VARDIST b < SIZE_MOD →
      fixlen VARDIST (AST.CAT line column a b) = fixlen VARDIST a + fixlen VARDIST b) ∧
    (fixlen VARDIST a = VARDIST ∨ fixlen VARDIST b = VARDIST →
      fixlen VARDIST (AST.CAT line column a b) = VARDIST) ∧
    fixlen 18446744073709551615
      (AST.CAT 1 1 (AST.STR 1 1 [⟨97, 1⟩] false) (AST.STR 1 2 [⟨98, 2⟩, ⟨99, 3⟩] false)) = 3 := by
  refine ⟨?_, ?_, ?_, by decide⟩
  · intro ha hb
    simp [fixlen, ha, hb]
  · intro ha hb hlt
    simp [fixlen, ha, hb, Nat.mod_eq_of_lt hlt]
  · intro h
    simp [fixlen, h]

/-- Claim C9, what the code does: for an `ITER` node `fixlen` is `VARDIST` when
the bounds differ or the inner length is `VARDIST`; when the bounds are equal
and the inner length is finite it is 0, not the inner length times the bound.
For `"a"{2,2}` the result is 0, the product is 2. -/
theorem fixlen_iter (VARDIST line column : Nat) (inner : AST) (n m : Nat) :
    (fixlen VARDIST inner = VARDIST ∨ n ≠ m →
      fixlen VARDIST (AST.ITER line column inner n m) = VARDIST) ∧
    (fixlen VARDIST inner ≠ VARDIST → n = m →
      fixlen VARDIST (AST.ITER line column inner n m) = 0) ∧
    fixlen 18446744073709551615 (AST.ITER 1 1 (AST.STR 1 1 [⟨97, 1⟩] false) 2 2) = 0 ∧
    fixlen 18446744073709551615 (AST.STR 1 1 [⟨97, 1⟩] false) * 2 = 2 := by
  refine ⟨?_, ?_, by decide, by decide⟩
  · intro h
    simp [fixlen, h]
  · intro h hnm
    subst hnm
    simp [fixlen, h, UINT32_MOD]

/-- Claim C10: `ast_alt` and `ast_cat` return the other operand when one operand
is null and leave the registry as it is; with two operands they build and
register one node of kind `ALT` or `CAT` that holds the operands in order and
the position of the first operand. -/
theorem ast_alt_cat_null (flist : List AST) (x : Option AST) (a b : AST) :
    ast_alt flist none x = (flist, x) ∧ ast_alt flist x none = (flist, x) ∧
    ast_cat flist none x = (flist, x) ∧ ast_cat flist x none = (flist, x) ∧
    ast_alt flist (some a) (some b) =
      (AST.ALT a.line a.column a b :: flist, some (AST.ALT a.line a.column a b)) ∧
    ast_cat flist (some a) (some b) =
      (AST.CAT a.line a.column a b :: flist, some (AST.CAT a.line a.column a b)) := by
  refine ⟨rfl, ?_, rfl, ?_, rfl, rfl⟩
  · cases x <;> rfl
  · cases x <;> rfl

/-! ## The kinds of node that need parentheses -/

/-- Claim C17: `ast_need_wrap` is true exactly for the kinds `ALT`, `CAT`, `DIFF`
and `REF`, false exactly for the eight other kinds, and it depends on the kind
of the root node only. -/
theorem ast_need_wrap_kinds (a : AST) :
    (ast_need_wrap a = true ↔
      a.type = .ALT ∨ a.type = .CAT ∨ a.type = .DIFF ∨ a.type = .REF) ∧
    (ast_need_wrap a = false ↔
      a.type = .NIL ∨ a.type = .STR ∨ a.type = .CLS ∨ a.type = .DOT ∨ a.type = .DEFAULT ∨
      a.type = .TAG ∨ a.type = .CAP ∨ a.type = .ITER) ∧
    ∀ b : AST, a.type = b.type → ast_need_wrap a = ast_need_wrap b := by
  refine ⟨?_, ?_, ?_⟩
  · cases a <;> simp [ast_need_wrap, AST.type]
  · cases a <;> simp [ast_need_wrap, AST.type]
  · intro b h
    simp only [ast_need_wrap, h]

/-! ## Lowering: the cases of `ast_to_re` one by one -/

theorem re_cat_none_right (x : Option RE) : re_cat x none = x := by
  cases x <;> rfl

theorem re_cat_none_left (x : Option RE) : re_cat none x = x := rfl

theorem ast_to_re_TAG_eq (P : Prims) (opts : opt_t) (line column : Nat) (name : Option String)
    (history : Bool) (s : LowerState) :
    ast_to_re P opts (.TAG line column name history) s =
      if name.isSome && !opts.tags then .error (.tags_need_option line column)
      else if opts.posix_captures then .error (.simple_tags_with_posix line column)
      else .ok (re_tag s.tags.length false,
        { s with tags := s.tags ++ [Tag.named name history] }) := by
  delta ast_to_re
  rfl

theorem ast_to_re_REF_eq (P : Prims) (opts : opt_t) (line column : Nat) (ast : AST)
    (name : String) (s : LowerState) :
    ast_to_re P opts (.REF line column ast name) s =
      if !opts.posix_captures then ast_to_re P opts ast s
      else .error (.implicit_grouping line name) := by
  delta ast_to_re
  rfl

theorem ast_to_re_CAP_eq (P : Prims) (opts : opt_t) (line column : Nat) (ast : AST)
    (s : LowerState) :
    ast_to_re P opts (.CAP line column ast) s =
      if !opts.posix_captures then ast_to_re P opts ast s
      else
        match capture_pair false s with
        | (t1, t2, s0) =>
          match ast_to_re P opts (unref ast) s0 with
          | .error e => .error e
          | .ok (y, s1) => .ok (re_cat t1 (re_cat y t2), s1) := by
  cases ast <;> (delta ast_to_re; rfl)

theorem ast_to_re_ALT_eq (P : Prims) (opts : opt_t) (line column : Nat) (ast1 ast2 : AST)
    (s : LowerState) :
    ast_to_re P opts (.ALT line column ast1 ast2) s =
      match fictive_pair (opts.posix_captures && has_tags (.ALT line column ast1 ast2)
          && (ast1.type != .CAP)) s with
      | (t1, t2, s0) =>
        match ast_to_re P opts ast1 s0 with
        | .error e => .error e
        | .ok (x, s1) =>
          match ast_to_re P opts ast2 s1 with
          | .error e => .error e
          | .ok (y, s2) => .ok (re_alt (re_cat t1 (re_cat x t2)) y, s2) := by
  delta ast_to_re
  rfl

theorem ast_to_re_CAT_eq (P : Prims) (opts : opt_t) (line column : Nat) (ast1 ast2 : AST)
    (s : LowerState) :
    ast_to_re P opts (.CAT line column ast1 ast2) s =
      match fictive_pair (opts.posix_captures && has_tags (.CAT line column ast1 ast2)
          && (ast1.type != .CAP) && (fixlen P.VARDIST ast1 == P.VARDIST)) s with
      | (t1, t2, s0) =>
        match ast_to_re P opts ast1 s0 with
        | .error e => .error e
        | .ok (x, s1) =>
          match ast_to_re P opts ast2 s1 with
          | .error e => .error e
          | .ok (y, s2) => .ok (re_cat (re_cat t1 (re_cat x t2)) y, s2) := by
  delta ast_to_re
  rfl

theorem ast_to_re_DIFF_eq (P : Prims) (opts : opt_t) (line column : Nat) (ast1 ast2 : AST)
    (s : LowerState) :
    ast_to_re P opts (.DIFF line column ast1 ast2) s =
      match ast_to_re P opts ast1 s with
      | .error e => .error e
      | .ok (x, s1) =>
        match ast_to_re P opts ast2 s1 with
        | .error e => .error e
        | .ok (y, s2) =>
          match x, y with
          | none, _ => .error .undefined
          | some (.SYM _), none => .error .undefined
          | some (.SYM xs), some (.SYM ys) =>
            re_class P opts line column (P.range_sub xs ys) s2
          | _, _ => .error (.diff_char_sets line column) := by
  delta ast_to_re
  rfl

theorem ast_to_re_STR_eq (P : Prims) (opts : opt_t) (line column : Nat)
    (chars : List ASTChar) (icase : Bool) (s : LowerState) :
    ast_to_re P opts (.STR line column chars icase) s =
      match str_loop P opts line (opts.bCaseInsensitive || (icase != opts.bCaseInverted))
          chars none with
      | .error e => .error e
      | .ok x => .ok ((match x with | some _ => x | none => re_nil), s) := by
  delta ast_to_re
  rfl

theorem ast_to_re_CLS_eq (P : Prims) (opts : opt_t) (line column : Nat)
    (ranges : List ASTRange) (negated : Bool) (s : LowerState) :
    ast_to_re P opts (.CLS line column ranges negated) s =
      match cls_loop P opts line ranges none with
      | .error e => .error e
      | .ok r =>
        re_class P opts line column
          (if negated then P.range_sub opts.encoding.fullRange r else r) s := by
  delta ast_to_re
  rfl

theorem ast_to_re_DOT_eq (P : Prims) (opts : opt_t) (line column : Nat) (s : LowerState) :
    ast_to_re P opts (.DOT line column) s =
      match opts.encoding.encode 10 with
      | none => .error (.bad_code_point line column 10)
      | some c =>
        re_class P opts line column
          (P.range_sub opts.encoding.fullRange (P.range_sym c)) s := by
  delta ast_to_re
  rfl

/-- The `ITER` case when the capture pair is not hoisted. -/
theorem ast_to_re_ITER_plain (P : Prims) (opts : opt_t) (line column : Nat) (ast : AST)
    (min max : Nat) (s : LowerState)
    (h : opts.posix_captures = false ∨ ast.type ≠ .CAP) :
    ast_to_re P opts (.ITER line column ast min max) s =
      iter_rest none none min (Nat.max min 1) (Nat.max min max)
        (fun u => ast_to_re P opts ast u) s := by
  have e : ast_to_re P opts (.ITER line column ast min max) s =
      if opts.posix_captures then
        (match ast with
         | .CAP _ _ x =>
           match capture_pair (decide (Nat.max min max > 1)) s with
           | (t1, t2, s0) =>
             iter_rest t1 t2 min (Nat.max min 1) (Nat.max min max)
               (fun u => ast_to_re P opts (unref x) u) s0
         | _ => iter_rest none none min (Nat.max min 1) (Nat.max min max)
               (fun u => ast_to_re P opts ast u) s)
      else iter_rest none none min (Nat.max min 1) (Nat.max min max)
        (fun u => ast_to_re P opts ast u) s := by
    cases ast with
    | CAP l c x => cases x <;> (delta ast_to_re; rfl)
    | _ => delta ast_to_re; rfl
  rw [e]
  rcases Bool.eq_false_or_eq_true opts.posix_captures with hp | hp
  · have hc : ast.type ≠ .CAP := by
      rcases h with h | h
      · rw [hp] at h
        cases h
      · exact h
    simp only [hp, if_true]
    cases ast <;> first | rfl | exact absurd rfl hc
  · simp [hp]

/-- The `ITER` case in POSIX mode when the operand is a capture: the capture
pair is hoisted and the body is the operand of the capture, or the operand of
the `REF` node that is the operand of the capture. -/
theorem ast_to_re_ITER_cap (P : Prims) (opts : opt_t) (line column l1 c1 : Nat) (inner : AST)
    (min max : Nat) (s : LowerState) (h : opts.posix_captures = true) :
    ast_to_re P opts (.ITER line column (.CAP l1 c1 inner) min max) s =
      match capture_pair (decide (Nat.max min max > 1)) s with
      | (t1, t2, s0) =>
        iter_rest t1 t2 min (Nat.max min 1) (Nat.max min max)
          (fun u => ast_to_re P opts (unref inner) u) s0 := by
  have e : ast_to_re P opts (.ITER line column (.CAP l1 c1 inner) min max) s =
      if opts.posix_captures then
        match capture_pair (decide (Nat.max min max > 1)) s with
        | (t1, t2, s0) =>
          iter_rest t1 t2 min (Nat.max min 1) (Nat.max min max)
            (fun u => ast_to_re P opts (unref inner) u) s0
      else iter_rest none none min (Nat.max min 1) (Nat.max min max)
        (fun u => ast_to_re P opts (.CAP l1 c1 inner) u) s := by
    cases inner <;> (delta ast_to_re; rfl)
  rw [e, h]
  rfl

/-- Claim C15: lowering a `TAG` node fails exactly when the tag has a name and
tags are not enabled, or POSIX captures are on; otherwise it appends the one
entry `(name, history)` to the tag table, leaves the earlier entries, the
counter and the warnings as they are, and returns the tag marker, not negative,
whose index is the old size of the table. -/
theorem ast_to_re_tag (P : Prims) (opts : opt_t) (line column : Nat) (name : Option String)
    (history : Bool) (s : LowerState) :
    ((name.isSome = true ∧ opts.tags = false) →
      ast_to_re P opts (.TAG line column name history) s =
        .error (.tags_need_option line column)) ∧
    (¬ (name.isSome = true ∧ opts.tags = false) → opts.posix_captures = true →
      ast_to_re P opts (.TAG line column name history) s =
        .error (.simple_tags_with_posix line column)) ∧
    (¬ (name.isSome = true ∧ opts.tags = false) → opts.posix_captures = false →
      ast_to_re P opts (.TAG line column name history) s =
        .ok (some (RE.TAG s.tags.length false),
          ⟨s.tags ++ [⟨name, .RIGHTMOST, history⟩], s.ncap, s.warn⟩)) ∧
    ((∃ e, ast_to_re P opts (.TAG line column name history) s = .error e) ↔
      ((name.isSome = true ∧ opts.tags = false) ∨ opts.posix_captures = true)) := by
  have h1 : (name.isSome = true ∧ opts.tags = false) →
      ast_to_re P opts (.TAG line column name history) s =
        .error (.tags_need_option line column) := by
    rintro ⟨hn, ht⟩
    rw [ast_to_re_TAG_eq]
    simp [hn, ht]
  have hcond : ¬ (name.isSome = true ∧ opts.tags = false) →
      (name.isSome && !opts.tags) = false := by
    intro hn
    cases h1 : name.isSome <;> cases h2 : opts.tags <;> simp_all
  have h2 : ¬ (name.isSome = true ∧ opts.tags = false) → opts.posix_captures = true →
      ast_to_re P opts (.TAG line column name history) s =
        .error (.simple_tags_with_posix line column) := by
    intro hn hp
    rw [ast_to_re_TAG_eq, hcond hn, hp]
    rfl
  have h3 : ¬ (name.isSome = true ∧ opts.tags = false) → opts.posix_captures = false →
      ast_to_re P opts (.TAG line column name history) s =
        .ok (some (RE.TAG s.tags.length false),
          ⟨s.tags ++ [⟨name, .RIGHTMOST, history⟩], s.ncap, s.warn⟩) := by
    intro hn hp
    rw [ast_to_re_TAG_eq, hcond hn, hp]
    rfl
  refine ⟨h1, h2, h3, ?_⟩
  constructor
  · rintro ⟨e, he⟩
    by_cases hn : name.isSome = true ∧ opts.tags = false
    · exact Or.inl hn
    · right
      rcases Bool.eq_false_or_eq_true opts.posix_captures with hp | hp
      · exact hp
      · rw [h3 hn hp] at he
        cases he
  · rintro (hn | hp)
    · exact ⟨_, h1 hn⟩
    · by_cases hn : name.isSome = true ∧ opts.tags = false
      · exact ⟨_, h1 hn⟩
      · exact ⟨_, h2 hn hp⟩

/-- Claim C16: without POSIX captures a `CAP` node and a `REF` node lower exactly
like their operand; with POSIX captures a `REF` node fails with the diagnostic
for implicit grouping, while for a `CAP` node whose operand is a `REF` node the
capture pair brackets the lowering of the operand of that `REF` node. -/
theorem ast_to_re_cap_ref (P : Prims) (opts : opt_t) (line column l1 c1 : Nat) (x : AST)
    (name : String) (s : LowerState) :
    (opts.posix_captures = false →
      ast_to_re P opts (.CAP line column x) s = ast_to_re P opts x s ∧
      ast_to_re P opts (.REF line column x name) s = ast_to_re P opts x s) ∧
    (opts.posix_captures = true →
      ast_to_re P opts (.REF line column x name) s = .error (.implicit_grouping line name) ∧
      ast_to_re P opts (.CAP line column (.REF l1 c1 x name)) s =
        match ast_to_re P opts x
            ⟨s.tags ++ [⟨none, .CAPTURE (2 * s.ncap), false⟩,
              ⟨none, .CAPTURE (2 * s.ncap + 1), false⟩], s.ncap + 1, s.warn⟩ with
        | .error e => .error e
        | .ok (y, s1) =>
          .ok (re_cat (some (RE.TAG s.tags.length false))
            (re_cat y (some (RE.TAG (s.tags.length + 1) false))), s1)) := by
  constructor
  · intro hp
    constructor
    · rw [ast_to_re_CAP_eq, hp]
      rfl
    · rw [ast_to_re_REF_eq, hp]
      rfl
  · intro hp
    constructor
    · rw [ast_to_re_REF_eq, hp]
      rfl
    · rw [ast_to_re_CAP_eq, hp]
      simp [capture_pair, unref, re_tag, Tag.ofSlot]

/-- Claim C14: for an `ALT` node the pair of fictive tags is appended before the
first operand is lowered, and brackets it, exactly when POSIX captures are on,
the node has tags and the first operand is not a `CAP` node; for a `CAT` node
exactly when in addition the fixed length of the first operand is `VARDIST`.
Otherwise the node appends no tag of its own and the result is the alternation
or concatenation of the lowered operands. -/
theorem ast_to_re_alt_cat (P : Prims) (opts : opt_t) (line column : Nat) (a b : AST)
    (s : LowerState) :
    ((opts.posix_captures = true ∧ has_tags (.ALT line column a b) = true ∧ a.type ≠ .CAP) →
      ast_to_re P opts (.ALT line column a b) s =
        match ast_to_re P opts a
            ⟨s.tags ++ [⟨none, .FICTIVE, false⟩, ⟨none, .FICTIVE, false⟩], s.ncap, s.warn⟩ with
        | .error e => .error e
        | .ok (x, s1) =>
          match ast_to_re P opts b s1 with
          | .error e => .error e
          | .ok (y, s2) =>
            .ok (re_alt (re_cat (some (RE.TAG s.tags.length false))
              (re_cat x (some (RE.TAG (s.tags.length + 1) false)))) y, s2)) ∧
    (¬ (opts.posix_captures = true ∧ has_tags (.ALT line column a b) = true ∧ a.type ≠ .CAP) →
      ast_to_re P opts (.ALT line column a b) s =
        match ast_to_re P opts a s with
        | .error e => .error e
        | .ok (x, s1) =>
          match ast_to_re P opts b s1 with
          | .error e => .error e
          | .ok (y, s2) => .ok (re_alt x y, s2)) ∧
    ((opts.posix_captures = true ∧ has_tags (.CAT line column a b) = true ∧ a.type ≠ .CAP ∧
        fixlen P.VARDIST a = P.VARDIST) →
      ast_to_re P opts (.CAT line column a b) s =
        match ast_to_re P opts a
            ⟨s.tags ++ [⟨none, .FICTIVE, false⟩, ⟨none, .FICTIVE, false⟩], s.ncap, s.warn⟩ with
        | .error e => .error e
        | .ok (x, s1) =>
          match ast_to_re P opts b s1 with
          | .error e => .error e
          | .ok (y, s2) =>
            .ok (re_cat (re_cat (some (RE.TAG s.tags.length false))
              (re_cat x (some (RE.TAG (s.tags.length + 1) false)))) y, s2)) ∧
    (¬ (opts.posix_captures = true ∧ has_tags (.CAT line column a b) = true ∧ a.type ≠ .CAP ∧
        fixlen P.VARDIST a = P.VARDIST) →
      ast_to_re P opts (.CAT line column a b) s =
        match ast_to_re P opts a s with
        | .error e => .error e
        | .ok (x, s1) =>
          match ast_to_re P opts b s1 with
          | .error e => .error e
          | .ok (y, s2) => .ok (re_cat x y, s2)) := by
  refine ⟨?_, ?_, ?_, ?_⟩
  · rintro ⟨h1, h2, h3⟩
    have hc : (opts.posix_captures && has_tags (.ALT line column a b) && (a.type != .CAP))
        = true := by
      simp [h1, h2, h3]
    rw [ast_to_re_ALT_eq, hc]
    simp [fictive_pair, re_tag, Tag.ofSlot]
  · intro h
    have hc : (opts.posix_captures && has_tags (.ALT line column a b) && (a.type != .CAP))
        = false := by
      rcases Bool.eq_false_or_eq_true
        (opts.posix_captures && has_tags (.ALT line column a b) && (a.type != .CAP)) with h' | h'
      · exfalso
        apply h
        simpa [and_assoc] using h'
      · exact h'
    rw [ast_to_re_ALT_eq, hc]
    simp [fictive_pair, re_cat_none_right, re_cat_none_left]
  · rintro ⟨h1, h2, h3, h4⟩
    have hc : (opts.posix_captures && has_tags (.CAT line column a b) && (a.type != .CAP)
        && (fixlen P.VARDIST a == P.VARDIST)) = true := by
      simp [h1, h2, h3, h4]
    rw [ast_to_re_CAT_eq, hc]
    simp [fictive_pair, re_tag, Tag.ofSlot]
  · intro h
    have hc : (opts.posix_captures && has_tags (.CAT line column a b) && (a.type != .CAP)
        && (fixlen P.VARDIST a == P.VARDIST)) = false := by
      rcases Bool.eq_false_or_eq_true
        (opts.posix_captures && has_tags (.CAT line column a b) && (a.type != .CAP)
          && (fixlen P.VARDIST a == P.VARDIST)) with h' | h'
      · exfalso
        apply h
        simpa [and_assoc] using h'
      · exact h'
    rw [ast_to_re_CAT_eq, hc]
    simp [fictive_pair, re_cat_none_right, re_cat_none_left]

/-! ## Lowering: what every successful call guarantees -/

theorem AST.strong_induction (Pr : AST → Prop)
    (h : ∀ a : AST, (∀ b : AST, sizeOf b < sizeOf a → Pr b) → Pr a) (a : AST) : Pr a := by
  have main : ∀ n : Nat, ∀ b : AST, sizeOf b < n → Pr b := by
    intro n
    induction n with
    | zero => intro b hb; exact absurd hb (Nat.not_lt_zero _)
    | succ n ih =>
      intro b hb
      exact h b (fun c hc => ih c (by omega))
  exact main (sizeOf a + 1) a (Nat.lt_succ_self _)

theorem sizeOf_unref_le (x : AST) : sizeOf (unref x) ≤ sizeOf x := by
  cases x <;> simp [unref] <;> omega

theorem paired_append (l2 : List Tag) :
    ∀ (n : Nat) (l1 : List Tag) (c c1 : Nat), l1.length ≤ n → paired c l1 = some c1 →
      paired c (l1 ++ l2) = paired c1 l2 := by
  intro n
  induction n with
  | zero =>
    intro l1 c c1 hlen h
    have : l1 = [] := List.length_eq_zero.1 (by omega)
    subst this
    simp only [paired, Option.some.injEq] at h
    simp [h]
  | succ n ih =>
    intro l1 c c1 hlen h
    match l1, h with
    | [], h =>
      simp only [paired, Option.some.injEq] at h
      simp [h]
    | [_], h => simp [paired] at h
    | t1 :: t2 :: rest, h =>
      simp only [paired] at h
      simp only [List.cons_append, paired]
      have hr : rest.length ≤ n := by
        simp at hlen
        omega
      by_cases hf : t1.ncap = .FICTIVE ∧ t2.ncap = .FICTIVE
      · simp only [hf, and_self, if_true] at h ⊢
        exact ih rest c c1 hr h
      · simp only [hf, if_false] at h ⊢
        by_cases hc : t1.ncap = .CAPTURE (2 * c) ∧ t2.ncap = .CAPTURE (2 * c + 1)
        · simp only [hc, and_self, if_true] at h ⊢
          exact ih rest (c + 1) c1 hr h
        · simp [hc] at h

theorem paired_app (l1 l2 : List Tag) (c c1 : Nat) (h : paired c l1 = some c1) :
    paired c (l1 ++ l2) = paired c1 l2 :=
  paired_append l2 l1.length l1 c c1 (le_refl _) h

theorem re_class_inv {P : Prims} {opts : opt_t} {line column : Nat} {r : RangePtr}
    {s s' : LowerState} {x : Option RE} (h : re_class P opts line column r s = .ok (x, s')) :
    (∃ re, x = some re) ∧ s'.tags = s.tags ∧ s'.ncap = s.ncap := by
  have henc : ∃ re, re_class_enc P opts r = some re := by
    unfold re_class_enc
    cases opts.encoding.type <;> simp [re_sym]
  unfold re_class at h
  cases r with
  | some r0 =>
    simp only [Except.ok.injEq, Prod.mk.injEq] at h
    obtain ⟨h1, h2⟩ := h
    subst h1 h2
    exact ⟨henc, rfl, rfl⟩
  | none =>
    cases hp : opts.empty_class_policy with
    | EMPTY_CLASS_MATCH_EMPTY =>
      simp only [hp, Except.ok.injEq, Prod.mk.injEq] at h
      obtain ⟨h1, h2⟩ := h
      subst h1 h2
      exact ⟨⟨RE.NIL, rfl⟩, rfl, rfl⟩
    | EMPTY_CLASS_MATCH_NONE =>
      simp only [hp, Except.ok.injEq, Prod.mk.injEq] at h
      obtain ⟨h1, h2⟩ := h
      subst h1 h2
      exact ⟨henc, rfl, rfl⟩
    | EMPTY_CLASS_ERROR => simp [hp] at h

theorem re_cat_some_right (x : Option RE) (b : RE) : ∃ re, re_cat x (some b) = some re := by
  cases x <;> simp [re_cat]

theorem re_cat_some_left (a : RE) (y : Option RE) : ∃ re, re_cat (some a) y = some re := by
  cases y <;> simp [re_cat]

theorem re_alt_some_right (x : Option RE) (b : RE) : ∃ re, re_alt x (some b) = some re := by
  cases x <;> simp [re_alt]

theorem iter_rest_inv {t1 t2 : Option RE} {n n1 m : Nat}
    {lower : LowerState → Except Fatal (Option RE × LowerState)} {s s' : LowerState}
    {r : Option RE} (hnm : n ≤ m)
    (hl : ∀ y s1, lower s = .ok (y, s1) → ∃ re, y = some re)
    (h : iter_rest t1 t2 n n1 m lower s = .ok (r, s')) :
    (∃ re, r = some re) ∧ ((m = 0 ∧ s' = s) ∨ (m ≠ 0 ∧ ∃ y, lower s = .ok (some y, s'))) := by
  unfold iter_rest at h
  simp only at h
  by_cases hm0 : m = 0
  · have hn0 : n = 0 := by omega
    simp only [hm0, hn0, if_true, Except.ok.injEq, Prod.mk.injEq] at h
    obtain ⟨h1, h2⟩ := h
    subst h1 h2
    exact ⟨re_alt_some_right _ _, Or.inl ⟨hm0, rfl⟩⟩
  · simp only [hm0, if_false] at h
    cases hlow : lower s with
    | error e =>
      rw [hlow] at h
      by_cases hm1 : m = 1 <;> simp [hm1] at h
    | ok p =>
      obtain ⟨y, s1⟩ := p
      obtain ⟨re, rfl⟩ := hl y s1 hlow
      rw [hlow] at h
      by_cases hm1 : m = 1
      · simp only [hm1, if_true, Except.ok.injEq, Prod.mk.injEq] at h
        obtain ⟨h1, h2⟩ := h
        subst h2
        refine ⟨?_, Or.inr ⟨hm0, re, rfl⟩⟩
        obtain ⟨w, hw⟩ := re_cat_some_left re t2
        rw [hw] at h1
        obtain ⟨w2, hw2⟩ := re_cat_some_right t1 w
        rw [hw2] at h1
        by_cases hn : n = 0
        · simp only [hn, if_true] at h1
          rw [← h1]
          exact re_alt_some_right _ _
        · simp only [hn, if_false] at h1
          exact ⟨w2, h1.symm⟩
      · simp only [hm1, if_false] at h
        obtain ⟨w, hw⟩ := re_cat_some_right t1 re
        rw [hw] at h
        simp only [re_iter, Except.ok.injEq, Prod.mk.injEq] at h
        obtain ⟨h1, h2⟩ := h
        subst h2
        refine ⟨?_, Or.inr ⟨hm0, re, rfl⟩⟩
        obtain ⟨w2, hw2⟩ := re_cat_some_left (RE.ITER w n1 m) t2
        rw [hw2] at h1
        by_cases hn : n = 0
        · simp only [hn, if_true] at h1
          rw [← h1]
          exact re_alt_some_right _ _
        · simp only [hn, if_false] at h1
          exact ⟨w2, h1.symm⟩

theorem Extends.rfl' (opts : opt_t) {s s' : LowerState} (ht : s'.tags = s.tags)
    (hc : s'.ncap = s.ncap) : Extends opts s s' :=
  ⟨[], by simp [ht], fun _ => by simp [paired, hc]⟩

theorem Extends.comp {opts : opt_t} {s s1 s2 : LowerState} (h1 : Extends opts s s1)
    (h2 : Extends opts s1 s2) : Extends opts s s2 := by
  obtain ⟨n1, ht1, hp1⟩ := h1
  obtain ⟨n2, ht2, hp2⟩ := h2
  refine ⟨n1 ++ n2, by rw [ht2, ht1, List.append_assoc], ?_⟩
  intro hp
  rw [paired_app n1 n2 _ _ (hp1 hp)]
  exact hp2 hp

theorem fictive_pair_ext (opts : opt_t) (cond : Bool) (s : LowerState) :
    Extends opts s (fictive_pair cond s).2.2 := by
  cases cond with
  | false => exact Extends.rfl' opts rfl rfl
  | true =>
    refine ⟨[Tag.ofSlot .FICTIVE false, Tag.ofSlot .FICTIVE false], ?_, ?_⟩
    · simp [fictive_pair]
    · intro _
      simp [paired, Tag.ofSlot, fictive_pair]

theorem capture_pair_ext (opts : opt_t) (history : Bool) (s : LowerState) :
    Extends opts s (capture_pair history s).2.2 := by
  refine ⟨[Tag.ofSlot (.CAPTURE (2 * s.ncap)) history,
    Tag.ofSlot (.CAPTURE (2 * s.ncap + 1)) false], ?_, ?_⟩
  · simp [capture_pair]
  · intro _
    simp [paired, Tag.ofSlot, capture_pair]

theorem fictive_pair_fst (cond : Bool) (s : LowerState) :
    (fictive_pair cond s).1 = none ∨ ∃ re, (fictive_pair cond s).1 = some re := by
  cases h : (fictive_pair cond s).1 with
  | none => exact Or.inl rfl
  | some re => exact Or.inr ⟨re, rfl⟩

theorem child_cap_or_not (x : AST) :
    x.type ≠ .CAP ∨ ∃ l c inner, x = .CAP l c inner := by
  cases x <;> first | exact Or.inr ⟨_, _, _, rfl⟩ | exact Or.inl (by simp [AST.type])

/-- Every successful lowering returns a node, only appends to the tag table,
and in POSIX mode appends paired tags. -/
theorem lower_inv (P : Prims) (opts : opt_t) :
    ∀ (a : AST) (s s' : LowerState) (r : Option RE),
      ast_to_re P opts a s = .ok (r, s') → (∃ re, r = some re) ∧ Extends opts s s' := by
  intro a
  induction a using AST.strong_induction with
  | h a ih =>
    have two : ∀ (a1 a2 : AST) (t1 t2 : Option RE) (s0 s' : LowerState) (x y : Option RE)
        (s1 : LowerState), sizeOf a1 < sizeOf a → sizeOf a2 < sizeOf a →
        ast_to_re P opts a1 s0 = .ok (x, s1) → ast_to_re P opts a2 s1 = .ok (y, s') →
        (∃ re, re_cat t1 (re_cat x t2) = some re) ∧ (∃ re, y = some re) ∧
          Extends opts s0 s' := by
      intro a1 a2 t1 t2 s0 s' x y s1 h1 h2 hx hy
      obtain ⟨⟨rx, rfl⟩, e1⟩ := ih a1 h1 s0 s1 x hx
      obtain ⟨hy', e2⟩ := ih a2 h2 s1 s' y hy
      obtain ⟨w, hw⟩ := re_cat_some_left rx t2
      rw [hw]
      exact ⟨re_cat_some_right t1 w, hy', e1.comp e2⟩
    intro s s' r h
    cases a with
    | NIL l c =>
      have h' : (Except.ok (re_nil, s) : Except Fatal (Option RE × LowerState)) = .ok (r, s') := h
      simp only [Except.ok.injEq, Prod.mk.injEq] at h'
      obtain ⟨h1, h2⟩ := h'
      subst h1 h2
      exact ⟨⟨RE.NIL, rfl⟩, Extends.rfl' opts rfl rfl⟩
    | DEFAULT l c =>
      have h' : (Except.ok (re_sym (P.range_ran 0 opts.encoding.nCodeUnits), s) :
          Except Fatal (Option RE × LowerState)) = .ok (r, s') := h
      simp only [Except.ok.injEq, Prod.mk.injEq] at h'
      obtain ⟨h1, h2⟩ := h'
      subst h1 h2
      exact ⟨⟨_, rfl⟩, Extends.rfl' opts rfl rfl⟩
    | STR l c chars icase =>
      rw [ast_to_re_STR_eq] at h
      cases hs : str_loop P opts l (opts.bCaseInsensitive || (icase != opts.bCaseInverted))
          chars none with
      | error e => simp [hs] at h
      | ok x =>
        simp only [hs, Except.ok.injEq, Prod.mk.injEq] at h
        obtain ⟨h1, h2⟩ := h
        subst h1 h2
        refine ⟨?_, Extends.rfl' opts rfl rfl⟩
        cases x with
        | none => exact ⟨RE.NIL, rfl⟩
        | some re => exact ⟨re, rfl⟩
    | CLS l c ranges negated =>
      rw [ast_to_re_CLS_eq] at h
      cases hs : cls_loop P opts l ranges none with
      | error e => simp [hs] at h
      | ok x =>
        simp only [hs] at h
        obtain ⟨h1, h2, h3⟩ := re_class_inv h
        exact ⟨h1, Extends.rfl' opts h2 h3⟩
    | DOT l c =>
      rw [ast_to_re_DOT_eq] at h
      cases hs : opts.encoding.encode 10 with
      | none => simp [hs] at h
      | some x =>
        simp only [hs] at h
        obtain ⟨h1, h2, h3⟩ := re_class_inv h
        exact ⟨h1, Extends.rfl' opts h2 h3⟩
    | ALT l c a1 a2 =>
      rw [ast_to_re_ALT_eq] at h
      have hfe := fictive_pair_ext opts (opts.posix_captures && has_tags (.ALT l c a1 a2)
        && (a1.type != .CAP)) s
      rcases hfp : fictive_pair (opts.posix_captures &&
        has_tags (.ALT l c a1 a2) && (a1.type != .CAP)) s with ⟨t1, t2, s0⟩
      rw [hfp] at h hfe
      simp only at h hfe
      cases hx : ast_to_re P opts a1 s0 with
      | error e => simp [hx] at h
      | ok p1 =>
        obtain ⟨x, s1⟩ := p1
        simp only [hx] at h
        cases hy : ast_to_re P opts a2 s1 with
        | error e => simp [hy] at h
        | ok p2 =>
          obtain ⟨y, s2⟩ := p2
          simp only [hy, Except.ok.injEq, Prod.mk.injEq] at h
          obtain ⟨h1, h2⟩ := h
          subst h2
          obtain ⟨⟨w, hw⟩, ⟨ry, rfl⟩, e⟩ := two a1 a2 t1 t2 s0 s2 x (y) s1
            (by simp <;> omega) (by simp) hx hy
          rw [hw] at h1
          rw [← h1]
          exact ⟨⟨_, rfl⟩, hfe.comp e⟩
    | CAT l c a1 a2 =>
      rw [ast_to_re_CAT_eq] at h
      have hfe := fictive_pair_ext opts (opts.posix_captures && has_tags (.CAT l c a1 a2)
        && (a1.type != .CAP) && (fixlen P.VARDIST a1 == P.VARDIST)) s
      rcases hfp : fictive_pair (opts.posix_captures &&
        has_tags (.CAT l c a1 a2) && (a1.type != .CAP) &&
        (fixlen P.VARDIST a1 == P.VARDIST)) s with ⟨t1, t2, s0⟩
      rw [hfp] at h hfe
      simp only at h hfe
      cases hx : ast_to_re P opts a1 s0 with
      | error e => simp [hx] at h
      | ok p1 =>
        obtain ⟨x, s1⟩ := p1
        simp only [hx] at h
        cases hy : ast_to_re P opts a2 s1 with
        | error e => simp [hy] at h
        | ok p2 =>
          obtain ⟨y, s2⟩ := p2
          simp only [hy, Except.ok.injEq, Prod.mk.injEq] at h
          obtain ⟨h1, h2⟩ := h
          subst h2
          obtain ⟨⟨w, hw⟩, ⟨ry, rfl⟩, e⟩ := two a1 a2 t1 t2 s0 s2 x (y) s1
            (by simp <;> omega) (by simp) hx hy
          rw [hw] at h1
          rw [← h1]
          exact ⟨⟨_, rfl⟩, hfe.comp e⟩
    | DIFF l c a1 a2 =>
      rw [ast_to_re_DIFF_eq] at h
      cases hx : ast_to_re P opts a1 s with
      | error e => simp [hx] at h
      | ok p1 =>
        obtain ⟨x, s1⟩ := p1
        simp only [hx] at h
        cases hy : ast_to_re P opts a2 s1 with
        | error e => simp [hy] at h
        | ok p2 =>
          obtain ⟨y, s2⟩ := p2
          simp only [hy] at h
          obtain ⟨-, e1⟩ := ih a1 (by simp <;> omega) s s1 x hx
          obtain ⟨-, e2⟩ := ih a2 (by simp) s1 s2 y hy
          have hcl : ∃ xs ys, re_class P opts l c (P.range_sub xs ys) s2 = .ok (r, s') := by
            cases x with
            | none => simp at h
            | some rx =>
              cases rx with
              | SYM xs =>
                cases y with
                | none => simp at h
                | some ry =>
                  cases ry with
                  | SYM ys => exact ⟨xs, ys, h⟩
                  | _ => simp at h
              | _ => simp at h
          obtain ⟨xs, ys, hcl⟩ := hcl
          obtain ⟨h1, h2, h3⟩ := re_class_inv hcl
          exact ⟨h1, (e1.comp e2).comp (Extends.rfl' opts h2 h3)⟩
    | TAG l c name history =>
      rw [ast_to_re_TAG_eq] at h
      by_cases h0 : (name.isSome && !opts.tags) = true
      · simp [h0] at h
      · simp only [h0, if_false] at h
        rcases Bool.eq_false_or_eq_true opts.posix_captures with hp | hp
        · simp [hp] at h
        · simp only [hp, Bool.false_eq_true, if_false, Except.ok.injEq, Prod.mk.injEq] at h
          obtain ⟨h1, h2⟩ := h
          subst h1 h2
          refine ⟨⟨_, rfl⟩, [Tag.named name history], rfl, ?_⟩
          intro hp'
          rw [hp] at hp'
          cases hp'
    | REF l c x name =>
      rw [ast_to_re_REF_eq] at h
      rcases Bool.eq_false_or_eq_true opts.posix_captures with hp | hp
      · simp [hp] at h
      · simp only [hp, Bool.not_false, if_true] at h
        exact ih x (by simp <;> omega) s s' r h
    | CAP l c x =>
      rw [ast_to_re_CAP_eq] at h
      rcases Bool.eq_false_or_eq_true opts.posix_captures with hp | hp
      · simp only [hp, Bool.not_true, Bool.false_eq_true, if_false] at h
        have hce := capture_pair_ext opts false s
        rcases hcp : capture_pair false s with ⟨t1, t2, s0⟩
        have ht2 : ∃ b, t2 = some b := by
          have : t2 = (capture_pair false s).2.1 := by rw [hcp]
          rw [this]
          exact ⟨_, rfl⟩
        rw [hcp] at h hce
        simp only at h hce
        cases hy : ast_to_re P opts (unref x) s0 with
        | error e => simp [hy] at h
        | ok p1 =>
          obtain ⟨y, s1⟩ := p1
          simp only [hy, Except.ok.injEq, Prod.mk.injEq] at h
          obtain ⟨h1, h2⟩ := h
          subst h2
          have hsz : sizeOf (unref x) < sizeOf (AST.CAP l c x) := by
            have := sizeOf_unref_le x
            simp
            omega
          obtain ⟨-, e⟩ := ih (unref x) hsz s0 s1 y hy
          obtain ⟨b, rfl⟩ := ht2
          obtain ⟨w, hw⟩ := re_cat_some_right y b
          rw [hw] at h1
          obtain ⟨w2, hw2⟩ := re_cat_some_right t1 w
          rw [hw2] at h1
          exact ⟨⟨w2, h1.symm⟩, hce.comp e⟩
      · simp only [hp, Bool.not_false, if_true] at h
        exact ih x (by simp) s s' r h
    | ITER l c x min max =>
      have hnm : min ≤ Nat.max min max := Nat.le_max_left _ _
      have plain : opts.posix_captures = false ∨ x.type ≠ .CAP →
          (∃ re, r = some re) ∧ Extends opts s s' := by
        intro hc
        rw [ast_to_re_ITER_plain P opts l c x min max s hc] at h
        obtain ⟨h1, h2⟩ := iter_rest_inv hnm
          (fun y s1 hy => (ih x (by simp <;> omega) s s1 y hy).1) h
        refine ⟨h1, ?_⟩
        rcases h2 with ⟨-, h3⟩ | ⟨-, y, hy⟩
        · rw [h3]
          exact Extends.rfl' opts rfl rfl
        · exact (ih x (by simp <;> omega) s s' _ hy).2
      rcases Bool.eq_false_or_eq_true opts.posix_captures with hp | hp
      · rcases child_cap_or_not x with hx | ⟨l1, c1, inner, rfl⟩
        · exact plain (Or.inr hx)
        · rw [ast_to_re_ITER_cap P opts l c l1 c1 inner min max s hp] at h
          have hce := capture_pair_ext opts (decide (Nat.max min max > 1)) s
          rcases hcp : capture_pair (decide (Nat.max min max > 1)) s with ⟨t1, t2, s0⟩
          rw [hcp] at h hce
          simp only at h hce
          have hsz : sizeOf (unref inner) < sizeOf (AST.ITER l c (AST.CAP l1 c1 inner) min max) := by
            have := sizeOf_unref_le inner
            simp
            omega
          obtain ⟨h1, h2⟩ := iter_rest_inv hnm
            (fun y s1 hy => (ih (unref inner) hsz s0 s1 y hy).1) h
          refine ⟨h1, ?_⟩
          rcases h2 with ⟨-, h3⟩ | ⟨-, y, hy⟩
          · rw [h3]
            exact hce
          · exact hce.comp (ih (unref inner) hsz s0 s' _ hy).2
      · exact plain (Or.inl hp)

theorem paired_facts :
    ∀ (n : Nat) (l : List Tag) (c c1 : Nat), l.length ≤ n → paired c l = some c1 →
      c ≤ c1 ∧ Even l.length ∧
      (∀ t ∈ l, fictive t = true ∨ ∃ k, t.ncap = .CAPTURE k) ∧
      l.filterMap slot_of = List.range' (2 * c) (2 * (c1 - c)) := by
  intro n
  induction n with
  | zero =>
    intro l c c1 hlen h
    have : l = [] := List.length_eq_zero.1 (by omega)
    subst this
    simp only [paired, Option.some.injEq] at h
    subst h
    simp
  | succ n ih =>
    intro l c c1 hlen h
    match l, h with
    | [], h =>
      simp only [paired, Option.some.injEq] at h
      subst h
      simp
    | [_], h => simp [paired] at h
    | t1 :: t2 :: rest, h =>
      simp only [paired] at h
      have hr : rest.length ≤ n := by
        simp at hlen
        omega
      by_cases hf : t1.ncap = .FICTIVE ∧ t2.ncap = .FICTIVE
      · simp only [hf, and_self, if_true] at h
        obtain ⟨h1, h2, h3, h4⟩ := ih rest c c1 hr h
        refine ⟨h1, ?_, ?_, ?_⟩
        · simp only [List.length_cons]
          obtain ⟨k, hk⟩ := h2
          exact ⟨k + 1, by omega⟩
        · intro t ht
          rcases List.mem_cons.1 ht with rfl | ht
          · exact Or.inl (by simp [fictive, hf.1])
          · rcases List.mem_cons.1 ht with rfl | ht
            · exact Or.inl (by simp [fictive, hf.2])
            · exact h3 t ht
        · simp [List.filterMap_cons, slot_of, hf.1, hf.2, h4]
      · simp only [hf, if_false] at h
        by_cases hc : t1.ncap = .CAPTURE (2 * c) ∧ t2.ncap = .CAPTURE (2 * c + 1)
        · simp only [hc, and_self, if_true] at h
          obtain ⟨h1, h2, h3, h4⟩ := ih rest (c + 1) c1 hr h
          refine ⟨by omega, ?_, ?_, ?_⟩
          · simp only [List.length_cons]
            obtain ⟨k, hk⟩ := h2
            exact ⟨k + 1, by omega⟩
          · intro t ht
            rcases List.mem_cons.1 ht with rfl | ht
            · exact Or.inr ⟨_, hc.1⟩
            · rcases List.mem_cons.1 ht with rfl | ht
              · exact Or.inr ⟨_, hc.2⟩
              · exact h3 t ht
          · have e : 2 * (c1 - c) = 2 * (c1 - (c + 1)) + 1 + 1 := by omega
            rw [e, List.range'_succ, List.range'_succ]
            simp only [List.filterMap_cons, slot_of, hc.1, hc.2, h4]
            have e2 : 2 * c + 1 + 1 = 2 * (c + 1) := by omega
            rw [e2]
        · simp [hc] at h

theorem init_rule_fields {P : Prims} {code : Code} {tags : List Tag} {ltag ncap : Nat}
    {rule : Rule} (h : init_rule P code tags ltag ncap = .ok rule) :
    rule.code = code ∧ rule.ltag = ltag ∧ rule.htag = tags.length ∧ rule.ncap = ncap ∧
      assert_tags_used_once rule tags = .ok () := by
  unfold init_rule at h
  simp only at h
  cases ht : find_ttag P tags tags.length (List.range' ltag (tags.length - ltag)) with
  | error e => simp [ht] at h
  | ok ttag =>
    simp only [ht] at h
    cases ha : assert_tags_used_once ⟨code, ltag, tags.length, ttag, ncap⟩ tags with
    | error e => simp [ha] at h
    | ok u =>
      simp only [ha, Except.ok.injEq] at h
      subst h
      exact ⟨rfl, rfl, rfl, rfl, ha⟩

/-- Claim C20: in POSIX mode, when the lowering of a rule succeeds from the
capture counter 0, the tags it appends are an even number of tags, each fictive
or a capture tag, the capture slots in table order are `0, 1, ..., 2*ncap-1`,
the tags come in adjacent pairs (two fictive tags, or the open tag `2k` followed
by the close tag `2k+1`), and `ncap` is the counter recorded in the rule. -/
theorem posix_capture_numbering (P : Prims) (opts : opt_t) (ast : AST) (tags0 : List Tag)
    (warn0 : List Nat) (r : Option RE) (s' : LowerState)
    (hp : opts.posix_captures = true)
    (h : ast_to_re P opts ast ⟨tags0, 0, warn0⟩ = .ok (r, s')) :
    ∃ new : List Tag, s'.tags = tags0 ++ new ∧ Even new.length ∧
      (∀ t ∈ new, fictive t = true ∨ ∃ k, t.ncap = .CAPTURE k) ∧
      new.filterMap slot_of = List.range (2 * s'.ncap) ∧
      paired 0 new = some s'.ncap ∧
      ∀ (code : Code) (rule : Rule),
        init_rule P code s'.tags tags0.length s'.ncap = .ok rule →
        rule.ltag = tags0.length ∧ rule.htag = s'.tags.length ∧ rule.ncap = s'.ncap := by
  obtain ⟨-, new, hnew, hpair⟩ := lower_inv P opts ast _ _ _ h
  have hpd : paired 0 new = some s'.ncap := hpair hp
  obtain ⟨-, h2, h3, h4⟩ := paired_facts new.length new 0 s'.ncap (le_refl _) hpd
  refine ⟨new, hnew, h2, h3, ?_, hpd, ?_⟩
  · rw [h4, List.range_eq_range']
    simp
  · intro code rule hr
    obtain ⟨-, h5, h6, h7, -⟩ := init_rule_fields hr
    exact ⟨h5, h6, h7⟩

theorem ast_to_re_CLS_tags {P : Prims} {opts : opt_t} {l c : Nat} {ranges : List ASTRange}
    {negated : Bool} {s s' : LowerState} {r : Option RE}
    (h : ast_to_re P opts (.CLS l c ranges negated) s = .ok (r, s')) :
    s'.tags = s.tags ∧ s'.ncap = s.ncap := by
  rw [ast_to_re_CLS_eq] at h
  cases hs : cls_loop P opts l ranges none with
  | error e => simp [hs] at h
  | ok x =>
    simp only [hs] at h
    exact (re_class_inv h).2

/-- Claim C13: in POSIX mode, for an `ITER` node whose operand is a capture, with
`m' = max(n, m)`: the open tag (slot `2 * ncap`, history exactly when `m' > 1`)
and the close tag (slot `2 * ncap + 1`, no history) are appended and the counter
is increased before the body is lowered; the result is `open.close` for `m' = 0`,
`open.body.close` for `m' = 1` and `ITER(open.body, max(n,1), m').close` for
`m' > 1`, alternated with `NIL` exactly when `n = 0`. The body is the operand of
the capture (the operand of a `REF` node directly below the capture). -/
theorem ast_to_re_iter_cap (P : Prims) (opts : opt_t) (line column l1 c1 : Nat) (inner : AST)
    (n m : Nat) (s : LowerState) (hp : opts.posix_captures = true) :
    (Nat.max n m = 0 →
      ast_to_re P opts (.ITER line column (.CAP l1 c1 inner) n m) s =
        .ok (some (RE.ALT (RE.CAT (RE.TAG s.tags.length false)
            (RE.TAG (s.tags.length + 1) false)) RE.NIL),
          ⟨s.tags ++ [⟨none, .CAPTURE (2 * s.ncap), false⟩,
            ⟨none, .CAPTURE (2 * s.ncap + 1), false⟩], s.ncap + 1, s.warn⟩)) ∧
    (∀ e, Nat.max n m ≠ 0 →
      ast_to_re P opts (unref inner)
        ⟨s.tags ++ [⟨none, .CAPTURE (2 * s.ncap), decide (Nat.max n m > 1)⟩,
          ⟨none, .CAPTURE (2 * s.ncap + 1), false⟩], s.ncap + 1, s.warn⟩ = .error e →
      ast_to_re P opts (.ITER line column (.CAP l1 c1 inner) n m) s = .error e) ∧
    (∀ body s1,
      ast_to_re P opts (unref inner)
        ⟨s.tags ++ [⟨none, .CAPTURE (2 * s.ncap), decide (Nat.max n m > 1)⟩,
          ⟨none, .CAPTURE (2 * s.ncap + 1), false⟩], s.ncap + 1, s.warn⟩
        = .ok (some body, s1) →
      (Nat.max n m = 1 →
        ast_to_re P opts (.ITER line column (.CAP l1 c1 inner) n m) s =
          .ok (some (if n = 0 then
              RE.ALT (RE.CAT (RE.TAG s.tags.length false)
                (RE.CAT body (RE.TAG (s.tags.length + 1) false))) RE.NIL
            else RE.CAT (RE.TAG s.tags.length false)
                (RE.CAT body (RE.TAG (s.tags.length + 1) false))), s1)) ∧
      (1 < Nat.max n m →
        ast_to_re P opts (.ITER line column (.CAP l1 c1 inner) n m) s =
          .ok (some (if n = 0 then
              RE.ALT (RE.CAT (RE.ITER (RE.CAT (RE.TAG s.tags.length false) body)
                (Nat.max n 1) (Nat.max n m)) (RE.TAG (s.tags.length + 1) false)) RE.NIL
            else RE.CAT (RE.ITER (RE.CAT (RE.TAG s.tags.length false) body)
                (Nat.max n 1) (Nat.max n m)) (RE.TAG (s.tags.length + 1) false)), s1))) ∧
    (∀ l2 c2 ranges negated r s',
      ast_to_re P opts (.ITER line column (.CAP l1 c1 (.CLS l2 c2 ranges negated)) 0 3) s
        = .ok (r, s') →
      s'.tags = s.tags ++ [⟨none, .CAPTURE (2 * s.ncap), true⟩,
        ⟨none, .CAPTURE (2 * s.ncap + 1), false⟩] ∧ s'.ncap = s.ncap + 1 ∧
      ∃ y, r = some (RE.ALT y RE.NIL)) := by
  have hA : ∀ inner n m, Nat.max n m = 0 →
      ast_to_re P opts (.ITER line column (.CAP l1 c1 inner) n m) s =
        .ok (some (RE.ALT (RE.CAT (RE.TAG s.tags.length false)
            (RE.TAG (s.tags.length + 1) false)) RE.NIL),
          ⟨s.tags ++ [⟨none, .CAPTURE (2 * s.ncap), false⟩,
            ⟨none, .CAPTURE (2 * s.ncap + 1), false⟩], s.ncap + 1, s.warn⟩) := by
    intro inner n m h0
    have hn : n = 0 := by
      have hle : n ≤ Nat.max n m := Nat.le_max_left n m
      rw [h0] at hle
      omega
    rw [ast_to_re_ITER_cap P opts line column l1 c1 inner n m s hp, h0]
    simp [capture_pair, iter_rest, re_tag, re_cat, re_alt, re_nil, Tag.ofSlot, hn]
  have hB : ∀ inner n m e, Nat.max n m ≠ 0 →
      ast_to_re P opts (unref inner)
        ⟨s.tags ++ [⟨none, .CAPTURE (2 * s.ncap), decide (Nat.max n m > 1)⟩,
          ⟨none, .CAPTURE (2 * s.ncap + 1), false⟩], s.ncap + 1, s.warn⟩ = .error e →
      ast_to_re P opts (.ITER line column (.CAP l1 c1 inner) n m) s = .error e := by
    intro inner n m e h0 he
    rw [ast_to_re_ITER_cap P opts line column l1 c1 inner n m s hp]
    generalize Nat.max n m = M at h0 he ⊢
    simp only [capture_pair, Tag.ofSlot, List.append_assoc, List.singleton_append, iter_rest,
      h0, if_false, he]
    by_cases h1 : M = 1 <;> simp [h1]
  have hC : ∀ inner n m body s1,
      ast_to_re P opts (unref inner)
        ⟨s.tags ++ [⟨none, .CAPTURE (2 * s.ncap), decide (Nat.max n m > 1)⟩,
          ⟨none, .CAPTURE (2 * s.ncap + 1), false⟩], s.ncap + 1, s.warn⟩
        = .ok (some body, s1) →
      (Nat.max n m = 1 →
        ast_to_re P opts (.ITER line column (.CAP l1 c1 inner) n m) s =
          .ok (some (if n = 0 then
              RE.ALT (RE.CAT (RE.TAG s.tags.length false)
                (RE.CAT body (RE.TAG (s.tags.length + 1) false))) RE.NIL
            else RE.CAT (RE.TAG s.tags.length false)
                (RE.CAT body (RE.TAG (s.tags.length + 1) false))), s1)) ∧
      (1 < Nat.max n m →
        ast_to_re P opts (.ITER line column (.CAP l1 c1 inner) n m) s =
          .ok (some (if n = 0 then
              RE.ALT (RE.CAT (RE.ITER (RE.CAT (RE.TAG s.tags.length false) body)
                (Nat.max n 1) (Nat.max n m)) (RE.TAG (s.tags.length + 1) false)) RE.NIL
            else RE.CAT (RE.ITER (RE.CAT (RE.TAG s.tags.length false) body)
                (Nat.max n 1) (Nat.max n m)) (RE.TAG (s.tags.length + 1) false)), s1)) := by
    intro inner n m body s1 hb
    constructor
    · intro h1
      rw [ast_to_re_ITER_cap P opts line column l1 c1 inner n m s hp]
      generalize Nat.max n 1 = N1
      generalize Nat.max n m = M at h1 hb ⊢
      subst h1
      simp only [capture_pair, Tag.ofSlot, List.append_assoc, List.singleton_append, iter_rest,
        Nat.one_ne_zero, if_false, if_true, hb]
      by_cases hn : n = 0 <;> simp [hn, re_tag, re_cat, re_alt, re_nil]
    · intro h1
      rw [ast_to_re_ITER_cap P opts line column l1 c1 inner n m s hp]
      generalize Nat.max n 1 = N1
      generalize Nat.max n m = M at h1 hb ⊢
      have h0 : M ≠ 0 := by omega
      have h2 : M ≠ 1 := by omega
      simp only [capture_pair, Tag.ofSlot, List.append_assoc, List.singleton_append, iter_rest,
        h0, h2, if_false, hb]
      by_cases hn : n = 0 <;> simp [hn, re_tag, re_cat, re_alt, re_nil, re_iter]
  refine ⟨hA inner n m, hB inner n m, hC inner n m, ?_⟩
  intro l2 c2 ranges negated r s' h
  have hm : Nat.max 0 3 = 3 := rfl
  cases hb : ast_to_re P opts (unref (.CLS l2 c2 ranges negated))
      ⟨s.tags ++ [⟨none, .CAPTURE (2 * s.ncap), decide (Nat.max 0 3 > 1)⟩,
        ⟨none, .CAPTURE (2 * s.ncap + 1), false⟩], s.ncap + 1, s.warn⟩ with
  | error e =>
    rw [hB (.CLS l2 c2 ranges negated) 0 3 e (by decide) hb] at h
    cases h
  | ok p =>
    obtain ⟨body, s1⟩ := p
    obtain ⟨⟨re, rfl⟩, -⟩ := lower_inv P opts _ _ _ _ hb
    have hres := ((hC (.CLS l2 c2 ranges negated) 0 3 re s1 hb).2 (by decide))
    rw [hres] at h
    simp only [if_true, Except.ok.injEq, Prod.mk.injEq] at h
    obtain ⟨h1, h2⟩ := h
    subst h1 h2
    have ht := ast_to_re_CLS_tags (show ast_to_re P opts (.CLS l2 c2 ranges negated) _ = _
      from hb)
    refine ⟨?_, ?_, _, rfl⟩
    · rw [ht.1]
      simp
    · rw [ht.2]

/-! ## Lowering of strings -/

theorem re_schar_eq_symbol (P : Prims) (opts : opt_t) (line column c : Nat) :
    re_schar P opts line column c =
      match symbol_spec P opts line column c with
      | .error e => .error e
      | .ok re => .ok (some re) := by
  unfold symbol_spec re_schar
  cases opts.encoding.encode c with
  | none => rfl
  | some c1 => cases opts.encoding.type <;> rfl

theorem char_lowering_eq (P : Prims) (opts : opt_t) (line : Nat) (ic : Bool) (ch : ASTChar) :
    (if ic then re_ichar P opts line ch.column ch.chr
      else re_schar P opts line ch.column ch.chr) =
      match char_spec P opts line ic ch with
      | .error e => .error e
      | .ok re => .ok (some re) := by
  cases ic with
  | false => simp [char_spec, re_schar_eq_symbol]
  | true =>
    simp only [if_true, re_ichar, char_spec, true_and]
    by_cases ha : P.is_alpha ch.chr = true
    · simp only [ha, if_true, re_schar_eq_symbol]
      cases symbol_spec P opts line ch.column (P.to_lower_unsafe ch.chr) with
      | error e => rfl
      | ok lo =>
        cases symbol_spec P opts line ch.column (P.to_upper_unsafe ch.chr) with
        | error e => rfl
        | ok up => rfl
    · simp [ha, re_schar_eq_symbol]

theorem str_loop_some (P : Prims) (opts : opt_t) (line : Nat) (ic : Bool) :
    ∀ (chars : List ASTChar) (acc : RE),
      str_loop P opts line ic chars (some acc) =
        match chars_spec P opts line ic chars with
        | .error e => .error e
        | .ok rs => .ok (some (rs.foldl RE.CAT acc)) := by
  intro chars
  induction chars with
  | nil => intro acc; rfl
  | cons ch rest ih =>
    intro acc
    simp only [str_loop, chars_spec, char_lowering_eq]
    cases char_spec P opts line ic ch with
    | error e => rfl
    | ok r =>
      simp only [re_cat, ih]
      cases chars_spec P opts line ic rest with
      | error e => rfl
      | ok rs => rfl

theorem str_loop_none (P : Prims) (opts : opt_t) (line : Nat) (ic : Bool)
    (chars : List ASTChar) :
    ((match str_loop P opts line ic chars none with
      | .error e => .error e
      | .ok x => .ok (match x with | some _ => x | none => re_nil)) :
          Except Fatal (Option RE)) =
      match chars_spec P opts line ic chars with
      | .error e => .error e
      | .ok rs => .ok (some (concat_spec rs)) := by
  cases chars with
  | nil => rfl
  | cons ch rest =>
    simp only [str_loop, chars_spec, char_lowering_eq]
    cases char_spec P opts line ic ch with
    | error e => rfl
    | ok r =>
      simp only [re_cat, str_loop_some]
      cases chars_spec P opts line ic rest with
      | error e => rfl
      | ok rs => rfl

/-- Claim C12: a `STR` node lowers as the specification says: the node is
case-insensitive exactly when `bCaseInsensitive || (icase != bCaseInverted)`,
each character becomes its symbol, or the alternation of its lower-case and
upper-case symbol when the node is insensitive and the character alphabetic,
the results are concatenated from left to right, the empty string gives `NIL`,
and the tag table, the counter and the warnings stay as they are. The string
`"ab"` with case-sensitive options gives the concatenation of the symbols of `a`
and `b`, and its fixed length is 2. -/
theorem ast_to_re_str (P : Prims) (opts : opt_t) (line column : Nat) (chars : List ASTChar)
    (icase : Bool) (s : LowerState) :
    ast_to_re P opts (.STR line column chars icase) s =
      (match str_spec P opts line chars icase with
       | .error e => .error e
       | .ok re => .ok (some re, s)) ∧
    (∀ c1 c2 ra rb, opts.bCaseInsensitive = false → opts.bCaseInverted = false →
      symbol_spec P opts line c1 97 = .ok ra → symbol_spec P opts line c2 98 = .ok rb →
      ast_to_re P opts (.STR line column [⟨97, c1⟩, ⟨98, c2⟩] false) s =
        .ok (some (RE.CAT ra rb), s)) ∧
    ast_to_re P opts (.STR line column [] icase) s = .ok (some RE.NIL, s) ∧
    ast_to_re sample_prims plain_opts str_ab empty_state =
      .ok (some (RE.CAT (RE.SYM (some [(97, 98)])) (RE.SYM (some [(98, 99)]))), empty_state) ∧
    (∀ VARDIST c1 c2, fixlen VARDIST (.STR line column [⟨97, c1⟩, ⟨98, c2⟩] icase) = 2) := by
  have main : ∀ (chars : List ASTChar) (icase : Bool),
      ast_to_re P opts (.STR line column chars icase) s =
        (match str_spec P opts line chars icase with
         | .error e => .error e
         | .ok re => .ok (some re, s)) := by
    intro chars icase
    rw [ast_to_re_STR_eq]
    have h := str_loop_none P opts line
      (opts.bCaseInsensitive || (icase != opts.bCaseInverted)) chars
    unfold str_spec
    cases hl : str_loop P opts line (opts.bCaseInsensitive || (icase != opts.bCaseInverted))
        chars none with
    | error e =>
      rw [hl] at h
      cases hc : chars_spec P opts line
          (opts.bCaseInsensitive || (icase != opts.bCaseInverted)) chars with
      | error e2 =>
        rw [hc] at h
        simp only [Except.error.injEq] at h
        simp [h]
      | ok rs =>
        rw [hc] at h
        cases h
    | ok x =>
      rw [hl] at h
      cases hc : chars_spec P opts line
          (opts.bCaseInsensitive || (icase != opts.bCaseInverted)) chars with
      | error e2 =>
        rw [hc] at h
        cases h
      | ok rs =>
        rw [hc] at h
        simp only [Except.ok.injEq] at h
        simp [h]
  refine ⟨main chars icase, ?_, ?_, rfl, ?_⟩
  · intro c1 c2 ra rb h1 h2 ha hb
    rw [main]
    simp [str_spec, chars_spec, char_spec, h1, h2, ha, hb, concat_spec]
  · rw [main]
    rfl
  · intro V c1 c2
    rfl

/-! ## Tag names are used once in a rule -/

theorem name_at_of_get {tags : List Tag} {i : Nat} {tag : Tag} (h : tags[i]? = some tag) :
    name_at tags i = tag.name := by
  simp [name_at, h]

theorem name_at_append (tags new : List Tag) (i : Nat) (h : i < tags.length) :
    name_at (tags ++ new) i = name_at tags i := by
  simp [name_at, List.getElem?_append_left h]

theorem DuplicateName.append {tags : List Tag} (new : List Tag) {lo hi : Nat}
    (hhi : hi ≤ tags.length) :
    DuplicateName (tags ++ new) lo hi ↔ DuplicateName tags lo hi := by
  constructor
  · rintro ⟨i, j, name, h1, h2, h3, h4, h5⟩
    rw [name_at_append tags new i (by omega)] at h4
    rw [name_at_append tags new j (by omega)] at h5
    exact ⟨i, j, name, h1, h2, h3, h4, h5⟩
  · rintro ⟨i, j, name, h1, h2, h3, h4, h5⟩
    rw [← name_at_append tags new i (by omega)] at h4
    rw [← name_at_append tags new j (by omega)] at h5
    exact ⟨i, j, name, h1, h2, h3, h4, h5⟩

theorem NameClash.skip_unnamed {tags : List Tag} {names : List String} {a k : Nat}
    (h : name_at tags a = none) :
    NameClash tags names a (a + (k + 1)) ↔ NameClash tags names (a + 1) (a + 1 + k) := by
  constructor
  · rintro (⟨i, name, h1, h2, h3, h4⟩ | ⟨i, j, name, h1, h2, h3, h4, h5⟩)
    · have hne : i ≠ a := by
        rintro rfl
        rw [h] at h3
        cases h3
      exact Or.inl ⟨i, name, by omega, by omega, h3, h4⟩
    · have hne : i ≠ a := by
        rintro rfl
        rw [h] at h4
        cases h4
      exact Or.inr ⟨i, j, name, by omega, h2, by omega, h4, h5⟩
  · rintro (⟨i, name, h1, h2, h3, h4⟩ | ⟨i, j, name, h1, h2, h3, h4, h5⟩)
    · exact Or.inl ⟨i, name, by omega, by omega, h3, h4⟩
    · exact Or.inr ⟨i, j, name, by omega, h2, by omega, h4, h5⟩

theorem NameClash.insert_name {tags : List Tag} {names : List String} {a k : Nat}
    {name : String} (h : name_at tags a = some name) (hn : name ∉ names) :
    NameClash tags names a (a + (k + 1)) ↔
      NameClash tags (name :: names) (a + 1) (a + 1 + k) := by
  constructor
  · rintro (⟨i, nm, h1, h2, h3, h4⟩ | ⟨i, j, nm, h1, h2, h3, h4, h5⟩)
    · have hne : i ≠ a := by
        rintro rfl
        rw [h] at h3
        cases h3
        exact hn h4
      exact Or.inl ⟨i, nm, by omega, by omega, h3, List.mem_cons_of_mem _ h4⟩
    · by_cases hia : i = a
      · subst hia
        rw [h] at h4
        cases h4
        exact Or.inl ⟨j, name, by omega, by omega, h5, List.mem_cons_self _ _⟩
      · exact Or.inr ⟨i, j, nm, by omega, h2, by omega, h4, h5⟩
  · rintro (⟨i, nm, h1, h2, h3, h4⟩ | ⟨i, j, nm, h1, h2, h3, h4, h5⟩)
    · rcases List.mem_cons.1 h4 with h6 | h6
      · subst h6
        exact Or.inr ⟨a, i, nm, le_refl _, by omega, by omega, h, h3⟩
      · exact Or.inl ⟨i, nm, by omega, by omega, h3, h6⟩
    · exact Or.inr ⟨i, j, nm, by omega, h2, by omega, h4, h5⟩

/-- The loop of `assert_tags_used_once` over `[a, a + k)`: it ends without a
diagnostic when no name clashes, and with the diagnostic when one does. -/
theorem tags_used_once_loop_spec (fline : Nat) (tags : List Tag) :
    ∀ (k a : Nat) (names : List String), a + k ≤ tags.length →
      (¬ NameClash tags names a (a + k) ∧
        tags_used_once_loop fline tags (List.range' a k) names = .ok ()) ∨
      (NameClash tags names a (a + k) ∧
        ∃ name, tags_used_once_loop fline tags (List.range' a k) names =
          .error (.tag_used_multiple_times fline name)) := by
  intro k
  induction k with
  | zero =>
    intro a names _
    left
    refine ⟨?_, rfl⟩
    rintro (⟨i, name, h1, h2, -, -⟩ | ⟨i, j, name, h1, h2, h3, -, -⟩) <;> omega
  | succ k ih =>
    intro a names hle
    have ha : a < tags.length := by omega
    obtain ⟨tag, htag⟩ : ∃ tag, tags[a]? = some tag :=
      ⟨tags[a], List.getElem?_eq_getElem ha⟩
    have hname := name_at_of_get htag
    have hrange : List.range' a (k + 1) = a :: List.range' (a + 1) k := rfl
    rw [hrange]
    simp only [tags_used_once_loop, htag]
    cases hn : tag.name with
    | none =>
      rw [hn] at hname
      simp only []
      rw [NameClash.skip_unnamed hname]
      exact ih (a + 1) names (by omega)
    | some name =>
      rw [hn] at hname
      simp only []
      by_cases hmem : name ∈ names
      · right
        simp only [hmem, if_true]
        exact ⟨Or.inl ⟨a, name, le_refl _, by omega, hname, hmem⟩, name, rfl⟩
      · simp only [hmem, if_false]
        rw [NameClash.insert_name hname hmem]
        exact ih (a + 1) (name :: names) (by omega)

theorem find_ttag_ok (P : Prims) (tags : List Tag) (htag : Nat) :
    ∀ (k a : Nat), a + k ≤ tags.length →
      ∃ t, find_ttag P tags htag (List.range' a k) = .ok t := by
  intro k
  induction k with
  | zero => intro a _; exact ⟨htag, rfl⟩
  | succ k ih =>
    intro a hle
    have ha : a < tags.length := by omega
    have hrange : List.range' a (k + 1) = a :: List.range' (a + 1) k := rfl
    rw [hrange]
    simp only [find_ttag, List.getElem?_eq_getElem ha]
    by_cases ht : P.trailing tags[a] = true
    · exact ⟨a, by simp [ht]⟩
    · simp only [ht, if_false, Bool.false_eq_true]
      exact ih (a + 1) (by omega)

theorem NameClash.nil_iff (tags : List Tag) (lo hi : Nat) :
    NameClash tags [] lo hi ↔ DuplicateName tags lo hi := by
  constructor
  · rintro (⟨i, name, -, -, -, h4⟩ | h)
    · cases h4
    · exact h
  · exact Or.inr

/-- The function `init_rule` ends in one of two ways: with the rule, when no two
tags of `[ltag, tags.size())` share a name, or with the diagnostic. -/
theorem init_rule_cases (P : Prims) (code : Code) (tags : List Tag) (ltag ncap : Nat) :
    (¬ DuplicateName tags ltag tags.length ∧
      ∃ ttag, init_rule P code tags ltag ncap = .ok ⟨code, ltag, tags.length, ttag, ncap⟩) ∨
    (DuplicateName tags ltag tags.length ∧
      ∃ name, init_rule P code tags ltag ncap =
        .error (.tag_used_multiple_times code.fline name)) := by
  unfold init_rule
  simp only []
  by_cases hl : ltag ≤ tags.length
  · obtain ⟨t, ht⟩ := find_ttag_ok P tags tags.length (tags.length - ltag) ltag (by omega)
    rw [ht]
    simp only [assert_tags_used_once]
    have hsum : ltag + (tags.length - ltag) = tags.length := by omega
    have h := tags_used_once_loop_spec code.fline tags (tags.length - ltag) ltag [] (by omega)
    rw [hsum, NameClash.nil_iff] at h
    rcases h with ⟨h1, h2⟩ | ⟨h1, name, h2⟩
    · left
      rw [h2]
      exact ⟨h1, t, rfl⟩
    · right
      rw [h2]
      exact ⟨h1, name, rfl⟩
  · have h0 : tags.length - ltag = 0 := by omega
    left
    rw [h0]
    refine ⟨?_, tags.length, ?_⟩
    · rintro ⟨i, j, name, h1, h2, h3, -, -⟩
      omega
    · simp [find_ttag, assert_tags_used_once, h0, tags_used_once_loop]

/-- The constructor of `RESpec` keeps every finished rule free of duplicate names. -/
theorem RESpec.build_inv (P : Prims) (opts : opt_t) :
    ∀ (rules : List ASTRule) (sp sp' : RESpec), RESpec.build P opts rules sp = .ok sp' →
      (∀ r ∈ sp.rules, r.htag ≤ sp.tags.length ∧ ¬ DuplicateName sp.tags r.ltag r.htag) →
      ∀ r ∈ sp'.rules, r.htag ≤ sp'.tags.length ∧ ¬ DuplicateName sp'.tags r.ltag r.htag := by
  intro rules
  induction rules with
  | nil =>
    intro sp sp' h hinv
    simp only [RESpec.build, Except.ok.injEq] at h
    subst h
    exact hinv
  | cons r rest ih =>
    intro sp sp' h hinv
    simp only [RESpec.build] at h
    cases hl : ast_to_re P opts r.ast ⟨sp.tags, 0, sp.warn⟩ with
    | error e => simp [hl] at h
    | ok x =>
      obtain ⟨re, s⟩ := x
      simp only [hl] at h
      obtain ⟨-, new, hnew, -⟩ := lower_inv P opts r.ast _ _ _ hl
      simp only at hnew
      rcases init_rule_cases P r.code s.tags sp.tags.length s.ncap with
        ⟨hnd, ttag, hr⟩ | ⟨-, name, hr⟩
      · rw [hr] at h
        simp only at h
        refine ih _ _ h ?_
        intro q hq
        simp only [List.mem_append, List.mem_singleton] at hq
        rcases hq with hq | hq
        · obtain ⟨h1, h2⟩ := hinv q hq
          simp only [hnew, List.length_append]
          refine ⟨by omega, ?_⟩
          rw [DuplicateName.append new h1]
          exact h2
        · subst hq
          exact ⟨le_refl _, hnd⟩
      · rw [hr] at h
        simp at h

/-- Claim C11: `init_rule` raises the diagnostic "tag used multiple times" exactly
when two tags at distinct indices of the range `[ltag, htag)` of the rule carry
the same name, and ends with the rule exactly when they do not (tags without a
name never take part); hence in every rule of a specification that `RESpec`
built, no name appears twice within `[ltag, htag)`. The rule `@x "ab" @x` is
refused, and `@x "ab" @y` twice in a row is accepted. -/
theorem init_rule_tags_used_once (P : Prims) (code : Code) (tags : List Tag)
    (ltag ncap : Nat) :
    ((∃ name, init_rule P code tags ltag ncap =
        .error (.tag_used_multiple_times code.fline name)) ↔
      DuplicateName tags ltag tags.length) ∧
    ((∃ rule, init_rule P code tags ltag ncap = .ok rule ∧ rule.ltag = ltag ∧
        rule.htag = tags.length) ↔ ¬ DuplicateName tags ltag tags.length) ∧
    (∀ (opts : opt_t) (asts : List ASTRule) (sp : RESpec),
      RESpec.create P opts asts = .ok sp →
      ∀ rule ∈ sp.rules, rule.htag ≤ sp.tags.length ∧
        ¬ DuplicateName sp.tags rule.ltag rule.htag) ∧
    RESpec.create sample_prims plain_opts [⟨twice_x, ⟨7⟩⟩] =
      .error (.tag_used_multiple_times 7 "x") ∧
    (∃ sp, RESpec.create sample_prims plain_opts [⟨x_then_y, ⟨7⟩⟩, ⟨x_then_y, ⟨9⟩⟩] = .ok sp ∧
      sp.rules = [⟨⟨7⟩, 0, 2, 2, 0⟩, ⟨⟨9⟩, 2, 4, 4, 0⟩] ∧
      sp.tags.map Tag.name = [some "x", some "y", some "x", some "y"]) := by
  refine ⟨?_, ?_, ?_, rfl, ⟨_, rfl, rfl, rfl⟩⟩
  · rcases init_rule_cases P code tags ltag ncap with ⟨h1, t, h2⟩ | ⟨h1, name, h2⟩
    · constructor
      · rintro ⟨name, h3⟩
        rw [h2] at h3
        cases h3
      · intro h
        exact absurd h h1
    · exact ⟨fun _ => h1, fun _ => ⟨name, h2⟩⟩
  · rcases init_rule_cases P code tags ltag ncap with ⟨h1, t, h2⟩ | ⟨h1, name, h2⟩
    · exact ⟨fun _ => h1, fun _ => ⟨_, h2, rfl, rfl⟩⟩
    · constructor
      · rintro ⟨rule, h3, -⟩
        rw [h2] at h3
        cases h3
      · intro h
        exact absurd h1 h
  · intro opts asts sp h
    refine RESpec.build_inv P opts asts _ sp h ?_
    intro r hr
    cases hr

/-! ## The partition is not always the smallest one -/

/-- Claim C19: the function does not always return a smallest partition. For four
versions, no copy command and symmetric interference on exactly the pairs
`(0,3)`, `(1,2)`, `(2,3)`, it returns the count 3 (the classes `{0,1}`, `{2}`,
`{3}`), while the assignment with the classes `{0,2}` and `{1,3}` uses 2
variables and gives no two interfering versions the same variable. -/
theorem variable_allocation_not_minimal :
    heur_cfg.nver = 4 ∧ allCmds heur_cfg.bblocks = [] ∧
    SymmetricTable heur_cfg.nver heur_interf ∧
    (∀ x < 4, ∀ y < 4, heur_interf[x * 4 + y]? =
      some (decide ((x, y) ∈ [(0, 3), (3, 0), (1, 2), (2, 1), (2, 3), (3, 2)]))) ∧
    (∀ tagver_zero fuel : Nat, heur_cfg.nver < fuel →
      variable_allocation tagver_zero heur_cfg heur_interf fuel =
        some (3, [some 1, some 1, some 2, some 3])) ∧
    heur_alt.length = heur_cfg.nver ∧
    (∀ x < 4, ∃ c, heur_alt[x]? = some c ∧ 1 ≤ c ∧ c ≤ 2) ∧
    (∀ x < 4, ∀ y < 4, heur_interf[x * 4 + y]? = some true → heur_alt[x]? ≠ heur_alt[y]?) ∧
    2 < 3 := by
  refine ⟨rfl, rfl, by decide, by decide, ?_, rfl, by decide, by decide, by decide⟩
  intro z fuel hf
  have hf5 : 5 ≤ fuel := hf
  have hz : variable_allocation z heur_cfg heur_interf 5 =
      variable_allocation 0 heur_cfg heur_interf 5 :=
    variable_allocation_congr_zero heur_cfg heur_interf 5
      (fun b hb => by cases hb)
  exact variable_allocation_mono z heur_cfg heur_interf hf5 _ (hz.trans (by decide))

/-! ## Copy coalescing is kept to the end -/

theorem copy_coalescing_flat (tagver_zero N : Nat) (interf : List Bool) (fuel : Nat) :
    ∀ (bblocks : List cfg_bb_t) (s : Lists),
      copy_coalescing tagver_zero N interf fuel bblocks s =
        forLoop (coalesce tagver_zero N interf fuel) (allCmds bblocks) s := by
  intro bblocks
  induction bblocks with
  | nil => intro s; rfl
  | cons b bs ih =>
    intro s
    have hall : allCmds (b :: bs) = b.cmd ++ allCmds bs := by
      simp [allCmds, List.flatMap_cons]
    rw [hall, forLoop_append]
    unfold copy_coalescing at ih ⊢
    simp only [forLoop]
    cases forLoop (coalesce tagver_zero N interf fuel) b.cmd s with
    | none => rfl
    | some s' => exact ih s'

theorem forLoop_filter {ι σ : Type} (body : ι → σ → Option σ) (keep : ι → Bool) :
    ∀ (l : List ι), (∀ i ∈ l, keep i = false → ∀ s, body i s = some s) →
      ∀ s, forLoop body (l.filter keep) s = forLoop body l s := by
  intro l
  induction l with
  | nil => intro _ s; rfl
  | cons i l ih =>
    intro h s
    have ih' := ih (fun j hj => h j (List.mem_cons_of_mem _ hj))
    cases hk : keep i with
    | true =>
      rw [List.filter_cons_of_pos hk]
      simp only [forLoop]
      cases body i s with
      | none => rfl
      | some s' => exact ih' s'
    | false =>
      rw [List.filter_cons_of_neg (by simp [hk])]
      simp only [forLoop, h i (List.mem_cons_self _ _) hk s]
      exact ih' s

theorem coalesce_skip (tagver_zero N : Nat) (interf : List Bool) (fuel : Nat) (p : tcmd_t)
    (h : effective tagver_zero p = false) (s : Lists) :
    coalesce tagver_zero N interf fuel p s = some s := by
  have h1 : p.rhs = tagver_zero ∨ p.rhs = p.lhs := by
    by_contra hc
    have h2 : effective tagver_zero p = true := by
      simp only [not_or] at hc
      simp [effective, hc.1, hc.2]
    rw [h] at h2
    cases h2
  simp [coalesce, h1]

theorem coalesce_first {N : Nat} {interf : List Bool} (tagver_zero fuel : Nat) {p : tcmd_t}
    (he : effective tagver_zero p = true) (hx : p.lhs < N) (hy : p.rhs < N)
    (hno : interf[p.lhs * N + p.rhs]? = some false) :
    ∃ s', coalesce tagver_zero N interf fuel p (init N) = some s' ∧
      s'.repr[p.lhs]? = some p.lhs ∧ s'.repr[p.rhs]? = some p.lhs := by
  have h1 : ¬ (p.rhs = tagver_zero ∨ p.rhs = p.lhs) := by
    intro hc
    have h2 : effective tagver_zero p = false := by
      rcases hc with hc | hc <;> simp [effective, hc]
    rw [he] at h2
    cases h2
  have hrx : (init N).repr[p.lhs]? = some END := by
    simp [init, List.getElem?_replicate, hx]
  have hry : (init N).repr[p.rhs]? = some END := by
    simp [init, List.getElem?_replicate, hy]
  have hl1 : (init N).repr.length = N := by simp [init]
  have hl2 : (init N).next.length = N := by simp [init]
  refine ⟨⟨(init N).next.set p.lhs p.rhs, ((init N).repr.set p.rhs p.lhs).set p.lhs p.lhs⟩,
    ?_, ?_, ?_⟩
  · unfold coalesce
    simp only [h1, if_false, hrx, hry, hno, ne_eq, not_true_eq_false]
    rw [store_eq p.lhs (by omega)]
    simp only []
    rw [store_eq p.lhs (by simp; omega)]
    simp only []
    rw [store_eq p.rhs (by omega)]
  · simp only []
    rw [getElem?_set_lt p.lhs p.lhs (by simp; omega)]
    simp
  · simp only []
    rw [getElem?_set_lt p.rhs p.lhs (by simp; omega),
      getElem?_set_lt p.rhs p.lhs (by omega)]
    simp

/-- Two versions of one class stay in one class. -/
theorem Step.keeps_together {N : Nat} {interf : List Bool} {repr repr' : List Nat}
    (h : Step N interf repr repr') (hok : ReprOk N repr) {a b q : Nat}
    (ha : repr[a]? = some q) (hb : repr[b]? = some q) (hq : q ≠ END) :
    ∃ q', repr'[a]? = some q' ∧ repr'[b]? = some q' ∧ q' ≠ END := by
  have hfree : ∀ x, repr[x]? = some END → x ≠ a ∧ x ≠ b := by
    intro x hx
    constructor
    · rintro rfl
      rw [hx] at ha
      exact hq (Option.some.inj ha).symm
    · rintro rfl
      rw [hx] at hb
      exact hq (Option.some.inj hb).symm
  rcases h.cases_get hok with ⟨m, r, hm, hr, hrE, -, hget⟩ | ⟨x, y, hne, hx, hy, -, hget⟩ |
    ⟨rx, ry, hne, hrx, hry, -, hget⟩ | ⟨x, hx, -, hget⟩
  · exact ⟨q, by rw [hget]; simp [(hfree m hm).1, ha],
      by rw [hget]; simp [(hfree m hm).2, hb], hq⟩
  · exact ⟨q, by rw [hget]; simp [(hfree x hx).1, (hfree y hy).1, ha],
      by rw [hget]; simp [(hfree x hx).2, (hfree y hy).2, hb], hq⟩
  · by_cases h1 : q = ry
    · exact ⟨rx, by rw [hget]; simp [ha, h1], by rw [hget]; simp [hb, h1], hok.ne_end hrx⟩
    · exact ⟨q, by rw [hget]; simp [ha, h1], by rw [hget]; simp [hb, h1], hq⟩
  · exact ⟨q, by rw [hget]; simp [(hfree x hx).1, ha],
      by rw [hget]; simp [(hfree x hx).2, hb], hq⟩

theorem Steps.keep_together {N : Nat} {interf : List Bool} {repr repr' : List Nat}
    (h : Steps N interf repr repr') (hok : ReprOk N repr) {a b q : Nat}
    (ha : repr[a]? = some q) (hb : repr[b]? = some q) (hq : q ≠ END) :
    ∃ q', repr'[a]? = some q' ∧ repr'[b]? = some q' ∧ q' ≠ END := by
  induction h with
  | refl => exact ⟨q, ha, hb, hq⟩
  | tail hsteps hstep ih =>
    obtain ⟨q1, h1, h2, h3⟩ := ih
    exact hstep.keeps_together (Steps.keep_reprOk hsteps hok) h1 h2 h3

theorem coalesce_list_spec {N : Nat} {s : Lists} (hI : ClassInv N s) {interf : List Bool}
    (hlen : interf.length = N * N) {fuel : Nat} (hf : N < fuel) (tagver_zero : Nat)
    (cmds : List tcmd_t) (hcmd : ∀ p ∈ cmds, p.lhs < N ∧ p.rhs < N) :
    ∃ s', forLoop (coalesce tagver_zero N interf fuel) cmds s = some s' ∧
      Grown N interf s s' := by
  refine forLoop_inv _ (fun t => Grown N interf s t) cmds ?_ s (Grown.refl hI)
  intro p hp u hu
  obtain ⟨u', hu', hI', hstep⟩ := coalesce_spec hu.1 hlen hf tagver_zero p (hcmd p hp)
  exact ⟨u', hu', hu.trans (Grown.of_step hI' hstep)⟩

theorem mem_allCmds {bblocks : List cfg_bb_t} {p : tcmd_t} (h : p ∈ allCmds bblocks) :
    ∃ b ∈ bblocks, p ∈ b.cmd := by
  simpa [allCmds, List.mem_flatMap] using h

theorem forLoop_id {ι σ : Type} (body : ι → σ → Option σ) :
    ∀ (l : List ι), (∀ i ∈ l, ∀ s, body i s = some s) → ∀ s, forLoop body l s = some s := by
  intro l
  induction l with
  | nil => intro _ s; rfl
  | cons i l ih =>
    intro h s
    simp only [forLoop, h i (List.mem_cons_self _ _) s]
    exact ih (fun j hj => h j (List.mem_cons_of_mem _ hj)) s

/-- The result depends on the commands that are not skipped only. -/
theorem variable_allocation_effective (tagver_zero : Nat) (cfg cfg' : cfg_t)
    (interf : List Bool) (fuel : Nat) (hv : cfg'.maxtagver = cfg.maxtagver)
    (hc : (allCmds cfg'.bblocks).filter (effective tagver_zero) =
      (allCmds cfg.bblocks).filter (effective tagver_zero)) :
    variable_allocation tagver_zero cfg' interf fuel =
      variable_allocation tagver_zero cfg interf fuel := by
  have hn : cfg'.nver = cfg.nver := by simp [cfg_t.nver, hv]
  have hskip : ∀ (l : List tcmd_t) (N : Nat), ∀ i ∈ l, effective tagver_zero i = false →
      ∀ s, coalesce tagver_zero N interf fuel i s = some s :=
    fun _ N i _ hi s => coalesce_skip tagver_zero N interf fuel i hi s
  have h1 : copy_coalescing tagver_zero cfg'.nver interf fuel cfg'.bblocks (init cfg'.nver) =
      copy_coalescing tagver_zero cfg.nver interf fuel cfg.bblocks (init cfg.nver) := by
    rw [copy_coalescing_flat, copy_coalescing_flat, hn,
      ← forLoop_filter _ (effective tagver_zero) (allCmds cfg'.bblocks) (hskip _ cfg.nver),
      ← forLoop_filter _ (effective tagver_zero) (allCmds cfg.bblocks) (hskip _ cfg.nver), hc]
  unfold variable_allocation partition
  rw [h1, hn]

/-- Claim C18: copy coalescing is kept to the end. When the function runs on a
well-formed input, (a) if the first command in scan order with
`rhs != TAGVER_ZERO` and `lhs != rhs` has sides that do not interfere, `lhs` and
`rhs` get the same variable; (b) two versions that are in one class after the
copy-coalescing phase are in one class after class merging and after residual
placement and get the same variable; (c) the commands with `rhs = TAGVER_ZERO`
or `lhs = rhs` have no effect: two inputs with the same other commands in the
same order give the same result. -/
theorem copy_coalescing_kept (tagver_zero : Nat) (cfg : cfg_t) (interf : List Bool)
    (fuel : Nat) (hN : cfg.nver ≤ END) (hlen : interf.length = cfg.nver * cfg.nver)
    (hcmd : CmdsInRange cfg.nver cfg.bblocks) (hf : cfg.nver < fuel) :
    ∃ s1 s2 s3 count v,
      copy_coalescing tagver_zero cfg.nver interf fuel cfg.bblocks (init cfg.nver) = some s1 ∧
      class_merging cfg.nver interf fuel s1 = some s2 ∧
      residual_placement cfg.nver interf fuel s2 = some s3 ∧
      variable_allocation tagver_zero cfg interf fuel = some (count, v) ∧
      (∀ (pre post : List tcmd_t) (p : tcmd_t), allCmds cfg.bblocks = pre ++ p :: post →
        (∀ c ∈ pre, c.rhs = tagver_zero ∨ c.lhs = c.rhs) →
        p.rhs ≠ tagver_zero → p.lhs ≠ p.rhs →
        interf[p.lhs * cfg.nver + p.rhs]? = some false →
        v[p.lhs]? = v[p.rhs]? ∧ ∃ k, v[p.lhs]? = some (some k)) ∧
      (∀ a b q : Nat, s1.repr[a]? = some q → s1.repr[b]? = some q → q ≠ END →
        (∃ q2, q2 ≠ END ∧ s2.repr[a]? = some q2 ∧ s2.repr[b]? = some q2) ∧
        (∃ q3, q3 ≠ END ∧ s3.repr[a]? = some q3 ∧ s3.repr[b]? = some q3) ∧
        v[a]? = v[b]? ∧ ∃ k, v[a]? = some (some k)) ∧
      (∀ cfg' : cfg_t, cfg'.maxtagver = cfg.maxtagver →
        (allCmds cfg'.bblocks).filter (effective tagver_zero) =
          (allCmds cfg.bblocks).filter (effective tagver_zero) →
        variable_allocation tagver_zero cfg' interf fuel = some (count, v)) := by
  obtain ⟨s1, s2, s3, h1, h2, h3, hp, hg1, hg2, hI3, hst3, -, -⟩ :=
    partition_spec tagver_zero cfg interf fuel hN hlen hcmd hf
  obtain ⟨s3', v, hp', hva, -, -, -, -, hget⟩ :=
    variable_allocation_spec tagver_zero cfg interf fuel hN hlen hcmd hf
  have hs3 : s3' = s3 := by
    rw [hp] at hp'
    exact (Option.some.inj hp').symm
  subst hs3
  have together : ∀ a b q : Nat, s1.repr[a]? = some q → s1.repr[b]? = some q → q ≠ END →
      (∃ q2, q2 ≠ END ∧ s2.repr[a]? = some q2 ∧ s2.repr[b]? = some q2) ∧
      (∃ q3, q3 ≠ END ∧ s3'.repr[a]? = some q3 ∧ s3'.repr[b]? = some q3) ∧
      v[a]? = v[b]? ∧ ∃ k, v[a]? = some (some k) := by
    intro a b q ha hb hq
    obtain ⟨q2, ha2, hb2, hq2⟩ := Steps.keep_together hg2.2.1 hg1.1.toReprOk ha hb hq
    obtain ⟨q3, ha3, hb3, hq3⟩ := Steps.keep_together hst3 hg2.1.toReprOk ha2 hb2 hq2
    obtain ⟨qa, hqa, -, -, hva⟩ := hget a (hg1.1.rep_lt ha)
    obtain ⟨qb, hqb, -, -, hvb⟩ := hget b (hg1.1.rep_lt hb)
    rw [ha3] at hqa
    rw [hb3] at hqb
    cases hqa
    cases hqb
    exact ⟨⟨q2, hq2, ha2, hb2⟩, ⟨q3, hq3, ha3, hb3⟩, by rw [hva, hvb], _, hva⟩
  refine ⟨s1, s2, s3', _, v, h1, h2, h3, hva, ?_, together, ?_⟩
  · intro pre post p hall hpre hz hne hno
    have hmem : ∀ c ∈ allCmds cfg.bblocks, c.lhs < cfg.nver ∧ c.rhs < cfg.nver := by
      intro c hc
      obtain ⟨b, hb, hcb⟩ := mem_allCmds hc
      exact hcmd b hb c hcb
    have hpin : p.lhs < cfg.nver ∧ p.rhs < cfg.nver :=
      hmem p (by rw [hall]; simp)
    have he : effective tagver_zero p = true := by
      have hne' : ¬ p.rhs = p.lhs := fun h => hne h.symm
      simp [effective, hz, hne']
    obtain ⟨s0, hs0, hx0, hy0⟩ :=
      @coalesce_first cfg.nver interf tagver_zero fuel p he hpin.1 hpin.2 hno
    obtain ⟨s0', hs0', hI0, -⟩ :=
      coalesce_spec (init_inv hN) hlen hf tagver_zero p hpin
    have e0 : s0' = s0 := by
      rw [hs0] at hs0'
      exact (Option.some.inj hs0').symm
    subst e0
    obtain ⟨s1', hs1', hg⟩ := coalesce_list_spec hI0 hlen hf tagver_zero post
      (fun c hc => hmem c (by rw [hall]; simp [hc]))
    have hpre' : forLoop (coalesce tagver_zero cfg.nver interf fuel) pre (init cfg.nver) =
        some (init cfg.nver) := by
      refine forLoop_id _ pre ?_ _
      intro c hc s
      refine coalesce_skip tagver_zero cfg.nver interf fuel c ?_ s
      rcases hpre c hc with h | h
      · simp [effective, h]
      · simp [effective, h]
    have e1 : s1' = s1 := by
      rw [copy_coalescing_flat, hall, forLoop_append, hpre'] at h1
      have hb : (some (init cfg.nver)).bind
            (forLoop (coalesce tagver_zero cfg.nver interf fuel) (p :: post)) =
          some s1' := by
        show forLoop (coalesce tagver_zero cfg.nver interf fuel) (p :: post) (init cfg.nver) =
          some s1'
        simp only [forLoop, hs0, hs1']
      rw [hb] at h1
      exact Option.some.inj h1
    subst e1
    obtain ⟨q1, ha1, hb1, hq1⟩ := Steps.keep_together hg.2.1 hI0.toReprOk hx0 hy0
      (hI0.idx_ne_end hx0)
    obtain ⟨-, -, hv, hk⟩ := together p.lhs p.rhs q1 ha1 hb1 hq1
    exact ⟨hv, hk⟩
  · intro cfg' hv hc
    rw [variable_allocation_effective tagver_zero cfg cfg' interf fuel hv hc]
    exact hva

/-- The example for C18: with `TAGVER_ZERO = 0` the commands `1 = 0` and `2 = 2`
of `skip_cfg` are skipped, `2 = 1` is the first command the loop works on, and
the result is the same as for the single command `2 = 1`. -/
theorem copy_coalescing_kept_witness :
    skip_cfg.nver ≤ END ∧ chain_interf.length = skip_cfg.nver * skip_cfg.nver ∧
    CmdsInRange skip_cfg.nver skip_cfg.bblocks ∧ skip_cfg.nver < 4 ∧
    variable_allocation 0 skip_cfg chain_interf 4 = some (2, [some 1, some 2, some 2]) ∧
    variable_allocation 0 ⟨2, [⟨[⟨2, 1⟩, ⟨1, 2⟩]⟩]⟩ chain_interf 4 =
      some (2, [some 1, some 2, some 2]) ∧
    ∃ s1 s2 s3 count v,
      copy_coalescing 0 skip_cfg.nver chain_interf 4 skip_cfg.bblocks (init skip_cfg.nver)
        = some s1 ∧
      class_merging skip_cfg.nver chain_interf 4 s1 = some s2 ∧
      residual_placement skip_cfg.nver chain_interf 4 s2 = some s3 ∧
      variable_allocation 0 skip_cfg chain_interf 4 = some (count, v) ∧
      (∀ (pre post : List tcmd_t) (p : tcmd_t), allCmds skip_cfg.bblocks = pre ++ p :: post →
        (∀ c ∈ pre, c.rhs = 0 ∨ c.lhs = c.rhs) →
        p.rhs ≠ 0 → p.lhs ≠ p.rhs →
        chain_interf[p.lhs * skip_cfg.nver + p.rhs]? = some false →
        v[p.lhs]? = v[p.rhs]? ∧ ∃ k, v[p.lhs]? = some (some k)) ∧
      (∀ a b q : Nat, s1.repr[a]? = some q → s1.repr[b]? = some q → q ≠ END →
        (∃ q2, q2 ≠ END ∧ s2.repr[a]? = some q2 ∧ s2.repr[b]? = some q2) ∧
        (∃ q3, q3 ≠ END ∧ s3.repr[a]? = some q3 ∧ s3.repr[b]? = some q3) ∧
        v[a]? = v[b]? ∧ ∃ k, v[a]? = some (some k)) ∧
      (∀ cfg' : cfg_t, cfg'.maxtagver = skip_cfg.maxtagver →
        (allCmds cfg'.bblocks).filter (effective 0) =
          (allCmds skip_cfg.bblocks).filter (effective 0) →
        variable_allocation 0 cfg' chain_interf 4 = some (count, v)) :=
  ⟨by decide, by decide, by decide, by decide, by decide, by decide,
    copy_coalescing_kept 0 skip_cfg chain_interf 4 (by decide) (by decide) (by decide)
      (by decide)⟩

/-! ## The examples of lowering in POSIX mode -/

/-- The example of C13: `([a-z]){0,3}` from the empty state gives the open tag
with history, the close tag without, the counter 1, and the bounded repetition
followed by the close tag, alternated with `NIL`. -/
theorem ast_to_re_iter_cap_witness :
    posix_opts.posix_captures = true ∧
    ast_to_re sample_prims posix_opts iter_cap_az empty_state =
      .ok (some iter_cap_az_re,
        ⟨[⟨none, .CAPTURE 0, true⟩, ⟨none, .CAPTURE 1, false⟩], 1, []⟩) :=
  ⟨rfl,
    ((ast_to_re_iter_cap sample_prims posix_opts 1 1 1 1 cls_az 0 3 empty_state rfl).2.2.1
      (RE.SYM (some [(97, 123)]))
      ⟨[⟨none, .CAPTURE 0, true⟩, ⟨none, .CAPTURE 1, false⟩], 1, []⟩ rfl).2 (by decide)⟩

/-- The example of C20: `([a-z]){0,3} | ("ab")` from the empty state appends six
tags, a fictive pair and the two capture pairs with the slots `0, 1, 2, 3`. -/
theorem posix_capture_numbering_witness :
    posix_opts.posix_captures = true ∧
    ast_to_re sample_prims posix_opts two_caps ⟨[], 0, []⟩ =
      .ok (some two_caps_re, ⟨two_caps_tags, 2, []⟩) ∧
    ∃ new : List Tag, two_caps_tags = [] ++ new ∧ Even new.length ∧
      (∀ t ∈ new, fictive t = true ∨ ∃ k, t.ncap = .CAPTURE k) ∧
      new.filterMap slot_of = List.range (2 * 2) ∧
      paired 0 new = some 2 ∧
      ∀ (code : Code) (rule : Rule),
        init_rule sample_prims code two_caps_tags 0 2 = .ok rule →
        rule.ltag = 0 ∧ rule.htag = two_caps_tags.length ∧ rule.ncap = 2 :=
  ⟨rfl, rfl,
    posix_capture_numbering sample_prims posix_opts two_caps [] [] (some two_caps_re)
      ⟨two_caps_tags, 2, []⟩ rfl rfl⟩

end re2c
